import Mathlib

/-!
# Undo history of `GameModel` (src/gui/game/GameModel.cpp)

A shallow embedding of the undo-history members of `GameModel`
(`history`, `historyCurrent`, `historyPosition`, `undoHistoryLimit`) and of the
member functions `HistoryCurrent`, `HistoryCanRestore`, `HistoryRestore`,
`HistoryCanForward`, `HistoryForward`, `HistoryPush`, `GetUndoHistoryLimit` and
`SetUndoHistoryLimit`.

* `Snapshot` and `SnapshotDelta` are declared outside the embedded sources; they are
  type parameters `S` and `D`, and `SnapshotDelta::FromSnapshots`,
  `SnapshotDelta::Forward`, `SnapshotDelta::Restore` are the fields of `SnapshotOps`.
* `std::unique_ptr<T>` is `Option T`; dereferencing an empty pointer, indexing the
  deque out of range and `back()` on an empty deque are undefined behaviour and make
  the embedded function return `none`.
* `historyPosition` and `undoHistoryLimit` are `unsigned int`: `+= 1U` and `-= 1U`
  are computed modulo `UINT_MOD`.
-/

namespace ChemistryMode

/-- Number of values of the C++ type `unsigned int` (32 bits), the type of
`historyPosition` and `undoHistoryLimit`. -/
def UINT_MOD : Nat := 4294967296

/-- Unsigned `x + 1U`. -/
def uadd1 (x : Nat) : Nat := (x + 1) % UINT_MOD

/-- Unsigned `x - 1U` (wraps to `UINT_MOD - 1` at zero). -/
def usub1 (x : Nat) : Nat := (x + (UINT_MOD - 1)) % UINT_MOD

/-- The operations of the external type `SnapshotDelta` used by the history code. -/
structure SnapshotOps (S D : Type) where
  /-- The static factory `SnapshotDelta::FromSnapshots(oldSnap, newSnap)`. -/
  FromSnapshots : S → S → D
  /-- The member `d.Forward(oldSnap)`. -/
  Forward : D → S → S
  /-- The member `d.Restore(newSnap)`. -/
  Restore : D → S → S

/-- The struct `HistoryEntry`: two owning pointers, either of which may be empty. -/
structure HistoryEntry (S D : Type) where
  snap : Option S
  delta : Option D
deriving DecidableEq, Repr

/-- The undo-history members of `GameModel`. -/
structure GameModel (S D : Type) where
  history : List (HistoryEntry S D)
  historyCurrent : Option S
  historyPosition : Nat
  undoHistoryLimit : Nat
deriving DecidableEq, Repr

variable {S D : Type}

/-- Accessor `GameModel::HistoryCurrent`. -/
def HistoryCurrent (m : GameModel S D) : Option S := m.historyCurrent

/-- Predicate `GameModel::HistoryCanRestore`: `historyPosition > 0U`. -/
def HistoryCanRestore (m : GameModel S D) : Bool := decide (m.historyPosition > 0)

/-- Predicate `GameModel::HistoryCanForward`: `historyPosition < history.size()`. -/
def HistoryCanForward (m : GameModel S D) : Bool :=
  decide (m.historyPosition < m.history.length)

/-- Member function `GameModel::HistoryRestore`. -/
def HistoryRestore (ops : SnapshotOps S D) (m : GameModel S D) : Option (GameModel S D) :=
  if HistoryCanRestore m = false then some m
  else
    let pos := usub1 m.historyPosition
    match m.history[pos]? with
    | none => none
    | some e =>
      match e.snap with
      | some s => some { m with historyPosition := pos, historyCurrent := some s }
      | none =>
        match e.delta, m.historyCurrent with
        | some d, some c =>
          some { m with historyPosition := pos, historyCurrent := some (ops.Restore d c) }
        | _, _ => none

/-- Member function `GameModel::HistoryForward`. -/
def HistoryForward (ops : SnapshotOps S D) (m : GameModel S D) : Option (GameModel S D) :=
  if HistoryCanForward m = false then some m
  else
    let pos := uadd1 m.historyPosition
    if pos = m.history.length then
      some { m with historyPosition := pos, historyCurrent := none }
    else
      match m.history[pos]? with
      | none => none
      | some e =>
        match e.snap with
        | some s => some { m with historyPosition := pos, historyCurrent := some s }
        | none =>
          match m.history[usub1 pos]? with
          | none => none
          | some prev =>
            match prev.delta, m.historyCurrent with
            | some d, some c =>
              some { m with historyPosition := pos, historyCurrent := some (ops.Forward d c) }
            | _, _ => none

/-- The first block of `GameModel::HistoryPush`: the value `rebaseOnto` points at when
the block is left (`none` for `nullptr`).  The assignment to `historyCurrent` made in
the inner branch is not returned: `historyCurrent` is reset before `HistoryPush`
returns and is not read in between except through `rebaseOnto`. -/
def pushRebase (ops : SnapshotOps S D) (m : GameModel S D) : Option (Option S) :=
  if m.historyPosition ≠ 0 then
    match m.history.getLast? with
    | none => none
    | some back =>
      if m.historyPosition < m.history.length then
        match m.history[usub1 m.historyPosition]? with
        | none => none
        | some e =>
          match e.delta, m.historyCurrent with
          | some d, some c => some (some (ops.Restore d c))
          | _, _ => none
      else some back.snap
  else some none

/-- The loop `while (historyPosition < history.size()) history.pop_back();`, with the
number of remaining iterations bounded by `fuel`. -/
def popBackLoop (pos : Nat) : Nat → List (HistoryEntry S D) → List (HistoryEntry S D)
  | 0, h => h
  | fuel + 1, h => if pos < h.length then popBackLoop pos fuel h.dropLast else h

/-- The block `auto &prev = history.back(); prev.delta = d; prev.snap.reset();`. -/
def setPrevDelta (d : D) (h : List (HistoryEntry S D)) : Option (List (HistoryEntry S D)) :=
  match h.getLast? with
  | none => none
  | some prev => some (h.dropLast ++ [{ prev with delta := some d, snap := none }])

/-- The loop `while (undoHistoryLimit < history.size()) { history.pop_front();
historyPosition -= 1U; }` on the pair `(history, historyPosition)`. -/
def truncateFront (limit : Nat) :
    List (HistoryEntry S D) → Nat → List (HistoryEntry S D) × Nat
  | [], pos => ([], pos)
  | e :: rest, pos =>
    if limit < (e :: rest).length then truncateFront limit rest (usub1 pos)
    else (e :: rest, pos)

/-- `GameModel::HistoryPush` up to and including `historyCurrent.reset()`, that is,
everything before the front-truncation loop. -/
def pushAppend (ops : SnapshotOps S D) (m : GameModel S D) (last : S) :
    Option (GameModel S D) :=
  match pushRebase ops m with
  | none => none
  | some rebaseOnto =>
    let popped := popBackLoop m.historyPosition m.history.length m.history
    let rebased : Option (List (HistoryEntry S D)) :=
      match rebaseOnto with
      | some r => setPrevDelta (ops.FromSnapshots r last) popped
      | none => some popped
    match rebased with
    | none => none
    | some h =>
      some { m with
        history := h ++ [{ snap := some last, delta := none }]
        historyPosition := uadd1 m.historyPosition
        historyCurrent := none }

/-- The front-truncation loop that ends `GameModel::HistoryPush`. -/
def truncate (m : GameModel S D) : GameModel S D :=
  { m with
    history := (truncateFront m.undoHistoryLimit m.history m.historyPosition).1
    historyPosition := (truncateFront m.undoHistoryLimit m.history m.historyPosition).2 }

/-- Member function `GameModel::HistoryPush`; `last` is a non-empty `unique_ptr`. -/
def HistoryPush (ops : SnapshotOps S D) (m : GameModel S D) (last : S) :
    Option (GameModel S D) :=
  (pushAppend ops m last).map truncate

/-- Accessor `GameModel::GetUndoHistoryLimit`. -/
def GetUndoHistoryLimit (m : GameModel S D) : Nat := m.undoHistoryLimit

/-- Member function `GameModel::SetUndoHistoryLimit`.  The write to the preference
store is outside the embedded state. -/
def SetUndoHistoryLimit (m : GameModel S D) (undoHistoryLimit_ : Nat) : GameModel S D :=
  { m with undoHistoryLimit := undoHistoryLimit_ }

/-- The store right after construction, before any history call: no entries,
`historyPosition(0)`, no current snapshot. -/
def emptyStore (limit : Nat) : GameModel S D :=
  { history := [], historyCurrent := none, historyPosition := 0, undoHistoryLimit := limit }

/-- One call of a public history operation. -/
inductive HistoryOp (S : Type) where
  | push (last : S)
  | restore
  | forward
  | setLimit (u : Fin UINT_MOD)

/-- Perform one call. -/
def applyOp (ops : SnapshotOps S D) (m : GameModel S D) : HistoryOp S → Option (GameModel S D)
  | .push last => HistoryPush ops m last
  | .restore => HistoryRestore ops m
  | .forward => HistoryForward ops m
  | .setLimit u => some (SetUndoHistoryLimit m u.val)

/-- Perform a finite sequence of calls, first call first. -/
def runOps (ops : SnapshotOps S D) (m : GameModel S D) : List (HistoryOp S) → Option (GameModel S D)
  | [] => some m
  | op :: rest => (applyOp ops m op).bind (fun m1 => runOps ops m1 rest)

/-- The logical snapshot accompanying the first entry of a (suffix of the) history:
the snapshot owned by the entry when it is the last one, otherwise the delta of the
entry restored onto the logical snapshot of the next entry. -/
def logical (ops : SnapshotOps S D) : List (HistoryEntry S D) → Option S
  | [] => none
  | [e] => e.snap
  | e :: e1 :: rest =>
    match e.delta, logical ops (e1 :: rest) with
    | some d, some b => some (ops.Restore d b)
    | _, _ => none

/-- The logical snapshot `L(i)` accompanying `history[i]`. -/
def L (ops : SnapshotOps S D) (history : List (HistoryEntry S D)) (i : Nat) : Option S :=
  logical ops (history.drop i)

/-- The round-trip law of `SnapshotDelta`: with `d = FromSnapshots(A, B)`,
`d.Forward(A)` is `B` and `d.Restore(B)` is `A`. -/
def RoundTrip (ops : SnapshotOps S D) : Prop :=
  ∀ A B : S, ops.Forward (ops.FromSnapshots A B) A = B ∧
    ops.Restore (ops.FromSnapshots A B) B = A

/-- A delta that records the old and the new snapshot; `Forward` yields the new one and
`Restore` the old one. -/
def pairOps : SnapshotOps Nat (Nat × Nat) where
  FromSnapshots := fun a b => (a, b)
  Forward := fun d _ => d.2
  Restore := fun d _ => d.1

/-- Entry `i` and its successor as the deque stores them for the logical snapshots
`a :: rest`: a delta for every adjacent pair, the last snapshot itself at the back. -/
def encode (ops : SnapshotOps S D) : List S → List (HistoryEntry S D)
  | [] => []
  | [a] => [{ snap := some a, delta := none }]
  | a :: b :: rest =>
    { snap := none, delta := some (ops.FromSnapshots a b) } :: encode ops (b :: rest)

/-- Walk `i` deltas forward from the snapshot `a`, using `history[0].delta`,
`history[1].delta`, and so on. -/
def walkForward (ops : SnapshotOps S D) (history : List (HistoryEntry S D)) (a : S) :
    Nat → Option S
  | 0 => some a
  | i + 1 =>
    match walkForward ops history a i, history[i]? with
    | some s, some e =>
      match e.delta with
      | some d => some (ops.Forward d s)
      | none => none
    | _, _ => none

/-- Well-formed store states: the invariants I1, I3, I4 and I6 of the history
(I5 is the definition of `L`), for a deque whose size fits the `unsigned int`
cursor.  "Is a delta" in I4 is read as: owns a delta and no snapshot. -/
structure WellFormed (ops : SnapshotOps S D) (m : GameModel S D) : Prop where
  fits : m.history.length < UINT_MOD
  I1 : m.historyPosition ≤ m.history.length
  I3 : ∀ e, m.history[m.history.length - 1]? = some e → e.snap ≠ none
  I4 : ∀ i e, i + 1 < m.history.length → m.history[i]? = some e →
    e.delta ≠ none ∧ e.snap = none
  I6 : (m.historyPosition < m.history.length →
      m.historyCurrent = L ops m.history m.historyPosition) ∧
    (m.historyPosition = m.history.length → m.historyCurrent = none)

/-- The relationships column of the table in the design comment of the history
(`B+b=A`, `C+c=B`, ...): the delta owned by `history[i]`, applied forward to the logical
snapshot of `history[i]`, yields the logical snapshot of `history[i+1]`, for every
`i < N-1`. -/
def Linked (ops : SnapshotOps S D) (m : GameModel S D) : Prop :=
  ∀ i e d a b, i + 1 < m.history.length → m.history[i]? = some e → e.delta = some d →
    L ops m.history i = some a → L ops m.history (i + 1) = some b → ops.Forward d a = b

/-- The store `m` represents the logical snapshots `Ls`: its deque is their encoding,
the cursor is within range and `historyCurrent` is the logical snapshot under it. -/
def Represents (ops : SnapshotOps S D) (m : GameModel S D) (Ls : List S) : Prop :=
  m.history = encode ops Ls ∧ m.historyPosition ≤ Ls.length ∧ Ls.length < UINT_MOD ∧
    m.undoHistoryLimit < UINT_MOD ∧ m.historyCurrent = Ls[m.historyPosition]?

/-- Forget the contents of the payloads of an entry, keeping which ones are present. -/
def eraseEntry (e : HistoryEntry S D) : HistoryEntry Unit Unit :=
  { snap := e.snap.map (fun _ => ()), delta := e.delta.map (fun _ => ()) }

/-- Forget the contents of all snapshots and deltas of a store, keeping its shape. -/
def erase (m : GameModel S D) : GameModel Unit Unit :=
  { history := m.history.map eraseEntry
    historyCurrent := m.historyCurrent.map (fun _ => ())
    historyPosition := m.historyPosition
    undoHistoryLimit := m.undoHistoryLimit }

/-- The same call on the store without contents. -/
def eraseOp : HistoryOp S → HistoryOp Unit
  | .push _ => .push ()
  | .restore => .restore
  | .forward => .forward
  | .setLimit u => .setLimit u

/-- The only delta operations on snapshots without contents. -/
def unitOps : SnapshotOps Unit Unit where
  FromSnapshots := fun _ _ => ()
  Forward := fun _ _ => ()
  Restore := fun _ _ => ()

/-- The store after `Push 1; Push 2; Push 3` and two `HistoryRestore` calls at limit 5:
entries `[δ(1→2), δ(2→3), 3]`, cursor 1, current snapshot `L(1) = 2`. -/
def undoneStore : GameModel Nat (Nat × Nat) :=
  { history := [{ snap := none, delta := some (1, 2) }, { snap := none, delta := some (2, 3) },
                { snap := some 3, delta := none }]
    historyCurrent := some 2
    historyPosition := 1
    undoHistoryLimit := 5 }

/-- The store after `Push 1; Push 2; Push 3` at limit 3: entries `[δ(1→2), δ(2→3), 3]`,
cursor at the tail, as many entries as the limit allows. -/
def fullStore : GameModel Nat (Nat × Nat) :=
  { history := [{ snap := none, delta := some (1, 2) }, { snap := none, delta := some (2, 3) },
                { snap := some 3, delta := none }]
    historyCurrent := none
    historyPosition := 3
    undoHistoryLimit := 3 }

/-- The history as the list of its logical snapshots, oldest first, with the cursor and
the limit. -/
structure LogicalHistory (S : Type) where
  snapshots : List S
  position : Nat
  limit : Nat
deriving DecidableEq, Repr

/-- The effect of one call on the list of logical snapshots: a push discards the
snapshots from the cursor on, appends the new one and drops the oldest ones beyond the
limit; undo and redo move the cursor by one within `0..N`; setting the limit changes
nothing else. -/
def LogicalHistory.step (a : LogicalHistory S) : HistoryOp S → LogicalHistory S
  | .push X =>
    { snapshots := (a.snapshots.take a.position ++ [X]).drop (a.position + 1 - a.limit)
      position := min (a.position + 1) a.limit
      limit := a.limit }
  | .restore => { a with position := a.position - 1 }
  | .forward => { a with position := min (a.position + 1) a.snapshots.length }
  | .setLimit u => { a with limit := u.val }

/-- The effect of a sequence of calls on the list of logical snapshots. -/
def LogicalHistory.run (a : LogicalHistory S) : List (HistoryOp S) → LogicalHistory S
  | [] => a
  | op :: rest => LogicalHistory.run (a.step op) rest

/-- The store after `Push 1; Push 2; Push 3` at limit 5: entries `[δ(1→2), δ(2→3), 3]`,
cursor at the tail, room for two more entries. -/
def tailStore : GameModel Nat (Nat × Nat) :=
  { history := [{ snap := none, delta := some (1, 2) }, { snap := none, delta := some (2, 3) },
                { snap := some 3, delta := none }]
    historyCurrent := none
    historyPosition := 3
    undoHistoryLimit := 5 }

/-- The store after `Push 1; Push 2; Push 3` and three `HistoryRestore` calls at limit 5:
entries `[δ(1→2), δ(2→3), 3]`, cursor 0, current snapshot `L(0) = 1`. -/
def headStore : GameModel Nat (Nat × Nat) :=
  { history := [{ snap := none, delta := some (1, 2) }, { snap := none, delta := some (2, 3) },
                { snap := some 3, delta := none }]
    historyCurrent := some 1
    historyPosition := 0
    undoHistoryLimit := 5 }

/-- Which calls of the external operations fail by throwing: `true` means that the call
with these arguments throws instead of returning the value given by `SnapshotOps`.
`clone` is the copy construction `std::make_unique<Snapshot>(*snap)`. -/
structure Failures (S D : Type) where
  FromSnapshots : S → S → Bool
  Forward : D → S → Bool
  Restore : D → S → Bool
  clone : S → Bool

/-- No external call fails. -/
def noFailures : Failures S D :=
  { FromSnapshots := fun _ _ => false, Forward := fun _ _ => false,
    Restore := fun _ _ => false, clone := fun _ => false }

/-- Every copy construction of a snapshot fails. -/
def cloneFails : Failures S D :=
  { FromSnapshots := fun _ _ => false, Forward := fun _ _ => false,
    Restore := fun _ _ => false, clone := fun _ => true }

/-- Every call of `SnapshotDelta::FromSnapshots` fails. -/
def fromSnapshotsFails : Failures S D :=
  { FromSnapshots := fun _ _ => true, Forward := fun _ _ => false,
    Restore := fun _ _ => false, clone := fun _ => false }

/-- Every call of `SnapshotDelta::Restore` fails. -/
def restoreFails : Failures S D :=
  { FromSnapshots := fun _ _ => false, Forward := fun _ _ => false,
    Restore := fun _ _ => true, clone := fun _ => false }

/-- Every call of `SnapshotDelta::Forward` fails. -/
def forwardFails : Failures S D :=
  { FromSnapshots := fun _ _ => false, Forward := fun _ _ => true,
    Restore := fun _ _ => false, clone := fun _ => false }

/-- How a call of a history member function ends when external operations may throw:
it returns, or an exception leaves it (the functions catch nothing) with the members
as they are at that moment, or its behaviour is undefined. -/
inductive Outcome (S D : Type) where
  | returned (m : GameModel S D)
  | threw (m : GameModel S D)
  | undefined
deriving DecidableEq, Repr

/-- The outcome of a call in which no external operation throws. -/
def Outcome.ofOption : Option (GameModel S D) → Outcome S D
  | some m => .returned m
  | none => .undefined

/-- `GameModel::HistoryRestore` with external operations that may throw.  The decrement
of `historyPosition` precedes the external call; the assignment to `historyCurrent`
follows it. -/
def HistoryRestoreF (ops : SnapshotOps S D) (fail : Failures S D) (m : GameModel S D) :
    Outcome S D :=
  if HistoryCanRestore m = false then .returned m
  else
    let pos := usub1 m.historyPosition
    match m.history[pos]? with
    | none => .undefined
    | some e =>
      match e.snap with
      | some s =>
        if fail.clone s then .threw { m with historyPosition := pos }
        else .returned { m with historyPosition := pos, historyCurrent := some s }
      | none =>
        match e.delta, m.historyCurrent with
        | some d, some c =>
          if fail.Restore d c then .threw { m with historyPosition := pos }
          else .returned
            { m with historyPosition := pos, historyCurrent := some (ops.Restore d c) }
        | _, _ => .undefined

/-- `GameModel::HistoryForward` with external operations that may throw.  The increment
of `historyPosition` precedes the external call; the assignment to `historyCurrent`
follows it. -/
def HistoryForwardF (ops : SnapshotOps S D) (fail : Failures S D) (m : GameModel S D) :
    Outcome S D :=
  if HistoryCanForward m = false then .returned m
  else
    let pos := uadd1 m.historyPosition
    if pos = m.history.length then
      .returned { m with historyPosition := pos, historyCurrent := none }
    else
      match m.history[pos]? with
      | none => .undefined
      | some e =>
        match e.snap with
        | some s =>
          if fail.clone s then .threw { m with historyPosition := pos }
          else .returned { m with historyPosition := pos, historyCurrent := some s }
        | none =>
          match m.history[usub1 pos]? with
          | none => .undefined
          | some prev =>
            match prev.delta, m.historyCurrent with
            | some d, some c =>
              if fail.Forward d c then .threw { m with historyPosition := pos }
              else .returned
                { m with historyPosition := pos, historyCurrent := some (ops.Forward d c) }
            | _, _ => .undefined

/-- `GameModel::HistoryPush` from the pop-back loop on, with external operations that
may throw; `m` holds the members as the first block left them and `rebaseOnto` is the
snapshot the pointer of that name points at (`none` for `nullptr`). -/
def pushFromF (ops : SnapshotOps S D) (fail : Failures S D) (m : GameModel S D)
    (rebaseOnto : Option S) (last : S) : Outcome S D :=
  let popped := popBackLoop m.historyPosition m.history.length m.history
  match rebaseOnto with
  | some r =>
    match popped.getLast? with
    | none => .undefined
    | some prev =>
      if fail.FromSnapshots r last then .threw { m with history := popped }
      else .returned (truncate
        { m with
          history := popped.dropLast ++
            [{ prev with delta := some (ops.FromSnapshots r last), snap := none }] ++
            [{ snap := some last, delta := none }]
          historyPosition := uadd1 m.historyPosition
          historyCurrent := none })
  | none => .returned (truncate
      { m with
        history := popped ++ [{ snap := some last, delta := none }]
        historyPosition := uadd1 m.historyPosition
        historyCurrent := none })

/-- `GameModel::HistoryPush` with external operations that may throw. -/
def HistoryPushF (ops : SnapshotOps S D) (fail : Failures S D) (m : GameModel S D)
    (last : S) : Outcome S D :=
  if m.historyPosition ≠ 0 then
    match m.history.getLast? with
    | none => .undefined
    | some back =>
      if m.historyPosition < m.history.length then
        match m.history[usub1 m.historyPosition]? with
        | none => .undefined
        | some e =>
          match e.delta, m.historyCurrent with
          | some d, some c =>
            if fail.Restore d c then .threw m
            else pushFromF ops fail { m with historyCurrent := some (ops.Restore d c) }
              (some (ops.Restore d c)) last
          | _, _ => .undefined
      else pushFromF ops fail m back.snap last
  else pushFromF ops fail m none last

/-- Modelled from the spec: `prefs.Get(key, default)` of the preference store, which is
declared outside the embedded sources, returns the stored value, or `default` when
none is stored. -/
def prefsGet (stored : Option Nat) (default : Nat) : Nat := stored.getD default

/-- The undo-history part of the constructor `GameModel::GameModel`: `historyPosition(0)`,
an empty deque, no current snapshot, the limit read from the preference
`Simulation.UndoHistoryLimit` with default `5U`, and `SetUndoHistoryLimit(200)` when
the value read exceeds 200. -/
def GameModel_ctor (stored : Option Nat) : GameModel S D :=
  if (emptyStore (prefsGet stored 5) : GameModel S D).undoHistoryLimit > 200 then
    SetUndoHistoryLimit (emptyStore (prefsGet stored 5)) 200
  else emptyStore (prefsGet stored 5)

/-- The front-truncation loop of `truncateFront` with a check added: the result is
`none` when `historyPosition -= 1U` is reached with `historyPosition` equal to 0. -/
def truncateFrontChecked (limit : Nat) :
    List (HistoryEntry S D) → Nat → Option (List (HistoryEntry S D) × Nat)
  | [], pos => some ([], pos)
  | e :: rest, pos =>
    if limit < (e :: rest).length then
      if pos = 0 then none else truncateFrontChecked limit rest (usub1 pos)
    else some (e :: rest, pos)

/-! ## Unsigned arithmetic and the two loops -/

theorem usub1_pos {x : Nat} (h0 : 0 < x) (hx : x < UINT_MOD) : usub1 x = x - 1 := by
  unfold usub1 UINT_MOD at *; omega

theorem uadd1_lt {x : Nat} (hx : x + 1 < UINT_MOD) : uadd1 x = x + 1 := by
  unfold uadd1 UINT_MOD at *; omega

theorem usub1_uadd1 {x : Nat} (hx : x < UINT_MOD) : usub1 (uadd1 x) = x := by
  unfold usub1 uadd1 UINT_MOD at *; omega

theorem popBackLoop_eq_take (pos : Nat) :
    ∀ (fuel : Nat) (h : List (HistoryEntry S D)), h.length ≤ pos + fuel →
      popBackLoop pos fuel h = h.take pos := by
  intro fuel
  induction fuel with
  | zero =>
    intro h hl
    simp only [popBackLoop]
    exact (List.take_of_length_le (by omega)).symm
  | succ n ih =>
    intro h hl
    simp only [popBackLoop]
    split
    · next hlt =>
      rw [ih h.dropLast (by simp; omega), List.dropLast_eq_take, List.take_take]
      congr 1
      omega
    · next hge => exact (List.take_of_length_le (by omega)).symm

theorem truncateFront_fst (limit : Nat) :
    ∀ (h : List (HistoryEntry S D)) (p : Nat),
      (truncateFront limit h p).1 = h.drop (h.length - limit) := by
  intro h
  induction h with
  | nil => intro p; simp [truncateFront]
  | cons e rest ih =>
    intro p
    simp only [truncateFront]
    split
    · next hlt =>
      rw [ih]
      have : (e :: rest).length - limit = (rest.length - limit) + 1 := by
        simp only [List.length_cons] at *; omega
      rw [this, List.drop_succ_cons]
    · next hge =>
      have : (e :: rest).length - limit = 0 := by omega
      rw [this, List.drop_zero]

theorem truncateFront_snd (limit : Nat) :
    ∀ (h : List (HistoryEntry S D)) (p : Nat), p < UINT_MOD →
      (truncateFront limit h p).2 < UINT_MOD ∧
      ((truncateFront limit h p).2 + (h.length - limit)) % UINT_MOD = p % UINT_MOD := by
  intro h
  induction h with
  | nil => intro p hp; simp [truncateFront, hp]
  | cons e rest ih =>
    intro p hp
    simp only [truncateFront]
    split
    · next hlt =>
      have hq : usub1 p < UINT_MOD := Nat.mod_lt _ (by decide)
      obtain ⟨h1, h2⟩ := ih (usub1 p) hq
      refine ⟨h1, ?_⟩
      have : (e :: rest).length - limit = (rest.length - limit) + 1 := by
        simp only [List.length_cons] at *; omega
      rw [this]
      unfold usub1 UINT_MOD at *
      omega
    · next hge =>
      have : (e :: rest).length - limit = 0 := by omega
      rw [this]
      exact ⟨hp, rfl⟩

theorem L_last (ops : SnapshotOps S D) (h : List (HistoryEntry S D)) (e : HistoryEntry S D)
    (he : h[h.length - 1]? = some e) : L ops h (h.length - 1) = e.snap := by
  have hlt : h.length - 1 < h.length := by
    rcases Nat.lt_or_ge (h.length - 1) h.length with hh | hh
    · exact hh
    · rw [List.getElem?_eq_none hh] at he; cases he
  have hd : h.drop (h.length - 1) = [e] := by
    rw [List.drop_eq_getElem_cons hlt]
    have h1 : h[h.length - 1] = e := by
      rw [List.getElem?_eq_getElem hlt] at he; exact Option.some.inj he
    have h2 : h.drop (h.length - 1 + 1) = [] := List.drop_of_length_le (by omega)
    rw [h1, h2]
  simp [L, hd, logical]

theorem L_step (ops : SnapshotOps S D) (h : List (HistoryEntry S D)) (i : Nat)
    (e : HistoryEntry S D) (hi : i + 1 < h.length) (he : h[i]? = some e) :
    L ops h i =
      match e.delta, L ops h (i + 1) with
      | some d, some b => some (ops.Restore d b)
      | _, _ => none := by
  have hlt : i < h.length := by omega
  have h1 : h[i] = e := by
    rw [List.getElem?_eq_getElem hlt] at he; exact Option.some.inj he
  have hd : h.drop i = e :: h.drop (i + 1) := by
    rw [List.drop_eq_getElem_cons hlt, h1]
  have hd2 : h.drop (i + 1) = h[i + 1] :: h.drop (i + 1 + 1) := List.drop_eq_getElem_cons hi
  unfold L
  rw [hd]
  generalize h.drop (i + 1) = t at hd2 ⊢
  subst hd2
  rfl

theorem L_of_length_le (ops : SnapshotOps S D) (h : List (HistoryEntry S D)) (i : Nat)
    (hi : h.length ≤ i) : L ops h i = none := by
  simp [L, List.drop_of_length_le hi, logical]

/-! ## The cursor operations on well-formed stores -/

theorem getElem?_some_of_lt (h : List (HistoryEntry S D)) (i : Nat) (hi : i < h.length) :
    ∃ e, h[i]? = some e := ⟨h[i], List.getElem?_eq_getElem hi⟩

/-- Under I3 and I4 every entry has a logical snapshot. -/
theorem L_isSome (ops : SnapshotOps S D) (h : List (HistoryEntry S D))
    (I3 : ∀ e, h[h.length - 1]? = some e → e.snap ≠ none)
    (I4 : ∀ i e, i + 1 < h.length → h[i]? = some e → e.delta ≠ none ∧ e.snap = none) :
    ∀ (j i : Nat), i + j + 1 = h.length → ∃ s, L ops h i = some s := by
  intro j
  induction j with
  | zero =>
    intro i hi
    have hi1 : i = h.length - 1 := by omega
    obtain ⟨e, he⟩ := getElem?_some_of_lt h (h.length - 1) (by omega)
    subst hi1
    rw [L_last ops h e he]
    exact Option.ne_none_iff_exists'.mp (I3 e he)
  | succ j ih =>
    intro i hi
    obtain ⟨b, hb⟩ := ih (i + 1) (by omega)
    obtain ⟨e, he⟩ := getElem?_some_of_lt h i (by omega)
    obtain ⟨d, hd⟩ := Option.ne_none_iff_exists'.mp (I4 i e (by omega) he).1
    rw [L_step ops h i e (by omega) he, hd, hb]
    exact ⟨_, rfl⟩

theorem WellFormed.L_some {ops : SnapshotOps S D} {m : GameModel S D} (wf : WellFormed ops m)
    (i : Nat) (hi : i < m.history.length) : ∃ s, L ops m.history i = some s :=
  L_isSome ops m.history wf.I3 wf.I4 (m.history.length - 1 - i) i (by omega)

/-- `HistoryRestore` on a well-formed store with the cursor above 0: the cursor moves
down by one and `historyCurrent` becomes the logical snapshot under it. -/
theorem HistoryRestore_wf {ops : SnapshotOps S D} {m : GameModel S D} (wf : WellFormed ops m)
    (hpos : 0 < m.historyPosition) :
    ∃ r, L ops m.history (m.historyPosition - 1) = some r ∧
      HistoryRestore ops m =
        some { m with historyPosition := m.historyPosition - 1, historyCurrent := some r } := by
  have hI1 := wf.I1
  have hfit := wf.fits
  have hsub : usub1 m.historyPosition = m.historyPosition - 1 := usub1_pos hpos (by omega)
  obtain ⟨e, he⟩ := getElem?_some_of_lt m.history (m.historyPosition - 1) (by omega)
  have hcan : HistoryCanRestore m = true := by simp [HistoryCanRestore, hpos]
  rcases Nat.lt_or_ge m.historyPosition m.history.length with hlt | hge
  · -- the entry under the new cursor is a delta
    obtain ⟨hd, hs⟩ := wf.I4 (m.historyPosition - 1) e (by omega) he
    obtain ⟨d, hd⟩ := Option.ne_none_iff_exists'.mp hd
    obtain ⟨c, hc⟩ := wf.L_some m.historyPosition hlt
    have hcur : m.historyCurrent = some c := by rw [wf.I6.1 hlt, hc]
    have hL := L_step ops m.history (m.historyPosition - 1) e (by omega) he
    have hidx : m.historyPosition - 1 + 1 = m.historyPosition := by omega
    rw [hidx, hd, hc] at hL
    refine ⟨ops.Restore d c, hL, ?_⟩
    simp [HistoryRestore, hcan, hsub, he, hs, hd, hcur]
  · -- the entry under the new cursor is the tail snapshot
    have hN : m.historyPosition = m.history.length := by omega
    rw [hN] at he
    obtain ⟨s, hs⟩ := Option.ne_none_iff_exists'.mp (wf.I3 e he)
    have hL := L_last ops m.history e he
    rw [hs] at hL
    rw [← hN] at he hL
    refine ⟨s, hL, ?_⟩
    simp [HistoryRestore, hcan, hsub, he, hs]

/-- `HistoryForward` on a well-formed store with the cursor on the last entry. -/
theorem HistoryForward_wf_last {ops : SnapshotOps S D} {m : GameModel S D}
    (wf : WellFormed ops m) (hpos : m.historyPosition + 1 = m.history.length) :
    HistoryForward ops m =
      some { m with historyPosition := m.historyPosition + 1, historyCurrent := none } := by
  have hfit := wf.fits
  have hadd : uadd1 m.historyPosition = m.historyPosition + 1 := uadd1_lt (by omega)
  have hcan : HistoryCanForward m = true := by simp [HistoryCanForward]; omega
  simp [HistoryForward, hcan, hadd, hpos]

/-- `HistoryForward` on a well-formed store when the cursor moves onto the tail entry:
the tail snapshot is cloned. -/
theorem HistoryForward_wf_tail {ops : SnapshotOps S D} {m : GameModel S D}
    (wf : WellFormed ops m) (hpos : m.historyPosition + 2 = m.history.length) :
    ∃ r, L ops m.history (m.historyPosition + 1) = some r ∧
      HistoryForward ops m =
        some { m with historyPosition := m.historyPosition + 1, historyCurrent := some r } := by
  have hfit := wf.fits
  have hadd : uadd1 m.historyPosition = m.historyPosition + 1 := uadd1_lt (by omega)
  have hcan : HistoryCanForward m = true := by simp [HistoryCanForward]; omega
  have hidx : m.historyPosition + 1 = m.history.length - 1 := by omega
  obtain ⟨e, he⟩ := getElem?_some_of_lt m.history (m.history.length - 1) (by omega)
  obtain ⟨s, hs⟩ := Option.ne_none_iff_exists'.mp (wf.I3 e he)
  have hL := L_last ops m.history e he
  rw [hs] at hL
  rw [← hidx] at he hL
  refine ⟨s, hL, ?_⟩
  have hne : ¬ m.historyPosition + 1 = m.history.length := by omega
  simp [HistoryForward, hcan, hadd, hne, he, hs]

/-- `HistoryForward` on a well-formed store when the cursor moves onto a delta entry:
`historyCurrent` is stepped by the delta of the entry the cursor leaves. -/
theorem HistoryForward_wf_delta {ops : SnapshotOps S D} {m : GameModel S D}
    (wf : WellFormed ops m) (hpos : m.historyPosition + 2 < m.history.length) :
    ∃ prev d c, m.history[m.historyPosition]? = some prev ∧ prev.delta = some d ∧
      m.historyCurrent = some c ∧ L ops m.history m.historyPosition = some c ∧
      HistoryForward ops m =
        some { m with historyPosition := m.historyPosition + 1,
                      historyCurrent := some (ops.Forward d c) } := by
  have hfit := wf.fits
  have hadd : uadd1 m.historyPosition = m.historyPosition + 1 := uadd1_lt (by omega)
  have hsub : usub1 (m.historyPosition + 1) = m.historyPosition := by
    rw [← hadd]; exact usub1_uadd1 (by omega)
  have hcan : HistoryCanForward m = true := by simp [HistoryCanForward]; omega
  obtain ⟨e, he⟩ := getElem?_some_of_lt m.history (m.historyPosition + 1) (by omega)
  obtain ⟨_, hes⟩ := wf.I4 (m.historyPosition + 1) e (by omega) he
  obtain ⟨prev, hprev⟩ := getElem?_some_of_lt m.history m.historyPosition (by omega)
  obtain ⟨hpd, _⟩ := wf.I4 m.historyPosition prev (by omega) hprev
  obtain ⟨d, hd⟩ := Option.ne_none_iff_exists'.mp hpd
  obtain ⟨c, hc⟩ := wf.L_some m.historyPosition (by omega)
  have hcur : m.historyCurrent = some c := by rw [wf.I6.1 (by omega), hc]
  refine ⟨prev, d, c, hprev, hd, hcur, hc, ?_⟩
  have hne : ¬ m.historyPosition + 1 = m.history.length := by omega
  simp [HistoryForward, hcan, hadd, hne, he, hes, hsub, hprev, hd, hcur]

/-! ## HistoryPush on well-formed stores -/

theorem setPrevDelta_concat (d : D) (l : List (HistoryEntry S D)) (e : HistoryEntry S D) :
    setPrevDelta d (l ++ [e]) = some (l ++ [{ snap := none, delta := some d }]) := by
  simp [setPrevDelta]

theorem take_pred_concat (h : List (HistoryEntry S D)) (p : Nat) (e : HistoryEntry S D)
    (hp : 0 < p) (he : h[p - 1]? = some e) : h.take p = h.take (p - 1) ++ [e] := by
  have := @List.take_succ _ h (p - 1)
  rw [he] at this
  have hp1 : p - 1 + 1 = p := by omega
  rw [hp1] at this
  simpa using this

/-- `HistoryPush` before truncation, cursor at 0: everything is discarded. -/
theorem pushAppend_zero (ops : SnapshotOps S D) (m : GameModel S D) (last : S)
    (hpos : m.historyPosition = 0) :
    pushRebase ops m = some none ∧
    pushAppend ops m last =
      some { history := [{ snap := some last, delta := none }], historyCurrent := none,
             historyPosition := 1, undoHistoryLimit := m.undoHistoryLimit } := by
  have hr : pushRebase ops m = some none := by simp [pushRebase, hpos]
  refine ⟨hr, ?_⟩
  have hpop : popBackLoop m.historyPosition m.history.length m.history = [] := by
    rw [popBackLoop_eq_take _ _ _ (by omega), hpos, List.take_zero]
  rw [hpos] at hpop
  have h1 : uadd1 0 = 1 := by decide
  simp only [pushAppend, hr, hpop, hpos, h1, List.nil_append]

/-- `HistoryPush` before truncation on a well-formed store, cursor above 0: the entries
from the cursor on are discarded, the entry below the cursor becomes the delta from its
own logical snapshot to the pushed one, and the pushed snapshot is appended. -/
theorem pushAppend_wf {ops : SnapshotOps S D} {m : GameModel S D} (wf : WellFormed ops m)
    (last : S) (hpos : 0 < m.historyPosition) :
    ∃ r, L ops m.history (m.historyPosition - 1) = some r ∧
      pushRebase ops m = some (some r) ∧
      pushAppend ops m last =
        some { history := m.history.take (m.historyPosition - 1) ++
                 [{ snap := none, delta := some (ops.FromSnapshots r last) },
                  { snap := some last, delta := none }],
               historyCurrent := none,
               historyPosition := uadd1 m.historyPosition,
               undoHistoryLimit := m.undoHistoryLimit } := by
  have hI1 := wf.I1
  have hfit := wf.fits
  have hsub : usub1 m.historyPosition = m.historyPosition - 1 := usub1_pos hpos (by omega)
  obtain ⟨e, he⟩ := getElem?_some_of_lt m.history (m.historyPosition - 1) (by omega)
  obtain ⟨b, hb⟩ := getElem?_some_of_lt m.history (m.history.length - 1) (by omega)
  have hlast : m.history.getLast? = some b := by rw [List.getLast?_eq_getElem?, hb]
  have hne : m.historyPosition ≠ 0 := by omega
  have hpop : popBackLoop m.historyPosition m.history.length m.history =
      m.history.take (m.historyPosition - 1) ++ [e] := by
    rw [popBackLoop_eq_take _ _ _ (by omega), take_pred_concat m.history _ e hpos he]
  have key : ∃ r, L ops m.history (m.historyPosition - 1) = some r ∧
      pushRebase ops m = some (some r) := by
    rcases Nat.lt_or_ge m.historyPosition m.history.length with hlt | hge
    · obtain ⟨hd, _⟩ := wf.I4 (m.historyPosition - 1) e (by omega) he
      obtain ⟨d, hd⟩ := Option.ne_none_iff_exists'.mp hd
      obtain ⟨c, hc⟩ := wf.L_some m.historyPosition hlt
      have hcur : m.historyCurrent = some c := by rw [wf.I6.1 hlt, hc]
      have hL := L_step ops m.history (m.historyPosition - 1) e (by omega) he
      have hidx : m.historyPosition - 1 + 1 = m.historyPosition := by omega
      rw [hidx, hd, hc] at hL
      refine ⟨ops.Restore d c, hL, ?_⟩
      simp [pushRebase, hne, hlast, hlt, hsub, he, hd, hcur]
    · have hN : m.historyPosition = m.history.length := by omega
      obtain ⟨s, hs⟩ := Option.ne_none_iff_exists'.mp (wf.I3 b hb)
      have hL := L_last ops m.history b hb
      rw [hs, ← hN] at hL
      refine ⟨s, hL, ?_⟩
      have hnlt : ¬ m.historyPosition < m.history.length := by omega
      simp [pushRebase, hne, hlast, hnlt, hs]
  obtain ⟨r, hL, hr⟩ := key
  refine ⟨r, hL, hr, ?_⟩
  simp only [pushAppend, hr, hpop, setPrevDelta_concat]
  simp

theorem truncateFront_of_le (limit : Nat) (h : List (HistoryEntry S D)) (p : Nat)
    (hle : h.length ≤ limit) : truncateFront limit h p = (h, p) := by
  cases h with
  | nil => rfl
  | cons e rest =>
    have : ¬ limit < (e :: rest).length := by omega
    simp only [truncateFront, this, if_false]

/-- The truncation loop when the cursor equals the size of the deque and both fit an
`unsigned int`: no decrement wraps, and the cursor ends at the new size. -/
theorem truncateFront_tail (limit : Nat) (h : List (HistoryEntry S D)) (hfit : h.length < UINT_MOD) :
    truncateFront limit h h.length = (h.drop (h.length - limit), min h.length limit) := by
  have h1 := truncateFront_fst limit h h.length
  obtain ⟨h2, h3⟩ := truncateFront_snd limit h h.length hfit
  have : (truncateFront limit h h.length).2 = min h.length limit := by
    unfold UINT_MOD at *
    omega
  rw [← h1, ← this]

/-- The truncation loop when the cursor is the size of the deque reduced modulo
`UINT_MOD` and the limit fits an `unsigned int`. -/
theorem truncateFront_mod (limit : Nat) (h : List (HistoryEntry S D)) (hlim : limit < UINT_MOD)
    (hlen : h.length ≤ UINT_MOD) :
    truncateFront limit h (h.length % UINT_MOD) =
      (h.drop (h.length - limit), min h.length limit) := by
  have h1 := truncateFront_fst limit h (h.length % UINT_MOD)
  obtain ⟨h2, h3⟩ := truncateFront_snd limit h (h.length % UINT_MOD) (Nat.mod_lt _ (by decide))
  have : (truncateFront limit h (h.length % UINT_MOD)).2 = min h.length limit := by
    unfold UINT_MOD at *
    omega
  rw [← h1, ← this]

/-! ## The encoding of a list of logical snapshots -/

theorem encode_length (ops : SnapshotOps S D) : ∀ Ls : List S, (encode ops Ls).length = Ls.length
  | [] => rfl
  | [_] => rfl
  | _ :: b :: rest => by
    simp only [encode, List.length_cons, encode_length ops (b :: rest)]

theorem encode_getElem?_delta (ops : SnapshotOps S D) :
    ∀ (Ls : List S) (i : Nat) (a b : S), Ls[i]? = some a → Ls[i + 1]? = some b →
      (encode ops Ls)[i]? = some { snap := none, delta := some (ops.FromSnapshots a b) }
  | [], _, _, _, h, _ => by simp at h
  | [_], _, _, _, _, h => by simp at h
  | x :: y :: rest, 0, a, b, ha, hb => by
    simp at ha hb
    subst ha hb
    simp [encode]
  | x :: y :: rest, i + 1, a, b, ha, hb => by
    rw [List.getElem?_cons_succ] at ha hb
    simp only [encode, List.getElem?_cons_succ]
    exact encode_getElem?_delta ops (y :: rest) i a b ha hb

theorem encode_getElem?_last (ops : SnapshotOps S D) :
    ∀ (Ls : List S) (i : Nat) (a : S), Ls[i]? = some a → i + 1 = Ls.length →
      (encode ops Ls)[i]? = some { snap := some a, delta := none }
  | [], _, _, h, _ => by simp at h
  | [x], 0, a, ha, _ => by
    simp at ha
    subst ha
    simp [encode]
  | [x], i + 1, a, ha, _ => by simp at ha
  | x :: y :: rest, 0, a, _, hl => by simp at hl
  | x :: y :: rest, i + 1, a, ha, hl => by
    simp only [encode, List.getElem?_cons_succ] at ha ⊢
    exact encode_getElem?_last ops (y :: rest) i a ha (by simpa using hl)

theorem encode_drop (ops : SnapshotOps S D) :
    ∀ (j : Nat) (Ls : List S), encode ops (Ls.drop j) = (encode ops Ls).drop j
  | 0, Ls => by simp
  | j + 1, [] => by simp [encode]
  | j + 1, [x] => by simp [encode]
  | j + 1, x :: y :: rest => by
    simp only [encode, List.drop_succ_cons]
    exact encode_drop ops j (y :: rest)

theorem encode_take_push (ops : SnapshotOps S D) (X : S) :
    ∀ (Ls : List S) (k : Nat) (a : S), Ls[k]? = some a →
      (encode ops Ls).take k ++
          [{ snap := none, delta := some (ops.FromSnapshots a X) },
           { snap := some X, delta := none }] =
        encode ops (Ls.take (k + 1) ++ [X])
  | [], _, _, h => by simp at h
  | [x], 0, a, ha => by
    simp at ha
    subst ha
    simp [encode]
  | [x], k + 1, a, ha => by simp at ha
  | x :: y :: rest, 0, a, ha => by
    simp at ha
    subst ha
    simp [encode]
  | x :: y :: rest, k + 1, a, ha => by
    simp only [List.getElem?_cons_succ] at ha
    have ih := encode_take_push ops X (y :: rest) k a ha
    cases k with
    | zero =>
      simp at ha
      subst ha
      simp [encode]
    | succ k =>
      simp only [List.take_succ_cons, List.cons_append, encode] at ih ⊢
      rw [ih]
      rfl

theorem logical_encode (ops : SnapshotOps S D) (hrt : RoundTrip ops) :
    ∀ Ls : List S, logical ops (encode ops Ls) = Ls.head?
  | [] => rfl
  | [_] => rfl
  | a :: b :: rest => by
    have ih := logical_encode ops hrt (b :: rest)
    cases rest with
    | nil => simp [encode, logical, (hrt a b).2]
    | cons c rest =>
      simp only [encode, logical, List.head?_cons] at ih ⊢
      rw [ih]
      simp [(hrt a b).2]

theorem L_encode (ops : SnapshotOps S D) (hrt : RoundTrip ops) (Ls : List S) (i : Nat) :
    L ops (encode ops Ls) i = Ls[i]? := by
  unfold L
  rw [← encode_drop, logical_encode ops hrt, List.head?_drop]

/-! ## Stores that represent a list of logical snapshots -/

theorem getElem?_some_of_lt' (Ls : List S) (i : Nat) (hi : i < Ls.length) :
    ∃ a, Ls[i]? = some a := ⟨Ls[i], List.getElem?_eq_getElem hi⟩

/-- A store that represents a list of logical snapshots is well-formed. -/
theorem Represents.wf {ops : SnapshotOps S D} (hrt : RoundTrip ops) {m : GameModel S D}
    {Ls : List S} (hrep : Represents ops m Ls) : WellFormed ops m := by
  obtain ⟨hh, hp, hfit, hlim, hcur⟩ := hrep
  have hlen : m.history.length = Ls.length := by rw [hh, encode_length]
  refine ⟨by omega, by omega, ?_, ?_, ?_, ?_⟩
  · intro e he
    rcases Nat.eq_zero_or_pos Ls.length with h0 | h0
    · rw [hh, List.length_eq_zero.mp h0] at he
      simp [encode] at he
    · obtain ⟨a, ha⟩ := getElem?_some_of_lt' Ls (Ls.length - 1) (by omega)
      rw [hlen, hh, encode_getElem?_last ops Ls _ a ha (by omega)] at he
      rw [← Option.some.inj he]
      simp
  · intro i e hi he
    obtain ⟨a, ha⟩ := getElem?_some_of_lt' Ls i (by omega)
    obtain ⟨b, hb⟩ := getElem?_some_of_lt' Ls (i + 1) (by omega)
    rw [hh, encode_getElem?_delta ops Ls i a b ha hb] at he
    rw [← Option.some.inj he]
    simp
  · intro _
    rw [hcur, hh, L_encode ops hrt]
  · intro hN
    rw [hcur, hN, hlen]
    exact List.getElem?_eq_none (Nat.le_refl _)

theorem Represents.length_eq {ops : SnapshotOps S D} {m : GameModel S D} {Ls : List S}
    (hrep : Represents ops m Ls) : m.history.length = Ls.length := by
  rw [hrep.1, encode_length]

/-- In a store that represents `Ls`, the logical snapshots are the elements of `Ls`. -/
theorem Represents.L_eq {ops : SnapshotOps S D} (hrt : RoundTrip ops) {m : GameModel S D}
    {Ls : List S} (hrep : Represents ops m Ls) (i : Nat) : L ops m.history i = Ls[i]? := by
  rw [hrep.1, L_encode ops hrt]

theorem Represents.setLimit {ops : SnapshotOps S D} {m : GameModel S D} {Ls : List S}
    (hrep : Represents ops m Ls) (u : Nat) (hu : u < UINT_MOD) :
    Represents ops (SetUndoHistoryLimit m u) Ls := by
  obtain ⟨hh, hp, hfit, hlim, hcur⟩ := hrep
  exact ⟨hh, hp, hfit, hu, hcur⟩

theorem Represents.restore {ops : SnapshotOps S D} (hrt : RoundTrip ops) {m : GameModel S D}
    {Ls : List S} (hrep : Represents ops m Ls) :
    ∃ m1, HistoryRestore ops m = some m1 ∧ Represents ops m1 Ls ∧
      m1.history = m.history ∧ m1.undoHistoryLimit = m.undoHistoryLimit ∧
      m1.historyPosition = m.historyPosition - 1 := by
  rcases Nat.eq_zero_or_pos m.historyPosition with h0 | hpos
  · refine ⟨m, ?_, hrep, rfl, rfl, by omega⟩
    simp [HistoryRestore, HistoryCanRestore, h0]
  · obtain ⟨r, hL, hres⟩ := HistoryRestore_wf (hrep.wf hrt) hpos
    refine ⟨_, hres, ?_, rfl, rfl, rfl⟩
    rw [hrep.L_eq hrt] at hL
    obtain ⟨hh, hp, hfit, hlim, hcur⟩ := hrep
    exact ⟨hh, by simp only; omega, hfit, hlim, hL.symm⟩

theorem Represents.forward {ops : SnapshotOps S D} (hrt : RoundTrip ops) {m : GameModel S D}
    {Ls : List S} (hrep : Represents ops m Ls) :
    ∃ m1, HistoryForward ops m = some m1 ∧ Represents ops m1 Ls ∧
      m1.history = m.history ∧ m1.undoHistoryLimit = m.undoHistoryLimit ∧
      m1.historyPosition = min (m.historyPosition + 1) m.history.length := by
  have wf := hrep.wf hrt
  have hlen := hrep.length_eq
  have hLeq := hrep.L_eq hrt
  obtain ⟨hh, hp, hfit, hlim, hcur⟩ := hrep
  rcases Nat.lt_or_ge m.historyPosition m.history.length with hlt | hge
  · rcases Nat.lt_or_ge (m.historyPosition + 1) m.history.length with hlt1 | hge1
    · rcases Nat.lt_or_ge (m.historyPosition + 2) m.history.length with hlt2 | hge2
      · obtain ⟨prev, d, c, hprev, hd, hc, hLc, hres⟩ := HistoryForward_wf_delta wf hlt2
        refine ⟨_, hres, ⟨hh, by simp only; omega, hfit, hlim, ?_⟩, rfl, rfl, by simp only; omega⟩
        obtain ⟨b, hb⟩ := getElem?_some_of_lt' Ls (m.historyPosition + 1) (by omega)
        rw [hLeq] at hLc
        rw [hh, encode_getElem?_delta ops Ls _ c b hLc hb] at hprev
        rw [← Option.some.inj hprev] at hd
        simp only [Option.some.injEq] at hd
        simp only [hb, ← hd, (hrt c b).1]
      · obtain ⟨r, hL, hres⟩ := HistoryForward_wf_tail wf (by omega)
        rw [hLeq] at hL
        exact ⟨_, hres, ⟨hh, by simp only; omega, hfit, hlim, hL.symm⟩, rfl, rfl,
          by simp only; omega⟩
    · have hres := HistoryForward_wf_last wf (by omega)
      refine ⟨_, hres, ⟨hh, by simp only; omega, hfit, hlim, ?_⟩, rfl, rfl, by simp only; omega⟩
      exact (List.getElem?_eq_none (by simp only; omega)).symm
  · refine ⟨m, ?_, ⟨hh, hp, hfit, hlim, hcur⟩, rfl, rfl, by omega⟩
    have : ¬ m.historyPosition < m.history.length := by omega
    simp [HistoryForward, HistoryCanForward, this]

/-- The list of logical snapshots after `HistoryPush(X)`: the snapshots above the cursor
are discarded, `X` is appended, and the oldest ones beyond the limit are dropped. -/
theorem Represents.push {ops : SnapshotOps S D} (hrt : RoundTrip ops) {m : GameModel S D}
    {Ls : List S} (hrep : Represents ops m Ls) (X : S) :
    ∃ m1, HistoryPush ops m X = some m1 ∧
      Represents ops m1
        ((Ls.take m.historyPosition ++ [X]).drop (m.historyPosition + 1 - m.undoHistoryLimit)) ∧
      m1.undoHistoryLimit = m.undoHistoryLimit ∧
      m1.historyPosition = min (m.historyPosition + 1) m.undoHistoryLimit ∧
      m1.history.length = min (m.historyPosition + 1) m.undoHistoryLimit ∧
      m1.historyCurrent = none := by
  have wf := hrep.wf hrt
  have hlen := hrep.length_eq
  have hLeq := hrep.L_eq hrt
  obtain ⟨hh, hp, hfit, hlim, hcur⟩ := hrep
  -- the state before truncation
  have key : pushAppend ops m X =
      some { history := encode ops (Ls.take m.historyPosition ++ [X]), historyCurrent := none,
             historyPosition := uadd1 m.historyPosition,
             undoHistoryLimit := m.undoHistoryLimit } := by
    rcases Nat.eq_zero_or_pos m.historyPosition with h0 | hpos
    · rw [(pushAppend_zero ops m X h0).2, h0]
      simp [encode, uadd1, UINT_MOD]
    · obtain ⟨r, hL, _, hres⟩ := pushAppend_wf wf X hpos
      rw [hLeq] at hL
      have := encode_take_push ops X Ls (m.historyPosition - 1) r hL
      have hidx : m.historyPosition - 1 + 1 = m.historyPosition := by omega
      rw [hidx] at this
      rw [hres, hh, this]
  have hlen0 : (encode ops (Ls.take m.historyPosition ++ [X])).length =
      m.historyPosition + 1 := by
    rw [encode_length, List.length_append, List.length_take]
    simp only [List.length_singleton]
    omega
  have htr : truncateFront m.undoHistoryLimit (encode ops (Ls.take m.historyPosition ++ [X]))
        (uadd1 m.historyPosition) =
      ((encode ops (Ls.take m.historyPosition ++ [X])).drop
          (m.historyPosition + 1 - m.undoHistoryLimit),
        min (m.historyPosition + 1) m.undoHistoryLimit) := by
    have hmod : uadd1 m.historyPosition =
        (encode ops (Ls.take m.historyPosition ++ [X])).length % UINT_MOD := by
      rw [hlen0]; rfl
    rw [hmod, truncateFront_mod _ _ hlim (by omega), hlen0]
  have hlenr : ((Ls.take m.historyPosition ++ [X]).drop
      (m.historyPosition + 1 - m.undoHistoryLimit)).length =
      min (m.historyPosition + 1) m.undoHistoryLimit := by
    simp only [List.length_drop, List.length_append, List.length_take,
      List.length_singleton]
    omega
  refine ⟨truncate { history := encode ops (Ls.take m.historyPosition ++ [X]),
                     historyCurrent := none, historyPosition := uadd1 m.historyPosition,
                     undoHistoryLimit := m.undoHistoryLimit },
    by rw [HistoryPush, key]; rfl, ?_, rfl, ?_, ?_, rfl⟩
  · refine ⟨?_, ?_, ?_, hlim, ?_⟩
    · simp only [truncate, htr, encode_drop]
    · simp only [truncate, htr, hlenr]
      exact Nat.le_refl _
    · rw [hlenr]; omega
    · simp only [truncate, htr]
      exact (List.getElem?_eq_none (by rw [hlenr])).symm
  · simp only [truncate, htr]
  · simp only [truncate, htr, List.length_drop, hlen0]
    omega

/-! ## The shape of the store does not depend on the contents of the snapshots -/

theorem erase_restore (ops : SnapshotOps S D) (m : GameModel S D) :
    HistoryRestore unitOps (erase m) = (HistoryRestore ops m).map erase := by
  by_cases hc : m.historyPosition > 0
  · rcases h1 : m.history[usub1 m.historyPosition]? with _ | ⟨_ | s, _ | d⟩ <;>
      rcases hcur : m.historyCurrent with _ | c <;>
      simp [HistoryRestore, HistoryCanRestore, erase, eraseEntry, hc, h1, hcur]
  · simp [HistoryRestore, HistoryCanRestore, erase, hc]

theorem erase_forward (ops : SnapshotOps S D) (m : GameModel S D) :
    HistoryForward unitOps (erase m) = (HistoryForward ops m).map erase := by
  by_cases hc : m.historyPosition < m.history.length
  · by_cases hN : uadd1 m.historyPosition = m.history.length
    · simp [HistoryForward, HistoryCanForward, erase, hc, hN]
    · rcases h1 : m.history[uadd1 m.historyPosition]? with _ | ⟨_ | s, _ | d⟩ <;>
        rcases h2 : m.history[usub1 (uadd1 m.historyPosition)]? with _ | ⟨_ | s2, _ | d2⟩ <;>
        rcases hcur : m.historyCurrent with _ | c <;>
        simp [HistoryForward, HistoryCanForward, erase, eraseEntry, hc, hN, h1, h2, hcur]
  · simp [HistoryForward, HistoryCanForward, erase, hc]

theorem erase_popBackLoop (pos : Nat) :
    ∀ (fuel : Nat) (h : List (HistoryEntry S D)),
      popBackLoop pos fuel (h.map eraseEntry) = (popBackLoop pos fuel h).map eraseEntry
  | 0, _ => rfl
  | fuel + 1, h => by
    simp only [popBackLoop, List.length_map]
    split
    · rw [← erase_popBackLoop pos fuel h.dropLast, List.map_dropLast]
    · rfl

theorem erase_truncateFront (limit : Nat) :
    ∀ (h : List (HistoryEntry S D)) (p : Nat),
      truncateFront limit (h.map eraseEntry) p =
        (((truncateFront limit h p).1).map eraseEntry, (truncateFront limit h p).2)
  | [], _ => rfl
  | e :: rest, p => by
    simp only [truncateFront, List.map_cons, List.length_cons, List.length_map]
    split
    · exact erase_truncateFront limit rest (usub1 p)
    · rfl

theorem erase_setPrevDelta (d : D) (h : List (HistoryEntry S D)) :
    setPrevDelta () (h.map eraseEntry) = (setPrevDelta d h).map (List.map eraseEntry) := by
  rcases List.eq_nil_or_concat h with rfl | ⟨l, e, rfl⟩
  · rfl
  · simp [setPrevDelta, eraseEntry]

theorem erase_pushRebase (ops : SnapshotOps S D) (m : GameModel S D) :
    pushRebase unitOps (erase m) = (pushRebase ops m).map (Option.map (fun _ => ())) := by
  by_cases hc : m.historyPosition = 0
  · simp [pushRebase, erase, hc]
  · rcases List.eq_nil_or_concat m.history with hnil | ⟨l, b, hb⟩
    · simp [pushRebase, erase, hc, hnil]
    · by_cases hlt : m.historyPosition < m.history.length
      · rcases h1 : m.history[usub1 m.historyPosition]? with _ | ⟨s, _ | d⟩ <;>
          rcases hcur : m.historyCurrent with _ | c <;>
          simp [pushRebase, erase, eraseEntry, hc, hlt, h1, hcur] <;>
          simp [hb]
      · simp [pushRebase, erase, eraseEntry, hc, hlt]
        simp [hb]
        rfl

theorem erase_truncate (m : GameModel S D) : truncate (erase m) = erase (truncate m) := by
  simp [truncate, erase, erase_truncateFront]

theorem erase_pushAppend (ops : SnapshotOps S D) (m : GameModel S D) (X : S) :
    pushAppend unitOps (erase m) () = (pushAppend ops m X).map erase := by
  unfold pushAppend
  rw [erase_pushRebase ops m]
  rcases pushRebase ops m with _ | _ | r
  · rfl
  · simp [erase, erase_popBackLoop, eraseEntry]
  · simp only [Option.map_some', erase, List.length_map, erase_popBackLoop]
    rw [show unitOps.FromSnapshots () () = () from rfl,
      erase_setPrevDelta (ops.FromSnapshots r X)]
    rcases setPrevDelta (ops.FromSnapshots r X)
      (popBackLoop m.historyPosition m.history.length m.history) with _ | h
    · rfl
    · simp [erase, eraseEntry]

theorem erase_push (ops : SnapshotOps S D) (m : GameModel S D) (X : S) :
    HistoryPush unitOps (erase m) () = (HistoryPush ops m X).map erase := by
  unfold HistoryPush
  rw [erase_pushAppend ops m X]
  rcases pushAppend ops m X with _ | m0
  · rfl
  · simp [erase_truncate]

theorem erase_applyOp (ops : SnapshotOps S D) (m : GameModel S D) (op : HistoryOp S) :
    applyOp unitOps (erase m) (eraseOp op) = (applyOp ops m op).map erase := by
  cases op with
  | push X => exact erase_push ops m X
  | restore => exact erase_restore ops m
  | forward => exact erase_forward ops m
  | setLimit u => rfl

theorem erase_runOps (ops : SnapshotOps S D) :
    ∀ (l : List (HistoryOp S)) (m : GameModel S D),
      runOps unitOps (erase m) (l.map eraseOp) = (runOps ops m l).map erase
  | [], _ => rfl
  | op :: rest, m => by
    simp only [runOps, List.map_cons, erase_applyOp ops m op]
    rcases applyOp ops m op with _ | m1
    · rfl
    · exact erase_runOps ops rest m1

theorem unitOps_roundTrip : RoundTrip unitOps := fun _ _ => ⟨rfl, rfl⟩

/-! ## Reachable stores -/

theorem emptyStore_represents (ops : SnapshotOps S D) (limit : Nat) (hlimit : limit < UINT_MOD) :
    Represents ops (emptyStore limit) [] :=
  ⟨rfl, Nat.le_refl _, Nat.lt_of_le_of_lt (Nat.zero_le _) hlimit, hlimit, rfl⟩

theorem Represents.applyOp_ok {ops : SnapshotOps S D} (hrt : RoundTrip ops) {m : GameModel S D}
    {Ls : List S} (hrep : Represents ops m Ls) (op : HistoryOp S) :
    ∃ m1 Ls1, applyOp ops m op = some m1 ∧ Represents ops m1 Ls1 := by
  cases op with
  | push X =>
    obtain ⟨m1, h1, h2, _⟩ := hrep.push hrt X
    exact ⟨m1, _, h1, h2⟩
  | restore =>
    obtain ⟨m1, h1, h2, _⟩ := hrep.restore hrt
    exact ⟨m1, _, h1, h2⟩
  | forward =>
    obtain ⟨m1, h1, h2, _⟩ := hrep.forward hrt
    exact ⟨m1, _, h1, h2⟩
  | setLimit u => exact ⟨_, Ls, rfl, hrep.setLimit u.val u.isLt⟩

theorem Represents.runOps_ok {ops : SnapshotOps S D} (hrt : RoundTrip ops) :
    ∀ (l : List (HistoryOp S)) (m : GameModel S D) (Ls : List S), Represents ops m Ls →
      ∃ m1 Ls1, runOps ops m l = some m1 ∧ Represents ops m1 Ls1
  | [], m, Ls, hrep => ⟨m, Ls, rfl, hrep⟩
  | op :: rest, m, Ls, hrep => by
    obtain ⟨m1, Ls1, h1, hrep1⟩ := hrep.applyOp_ok hrt op
    obtain ⟨m2, Ls2, h2, hrep2⟩ := Represents.runOps_ok hrt rest m1 Ls1 hrep1
    exact ⟨m2, Ls2, by simp [runOps, h1, h2], hrep2⟩

/-- Every run from the empty store is defined and ends in a store that represents some
list of logical snapshots. -/
theorem reachable_represents (ops : SnapshotOps S D) (hrt : RoundTrip ops) (limit : Nat)
    (hlimit : limit < UINT_MOD) (l : List (HistoryOp S)) :
    ∃ m Ls, runOps ops (emptyStore limit) l = some m ∧ Represents ops m Ls :=
  Represents.runOps_ok hrt l _ _ (emptyStore_represents ops limit hlimit)

/-- Every run from the empty store is defined, whatever the delta operations are, and
the shape of the store it ends in is that of an encoding. -/
theorem reachable_shape (ops : SnapshotOps S D) (limit : Nat) (hlimit : limit < UINT_MOD)
    (l : List (HistoryOp S)) :
    ∃ m Lu, runOps ops (emptyStore limit) l = some m ∧ Represents unitOps (erase m) Lu := by
  obtain ⟨mu, Lu, hrun, hrep⟩ :=
    reachable_represents unitOps unitOps_roundTrip limit hlimit (l.map eraseOp)
  have hcomm := erase_runOps ops l (emptyStore limit)
  rw [show erase (emptyStore limit : GameModel S D) = emptyStore limit from rfl, hrun] at hcomm
  obtain ⟨m, hm, hem⟩ := Option.map_eq_some'.mp hcomm.symm
  exact ⟨m, Lu, hm, hem ▸ hrep⟩

theorem erase_getElem? (m : GameModel S D) (i : Nat) :
    (erase m).history[i]? = (m.history[i]?).map eraseEntry := by
  simp [erase]

theorem walkForward_encode (ops : SnapshotOps S D) (hrt : RoundTrip ops) (Ls : List S) (a : S)
    (ha : Ls[0]? = some a) :
    ∀ i, i < Ls.length → walkForward ops (encode ops Ls) a i = Ls[i]?
  | 0, _ => by simp [walkForward, ha]
  | i + 1, hi => by
    obtain ⟨s, hs⟩ := getElem?_some_of_lt' Ls i (by omega)
    obtain ⟨b, hb⟩ := getElem?_some_of_lt' Ls (i + 1) hi
    have ih := walkForward_encode ops hrt Ls a ha i (by omega)
    simp only [walkForward, ih, hs, encode_getElem?_delta ops Ls i s b hs hb, hb,
      (hrt s b).1]

/-! ## Invariants of reachable stores (C1, C2, C3) -/

theorem erase_length (m : GameModel S D) : (erase m).history.length = m.history.length := by
  simp [erase]

theorem eraseEntry_eq_snap {e : HistoryEntry S D}
    (h : eraseEntry e = { snap := some (), delta := none }) :
    ∃ s, e = { snap := some s, delta := none } := by
  obtain ⟨_ | s, _ | d⟩ := e <;> simp [eraseEntry] at h
  exact ⟨s, rfl⟩

theorem eraseEntry_eq_delta {e : HistoryEntry S D}
    (h : eraseEntry e = { snap := none, delta := some () }) :
    ∃ d, e = { snap := none, delta := some d } := by
  obtain ⟨_ | s, _ | d⟩ := e <;> simp [eraseEntry] at h
  exact ⟨d, rfl⟩

/-- Shape of a reachable store: the tail entry owns a snapshot and nothing else. -/
theorem shape_tail {m : GameModel S D} {Lu : List Unit} (hrep : Represents unitOps (erase m) Lu)
    (hN : 1 ≤ m.history.length) :
    ∃ s, m.history[m.history.length - 1]? = some { snap := some s, delta := none } := by
  have hlen := hrep.length_eq
  rw [erase_length] at hlen
  obtain ⟨e, he⟩ := getElem?_some_of_lt m.history (m.history.length - 1) (by omega)
  have h1 : (erase m).history[m.history.length - 1]? = some (eraseEntry e) := by
    rw [erase_getElem?, he]; rfl
  rw [hrep.1, encode_getElem?_last unitOps Lu _ () (by
    obtain ⟨u, hu⟩ := getElem?_some_of_lt' Lu (m.history.length - 1) (by omega)
    exact hu) (by omega)] at h1
  obtain ⟨s, hs⟩ := eraseEntry_eq_snap (Option.some.inj h1).symm
  exact ⟨s, by rw [he, hs]⟩

/-- Shape of a reachable store: every entry below the tail owns a delta and nothing
else. -/
theorem shape_older {m : GameModel S D} {Lu : List Unit} (hrep : Represents unitOps (erase m) Lu)
    (i : Nat) (hi : i + 1 < m.history.length) :
    ∃ d, m.history[i]? = some { snap := none, delta := some d } := by
  have hlen := hrep.length_eq
  rw [erase_length] at hlen
  obtain ⟨e, he⟩ := getElem?_some_of_lt m.history i (by omega)
  have h1 : (erase m).history[i]? = some (eraseEntry e) := by
    rw [erase_getElem?, he]; rfl
  obtain ⟨u, hu⟩ := getElem?_some_of_lt' Lu i (by omega)
  obtain ⟨v, hv⟩ := getElem?_some_of_lt' Lu (i + 1) (by omega)
  rw [hrep.1, encode_getElem?_delta unitOps Lu i u v hu hv] at h1
  obtain ⟨d, hd⟩ := eraseEntry_eq_delta (Option.some.inj h1).symm
  exact ⟨d, by rw [he, hd]⟩

/-- Shape of a reachable store: cursor and sizes. -/
theorem shape_bounds {m : GameModel S D} {Lu : List Unit}
    (hrep : Represents unitOps (erase m) Lu) :
    m.historyPosition ≤ m.history.length ∧ m.history.length < UINT_MOD ∧
      m.undoHistoryLimit < UINT_MOD := by
  have hlen := hrep.length_eq
  rw [erase_length] at hlen
  obtain ⟨_, hp, hfit, hlim, _⟩ := hrep
  exact ⟨by rw [hlen]; exact hp, by rw [hlen]; exact hfit, hlim⟩

/-- C1: in every state reachable from the empty store by `HistoryPush`,
`HistoryRestore`, `HistoryForward` and `SetUndoHistoryLimit`, under the round-trip law
of the deltas: if `historyPosition < N` then `HistoryCurrent()` is present and equal to
the logical snapshot `L(historyPosition)`, and if `historyPosition = N` it is empty.
The run itself never leaves defined behaviour. -/
theorem current_follows_cursor (ops : SnapshotOps S D) (hrt : RoundTrip ops) (limit : Nat)
    (hlimit : limit < UINT_MOD) (l : List (HistoryOp S)) :
    ∃ m, runOps ops (emptyStore limit) l = some m ∧
      (m.historyPosition < m.history.length →
        ∃ s, L ops m.history m.historyPosition = some s ∧ HistoryCurrent m = some s) ∧
      (m.historyPosition = m.history.length → HistoryCurrent m = none) := by
  obtain ⟨m, Ls, hrun, hrep⟩ := reachable_represents ops hrt limit hlimit l
  refine ⟨m, hrun, ?_, (hrep.wf hrt).I6.2⟩
  intro hlt
  have hlen := hrep.length_eq
  obtain ⟨s, hs⟩ := getElem?_some_of_lt' Ls m.historyPosition (by omega)
  exact ⟨s, by rw [hrep.L_eq hrt, hs], by rw [HistoryCurrent, hrep.2.2.2.2, hs]⟩

/-- Witness of C1: three pushes and two undos at limit 5 with old/new-pair deltas. -/
theorem current_follows_cursor_witness :
    RoundTrip pairOps ∧ 5 < UINT_MOD ∧
    ∃ m, runOps pairOps (emptyStore 5)
        [.push 1, .push 2, .push 3, .restore, .restore] = some m ∧
      (m.historyPosition < m.history.length →
        ∃ s, L pairOps m.history m.historyPosition = some s ∧ HistoryCurrent m = some s) ∧
      (m.historyPosition = m.history.length → HistoryCurrent m = none) :=
  ⟨fun _ _ => ⟨rfl, rfl⟩, by decide,
    current_follows_cursor pairOps (fun _ _ => ⟨rfl, rfl⟩) 5 (by decide)
      [.push 1, .push 2, .push 3, .restore, .restore]⟩

/-- C2: in every state reachable from the empty store by `HistoryPush`,
`HistoryRestore`, `HistoryForward` and `SetUndoHistoryLimit` with `N ≥ 1`,
`history[N-1].snap` is present and `history[i].delta` is present for every `i < N-1`
(whatever the delta operations compute). -/
theorem only_tail_is_concrete (ops : SnapshotOps S D) (limit : Nat) (hlimit : limit < UINT_MOD)
    (l : List (HistoryOp S)) :
    ∃ m, runOps ops (emptyStore limit) l = some m ∧
      (1 ≤ m.history.length →
        (∃ e s, m.history[m.history.length - 1]? = some e ∧ e.snap = some s) ∧
        ∀ i, i + 1 < m.history.length →
          ∃ e d, m.history[i]? = some e ∧ e.delta = some d) := by
  obtain ⟨m, Lu, hrun, hrep⟩ := reachable_shape ops limit hlimit l
  refine ⟨m, hrun, fun hN => ⟨?_, ?_⟩⟩
  · obtain ⟨s, hs⟩ := shape_tail hrep hN
    exact ⟨_, s, hs, rfl⟩
  · intro i hi
    obtain ⟨d, hd⟩ := shape_older hrep i hi
    exact ⟨_, d, hd, rfl⟩

/-- Witness of C2: a run at limit 2 that truncates, undoes and lowers the limit. -/
theorem only_tail_is_concrete_witness :
    2 < UINT_MOD ∧
    ∃ m, runOps pairOps (emptyStore 2)
        [.push 1, .push 2, .push 3, .restore, .setLimit ⟨1, by decide⟩] = some m ∧
      (1 ≤ m.history.length →
        (∃ e s, m.history[m.history.length - 1]? = some e ∧ e.snap = some s) ∧
        ∀ i, i + 1 < m.history.length →
          ∃ e d, m.history[i]? = some e ∧ e.delta = some d) :=
  ⟨by decide, only_tail_is_concrete pairOps 2 (by decide)
    [.push 1, .push 2, .push 3, .restore, .setLimit ⟨1, by decide⟩]⟩

/-- C3: in every state reachable from the empty store by `HistoryPush`,
`HistoryRestore` and `HistoryForward` (and also `SetUndoHistoryLimit`), under the
round-trip law: for every `i < N-1` the stored `history[i].delta` is
`FromSnapshots(L(i), L(i+1))` and its `Forward` applied to `L(i)` yields `L(i+1)`;
hence walking the deltas forward from the anchor `L(0)` reproduces every `L(i)`. -/
theorem deltas_link_logical_snapshots (ops : SnapshotOps S D) (hrt : RoundTrip ops)
    (limit : Nat) (hlimit : limit < UINT_MOD) (l : List (HistoryOp S)) :
    ∃ m, runOps ops (emptyStore limit) l = some m ∧
      (∀ i, i + 1 < m.history.length →
        ∃ e d a b, m.history[i]? = some e ∧ e.delta = some d ∧
          L ops m.history i = some a ∧ L ops m.history (i + 1) = some b ∧
          d = ops.FromSnapshots a b ∧ ops.Forward d a = b) ∧
      (∀ i, i < m.history.length →
        ∃ a s, L ops m.history 0 = some a ∧ L ops m.history i = some s ∧
          walkForward ops m.history a i = some s) := by
  obtain ⟨m, Ls, hrun, hrep⟩ := reachable_represents ops hrt limit hlimit l
  have hlen := hrep.length_eq
  refine ⟨m, hrun, ?_, ?_⟩
  · intro i hi
    obtain ⟨a, ha⟩ := getElem?_some_of_lt' Ls i (by omega)
    obtain ⟨b, hb⟩ := getElem?_some_of_lt' Ls (i + 1) (by omega)
    refine ⟨{ snap := none, delta := some (ops.FromSnapshots a b) }, ops.FromSnapshots a b,
      a, b, ?_, rfl, ?_, ?_, rfl, (hrt a b).1⟩
    · rw [hrep.1]; exact encode_getElem?_delta ops Ls i a b ha hb
    · rw [hrep.L_eq hrt, ha]
    · rw [hrep.L_eq hrt, hb]
  · intro i hi
    obtain ⟨a, ha⟩ := getElem?_some_of_lt' Ls 0 (by omega)
    obtain ⟨s, hs⟩ := getElem?_some_of_lt' Ls i (by omega)
    refine ⟨a, s, by rw [hrep.L_eq hrt, ha], by rw [hrep.L_eq hrt, hs], ?_⟩
    rw [hrep.1, walkForward_encode ops hrt Ls a ha i (by omega), hs]

/-- Witness of C3: pushes, undo, an interior push and a truncating push at limit 3. -/
theorem deltas_link_logical_snapshots_witness :
    RoundTrip pairOps ∧ 3 < UINT_MOD ∧
    ∃ m, runOps pairOps (emptyStore 3)
        [.push 1, .push 2, .push 3, .restore, .restore, .push 7, .push 8, .push 9,
          .restore, .forward] = some m ∧
      (∀ i, i + 1 < m.history.length →
        ∃ e d a b, m.history[i]? = some e ∧ e.delta = some d ∧
          L pairOps m.history i = some a ∧ L pairOps m.history (i + 1) = some b ∧
          d = pairOps.FromSnapshots a b ∧ pairOps.Forward d a = b) ∧
      (∀ i, i < m.history.length →
        ∃ a s, L pairOps m.history 0 = some a ∧ L pairOps m.history i = some s ∧
          walkForward pairOps m.history a i = some s) :=
  ⟨fun _ _ => ⟨rfl, rfl⟩, by decide,
    deltas_link_logical_snapshots pairOps (fun _ _ => ⟨rfl, rfl⟩) 3 (by decide)
      [.push 1, .push 2, .push 3, .restore, .restore, .push 7, .push 8, .push 9,
        .restore, .forward]⟩

/-! ## Undo followed by redo (C4) -/

theorem pairOps_roundTrip : RoundTrip pairOps := fun _ _ => ⟨rfl, rfl⟩

theorem undoneStore_represents : Represents pairOps undoneStore [1, 2, 3] :=
  ⟨rfl, by decide, by decide, by decide, rfl⟩

theorem fullStore_represents : Represents pairOps fullStore [1, 2, 3] :=
  ⟨rfl, by decide, by decide, by decide, rfl⟩

/-- In a store that represents a list of logical snapshots, every delta links the
logical snapshots of its entry and of the next one. -/
theorem Represents.linked {ops : SnapshotOps S D} (hrt : RoundTrip ops) {m : GameModel S D}
    {Ls : List S} (hrep : Represents ops m Ls) : Linked ops m := by
  intro i e d a b _ he hd ha hb
  rw [hrep.L_eq hrt] at ha hb
  rw [hrep.1, encode_getElem?_delta ops Ls i a b ha hb] at he
  rw [← Option.some.inj he] at hd
  rw [← Option.some.inj hd]
  exact (hrt a b).1

/-- Under the round-trip law every run of the public operations from the empty store is
defined and ends in a well-formed store whose deltas link the logical snapshots. -/
theorem reachable_wf_linked (ops : SnapshotOps S D) (hrt : RoundTrip ops) (limit : Nat)
    (hlimit : limit < UINT_MOD) (l : List (HistoryOp S)) :
    ∃ m, runOps ops (emptyStore limit) l = some m ∧ WellFormed ops m ∧ Linked ops m := by
  obtain ⟨m, Ls, hrun, hrep⟩ := reachable_represents ops hrt limit hlimit l
  exact ⟨m, hrun, hrep.wf hrt, hrep.linked hrt⟩

/-- Undo followed by redo on a well-formed store needs one relationship of the deque
only: when the cursor is below `N-1`, that the delta of `history[position-1]` maps
`L(position-1)` forward to `L(position)`. -/
theorem HistoryRestore_HistoryForward_wf (ops : SnapshotOps S D) (m : GameModel S D)
    (wf : WellFormed ops m) (hcan : HistoryCanRestore m = true)
    (hlink : m.historyPosition + 1 < m.history.length →
      ∀ e d a b, m.history[m.historyPosition - 1]? = some e → e.delta = some d →
        L ops m.history (m.historyPosition - 1) = some a →
        L ops m.history m.historyPosition = some b → ops.Forward d a = b) :
    ∃ m1 m2, HistoryRestore ops m = some m1 ∧ HistoryForward ops m1 = some m2 ∧
      m2.historyPosition = m.historyPosition ∧ HistoryCurrent m2 = HistoryCurrent m := by
  have hpos : 0 < m.historyPosition := by simpa [HistoryCanRestore] using hcan
  have hI1 := wf.I1
  obtain ⟨r, hL, hres⟩ := HistoryRestore_wf wf hpos
  have wf1 : WellFormed ops
      { m with historyPosition := m.historyPosition - 1, historyCurrent := some r } :=
    ⟨wf.fits, by simp only; omega, wf.I3, wf.I4, fun _ => hL.symm,
      fun h => by simp only at h; omega⟩
  suffices hfwd : ∃ m2,
      HistoryForward ops
          { m with historyPosition := m.historyPosition - 1, historyCurrent := some r } =
        some m2 ∧
      m2.historyPosition = m.historyPosition ∧ HistoryCurrent m2 = HistoryCurrent m by
    obtain ⟨m2, h1, h2, h3⟩ := hfwd
    exact ⟨_, m2, hres, h1, h2, h3⟩
  rcases Nat.lt_or_ge m.historyPosition m.history.length with hlt | hge
  · rcases Nat.lt_or_ge (m.historyPosition + 1) m.history.length with hlt1 | hge1
    · obtain ⟨prev, d, c, hprev, hd, hc, hLc, hfw⟩ :=
        HistoryForward_wf_delta wf1 (by simp only; omega)
      simp only at hprev hc hLc hfw
      obtain ⟨b, hb⟩ := wf.L_some m.historyPosition hlt
      have hfb := hlink hlt1 prev d c b hprev hd hLc hb
      refine ⟨_, hfw, by simp only; omega, ?_⟩
      simp only [HistoryCurrent, hfb, wf.I6.1 hlt, hb]
    · obtain ⟨s, hLs, hfw⟩ := HistoryForward_wf_tail wf1 (by simp only; omega)
      simp only at hLs hfw
      have hidx : m.historyPosition - 1 + 1 = m.historyPosition := by omega
      rw [hidx] at hLs hfw
      refine ⟨_, hfw, rfl, ?_⟩
      simp only [HistoryCurrent, wf.I6.1 hlt, hLs]
  · have hfw := HistoryForward_wf_last wf1 (by simp only; omega)
    simp only at hfw
    have hidx : m.historyPosition - 1 + 1 = m.historyPosition := by omega
    rw [hidx] at hfw
    refine ⟨_, hfw, rfl, ?_⟩
    simp only [HistoryCurrent, wf.I6.2 (by omega)]

/-- C4: for every well-formed store state (I1, I3-I6, with the deltas linking the
logical snapshots as the design comment of the history records) with
`HistoryCanRestore()` true, `HistoryRestore()` followed by `HistoryForward()` is
defined and leaves the pair (`historyPosition`, `HistoryCurrent()`) equal to what it
was before, for every cursor position `0 < position ≤ N`; and under the round-trip law
every store reached from the empty store by the public operations is such a state and
has the property. -/
theorem restore_then_forward (ops : SnapshotOps S D) :
    (∀ m : GameModel S D, WellFormed ops m → Linked ops m → HistoryCanRestore m = true →
      ∃ m1 m2, HistoryRestore ops m = some m1 ∧ HistoryForward ops m1 = some m2 ∧
        (m2.historyPosition, HistoryCurrent m2) = (m.historyPosition, HistoryCurrent m)) ∧
    (RoundTrip ops → ∀ (limit : Nat) (l : List (HistoryOp S)), limit < UINT_MOD →
      ∃ m, runOps ops (emptyStore limit) l = some m ∧ WellFormed ops m ∧ Linked ops m ∧
        (HistoryCanRestore m = true →
          ∃ m1 m2, HistoryRestore ops m = some m1 ∧ HistoryForward ops m1 = some m2 ∧
            (m2.historyPosition, HistoryCurrent m2) =
              (m.historyPosition, HistoryCurrent m))) := by
  have key : ∀ m : GameModel S D, WellFormed ops m → Linked ops m →
      HistoryCanRestore m = true →
      ∃ m1 m2, HistoryRestore ops m = some m1 ∧ HistoryForward ops m1 = some m2 ∧
        (m2.historyPosition, HistoryCurrent m2) = (m.historyPosition, HistoryCurrent m) := by
    intro m wf hlinked hcan
    have hpos : 0 < m.historyPosition := by simpa [HistoryCanRestore] using hcan
    have hidx : m.historyPosition - 1 + 1 = m.historyPosition := by omega
    obtain ⟨m1, m2, h1, h2, h3, h4⟩ :=
      HistoryRestore_HistoryForward_wf ops m wf hcan (fun _ e d a b he hd ha hb =>
        hlinked (m.historyPosition - 1) e d a b (by omega) he hd ha (by rw [hidx]; exact hb))
    exact ⟨m1, m2, h1, h2, by rw [h3, h4]⟩
  refine ⟨key, fun hrt limit l hlimit => ?_⟩
  obtain ⟨m, hrun, wf, hlinked⟩ := reachable_wf_linked ops hrt limit hlimit l
  exact ⟨m, hrun, wf, hlinked, key m wf hlinked⟩

/-- Witness of C4: undo and redo on the store after three pushes and two undos, and
after a run with pushes, undos, a redo and a lowered limit. -/
theorem restore_then_forward_witness :
    (WellFormed pairOps undoneStore ∧ Linked pairOps undoneStore ∧
      HistoryCanRestore undoneStore = true ∧
      ∃ m1 m2, HistoryRestore pairOps undoneStore = some m1 ∧
        HistoryForward pairOps m1 = some m2 ∧
        (m2.historyPosition, HistoryCurrent m2) =
          (undoneStore.historyPosition, HistoryCurrent undoneStore)) ∧
    (RoundTrip pairOps ∧ 5 < UINT_MOD ∧
      ∃ m, runOps pairOps (emptyStore 5)
          [.push 1, .push 2, .push 3, .restore, .restore, .forward, .push 4,
            .setLimit ⟨1, by decide⟩, .restore] = some m ∧
        WellFormed pairOps m ∧ Linked pairOps m ∧
        (HistoryCanRestore m = true →
          ∃ m1 m2, HistoryRestore pairOps m = some m1 ∧ HistoryForward pairOps m1 = some m2 ∧
            (m2.historyPosition, HistoryCurrent m2) =
              (m.historyPosition, HistoryCurrent m))) :=
  ⟨⟨undoneStore_represents.wf pairOps_roundTrip, undoneStore_represents.linked pairOps_roundTrip,
      rfl,
      (restore_then_forward pairOps).1 undoneStore
        (undoneStore_represents.wf pairOps_roundTrip)
        (undoneStore_represents.linked pairOps_roundTrip) rfl⟩,
    pairOps_roundTrip, by decide,
    (restore_then_forward pairOps).2 pairOps_roundTrip 5
      [.push 1, .push 2, .push 3, .restore, .restore, .forward, .push 4,
        .setLimit ⟨1, by decide⟩, .restore] (by decide)⟩

/-! ## Logical snapshots across HistoryPush -/

theorem logical_cons_of_ne_nil (ops : SnapshotOps S D) (e : HistoryEntry S D)
    (t : List (HistoryEntry S D)) (ht : t ≠ []) :
    logical ops (e :: t) =
      match e.delta, logical ops t with
      | some d, some b => some (ops.Restore d b)
      | _, _ => none := by
  cases t with
  | nil => exact absurd rfl ht
  | cons e1 rest => rfl

/-- Replacing a non-empty suffix of the deque by another non-empty one with the same
logical snapshot at its head leaves the logical snapshots of the prefix unchanged. -/
theorem logical_append_congr (ops : SnapshotOps S D) (s1 s2 : List (HistoryEntry S D))
    (h1 : s1 ≠ []) (h2 : s2 ≠ []) (heq : logical ops s1 = logical ops s2) :
    ∀ pre : List (HistoryEntry S D), logical ops (pre ++ s1) = logical ops (pre ++ s2)
  | [] => heq
  | e :: pre => by
    have ih := logical_append_congr ops s1 s2 h1 h2 heq pre
    rw [List.cons_append, List.cons_append,
      logical_cons_of_ne_nil ops e _ (by simp [h1]),
      logical_cons_of_ne_nil ops e _ (by simp [h2]), ih]

theorem L_append_congr (ops : SnapshotOps S D) (pre s1 s2 : List (HistoryEntry S D))
    (h1 : s1 ≠ []) (h2 : s2 ≠ []) (heq : logical ops s1 = logical ops s2) (i : Nat)
    (hi : i ≤ pre.length) : L ops (pre ++ s1) i = L ops (pre ++ s2) i := by
  unfold L
  rw [List.drop_append_of_le_length hi, List.drop_append_of_le_length hi]
  exact logical_append_congr ops s1 s2 h1 h2 heq _

/-- `HistoryPush` before truncation on a well-formed store: size and cursor become
`position + 1` (modulo `UINT_MOD` for the cursor), the pushed snapshot is the logical
snapshot of the new tail, and the logical snapshots below the old cursor are kept. -/
theorem pushAppend_logical {ops : SnapshotOps S D} (hrt : RoundTrip ops) {m : GameModel S D}
    (wf : WellFormed ops m) (X : S) :
    ∃ m0, pushAppend ops m X = some m0 ∧
      m0.history.length = m.historyPosition + 1 ∧
      m0.historyPosition = uadd1 m.historyPosition ∧
      m0.historyCurrent = none ∧ m0.undoHistoryLimit = m.undoHistoryLimit ∧
      L ops m0.history m.historyPosition = some X ∧
      ∀ i, i < m.historyPosition → L ops m0.history i = L ops m.history i := by
  have hI1 := wf.I1
  rcases Nat.eq_zero_or_pos m.historyPosition with h0 | hpos
  · refine ⟨_, (pushAppend_zero ops m X h0).2, by simp [h0], by simp [h0, uadd1, UINT_MOD],
      rfl, rfl, by simp [h0, L, logical], ?_⟩
    intro i hi
    omega
  · obtain ⟨r, hL, _, hres⟩ := pushAppend_wf wf X hpos
    have hlenT : (m.history.take (m.historyPosition - 1)).length = m.historyPosition - 1 := by
      rw [List.length_take]; omega
    refine ⟨_, hres, ?_, rfl, rfl, rfl, ?_, ?_⟩
    · simp only [List.length_append, hlenT, List.length_cons, List.length_nil]
      omega
    · have hdrop := @List.drop_append _ (m.history.take (m.historyPosition - 1))
        [{ snap := none, delta := some (ops.FromSnapshots r X) },
         { snap := some X, delta := none }] 1
      have hidx : m.historyPosition - 1 + 1 = m.historyPosition := by omega
      rw [hlenT, hidx] at hdrop
      simp only [L, hdrop]
      rfl
    · intro i hi
      have hsplit : m.history =
          m.history.take (m.historyPosition - 1) ++ m.history.drop (m.historyPosition - 1) :=
        (List.take_append_drop _ _).symm
      simp only
      conv_rhs => rw [hsplit]
      refine L_append_congr ops _ _ _ (by simp) ?_ ?_ i (by omega)
      · intro hnil
        have := congrArg List.length hnil
        simp only [List.length_drop, List.length_nil] at this
        omega
      · have hL2 : logical ops (m.history.drop (m.historyPosition - 1)) = some r := hL
        rw [hL2]
        simp [logical, (hrt r X).2]

/-- `HistoryPush` on a well-formed store when the new size does not exceed the limit:
nothing is popped from the front. -/
theorem HistoryPush_noTruncation {ops : SnapshotOps S D} (hrt : RoundTrip ops)
    {m : GameModel S D} (wf : WellFormed ops m) (X : S)
    (hle : m.historyPosition + 1 ≤ m.undoHistoryLimit) :
    ∃ m1, HistoryPush ops m X = some m1 ∧
      m1.history.length = m.historyPosition + 1 ∧
      m1.historyPosition = uadd1 m.historyPosition ∧
      m1.historyCurrent = none ∧ m1.undoHistoryLimit = m.undoHistoryLimit ∧
      L ops m1.history m.historyPosition = some X ∧
      ∀ i, i < m.historyPosition → L ops m1.history i = L ops m.history i := by
  obtain ⟨m0, h0, hlen, hp, hc, hl, hX, hpre⟩ := pushAppend_logical hrt wf X
  have htr : truncate m0 = m0 := by
    simp only [truncate]
    rw [truncateFront_of_le _ _ _ (by omega)]
  exact ⟨m0, by simp [HistoryPush, h0, htr], hlen, hp, hc, hl, hX, hpre⟩

/-! ## Push in the interior and at the tail (C5, C6) -/

/-- The store `m` implements the logical history `a`. -/
theorem Represents.step_refines {ops : SnapshotOps S D} (hrt : RoundTrip ops) {m : GameModel S D}
    {a : LogicalHistory S} (hrep : Represents ops m a.snapshots)
    (hp : m.historyPosition = a.position) (hl : m.undoHistoryLimit = a.limit)
    (op : HistoryOp S) :
    ∃ m1, applyOp ops m op = some m1 ∧ Represents ops m1 (a.step op).snapshots ∧
      m1.historyPosition = (a.step op).position ∧ m1.undoHistoryLimit = (a.step op).limit := by
  have hlen := hrep.length_eq
  cases op with
  | push X =>
    obtain ⟨m1, h1, h2, h3, h4, _⟩ := hrep.push hrt X
    rw [hp, hl] at h2 h4
    exact ⟨m1, h1, h2, h4, by rw [h3, hl]; rfl⟩
  | restore =>
    obtain ⟨m1, h1, h2, _, h3, h4⟩ := hrep.restore hrt
    exact ⟨m1, h1, h2, by rw [h4, hp]; rfl, by rw [h3, hl]; rfl⟩
  | forward =>
    obtain ⟨m1, h1, h2, _, h3, h4⟩ := hrep.forward hrt
    exact ⟨m1, h1, h2, by rw [h4, hp, hlen]; rfl, by rw [h3, hl]; rfl⟩
  | setLimit u => exact ⟨_, rfl, hrep.setLimit u.val u.isLt, hp, rfl⟩

theorem Represents.run_refines {ops : SnapshotOps S D} (hrt : RoundTrip ops) :
    ∀ (l : List (HistoryOp S)) (m : GameModel S D) (a : LogicalHistory S),
      Represents ops m a.snapshots → m.historyPosition = a.position →
      m.undoHistoryLimit = a.limit →
      ∃ m1, runOps ops m l = some m1 ∧ Represents ops m1 (a.run l).snapshots ∧
        m1.historyPosition = (a.run l).position ∧ m1.undoHistoryLimit = (a.run l).limit
  | [], m, a, hrep, hp, hl => ⟨m, rfl, hrep, hp, hl⟩
  | op :: rest, m, a, hrep, hp, hl => by
    obtain ⟨m1, h1, hrep1, hp1, hl1⟩ := hrep.step_refines hrt hp hl op
    obtain ⟨m2, h2, hrep2, hp2, hl2⟩ := Represents.run_refines hrt rest m1 (a.step op) hrep1 hp1 hl1
    exact ⟨m2, by simp [runOps, h1, h2], hrep2, hp2, hl2⟩

/-- Every run from the empty store implements the same run on the list of logical
snapshots. -/
theorem reachable_logical (ops : SnapshotOps S D) (hrt : RoundTrip ops) (limit : Nat)
    (hlimit : limit < UINT_MOD) (l : List (HistoryOp S)) :
    ∃ m, runOps ops (emptyStore limit) l = some m ∧
      Represents ops m
        (LogicalHistory.run { snapshots := [], position := 0, limit := limit } l).snapshots ∧
      m.historyPosition =
        (LogicalHistory.run { snapshots := [], position := 0, limit := limit } l).position ∧
      m.undoHistoryLimit =
        (LogicalHistory.run { snapshots := [], position := 0, limit := limit } l).limit :=
  Represents.run_refines hrt l _ _ (emptyStore_represents ops limit hlimit) rfl rfl

/-- C5: on a well-formed store with `N ≤ limit` and `historyPosition = k < N`
(including `k = 0`), under the round-trip law, after `HistoryPush(X)`: `N = k + 1`,
`L(k) = X` and `L(i)` is unchanged for every `i < k`.  Scenarios, for all snapshots at
limit 5: after Push A, B, C and two undos, Push Y gives `N = 2`, `position = 2`,
`L(0) = A`, `L(1) = Y`; after three undos, Push Y gives `N = 1`, `position = 1` and
the entries `[Y]`. -/
theorem push_interior_discards_suffix (ops : SnapshotOps S D) (hrt : RoundTrip ops)
    (m : GameModel S D) (X : S) (wf : WellFormed ops m)
    (hle : m.history.length ≤ m.undoHistoryLimit)
    (hk : m.historyPosition < m.history.length) :
    (∃ m1, HistoryPush ops m X = some m1 ∧
      m1.history.length = m.historyPosition + 1 ∧
      L ops m1.history m.historyPosition = some X ∧
      ∀ i, i < m.historyPosition → L ops m1.history i = L ops m.history i) ∧
    (∀ A B C Y : S, ∃ m2,
      runOps ops (emptyStore 5) [.push A, .push B, .push C, .restore, .restore, .push Y] =
        some m2 ∧
      m2.history.length = 2 ∧ m2.historyPosition = 2 ∧
      L ops m2.history 0 = some A ∧ L ops m2.history 1 = some Y) ∧
    (∀ A B C Y : S, ∃ m3,
      runOps ops (emptyStore 5)
          [.push A, .push B, .push C, .restore, .restore, .restore, .push Y] = some m3 ∧
      m3.history.length = 1 ∧ m3.historyPosition = 1 ∧
      m3.history = [{ snap := some Y, delta := none }]) := by
  refine ⟨?_, ?_, ?_⟩
  · obtain ⟨m1, h1, h2, _, _, _, h3, h4⟩ := HistoryPush_noTruncation hrt wf X (by omega)
    exact ⟨m1, h1, h2, h3, h4⟩
  · intro A B C Y
    obtain ⟨m2, hrun, hrep, hp, _⟩ := reachable_logical ops hrt 5 (by decide)
      [.push A, .push B, .push C, .restore, .restore, .push Y]
    have hs : (LogicalHistory.run { snapshots := [], position := 0, limit := 5 }
        [.push A, .push B, .push C, .restore, .restore, .push Y]) =
        { snapshots := [A, Y], position := 2, limit := 5 } := rfl
    rw [hs] at hrep hp
    exact ⟨m2, hrun, hrep.length_eq, hp, by rw [hrep.L_eq hrt]; rfl,
      by rw [hrep.L_eq hrt]; rfl⟩
  · intro A B C Y
    obtain ⟨m3, hrun, hrep, hp, _⟩ := reachable_logical ops hrt 5 (by decide)
      [.push A, .push B, .push C, .restore, .restore, .restore, .push Y]
    have hs : (LogicalHistory.run { snapshots := [], position := 0, limit := 5 }
        [.push A, .push B, .push C, .restore, .restore, .restore, .push Y]) =
        { snapshots := [Y], position := 1, limit := 5 } := rfl
    rw [hs] at hrep hp
    exact ⟨m3, hrun, hrep.length_eq, hp, hrep.1⟩

/-- Witness of C5: `Push 9` on the store left by three pushes and two undos. -/
theorem push_interior_discards_suffix_witness :
    RoundTrip pairOps ∧ WellFormed pairOps undoneStore ∧
    undoneStore.history.length ≤ undoneStore.undoHistoryLimit ∧
    undoneStore.historyPosition < undoneStore.history.length ∧
    ∃ m1, HistoryPush pairOps undoneStore 9 = some m1 ∧
      m1.history.length = undoneStore.historyPosition + 1 ∧
      L pairOps m1.history undoneStore.historyPosition = some 9 ∧
      ∀ i, i < undoneStore.historyPosition →
        L pairOps m1.history i = L pairOps undoneStore.history i :=
  ⟨pairOps_roundTrip, undoneStore_represents.wf pairOps_roundTrip, by decide, by decide,
    (push_interior_discards_suffix pairOps pairOps_roundTrip undoneStore 9
      (undoneStore_represents.wf pairOps_roundTrip) (by decide) (by decide)).1⟩

theorem tailStore_represents : Represents pairOps tailStore [1, 2, 3] :=
  ⟨rfl, by decide, by decide, by decide, rfl⟩

/-- C6, refuted as stated: `fullStore` is well-formed with the cursor at the tail and
`N = limit = 3`; after `HistoryPush(4)` the logical snapshot `L(0)` is 2, not 1 as
before. -/
theorem push_at_full_tail_shifts_older :
    RoundTrip pairOps ∧ WellFormed pairOps fullStore ∧
    fullStore.historyPosition = fullStore.history.length ∧
    ∃ m1, HistoryPush pairOps fullStore 4 = some m1 ∧
      L pairOps fullStore.history 0 = some 1 ∧ L pairOps m1.history 0 = some 2 ∧
      ¬ ∀ i, i < fullStore.history.length →
        L pairOps m1.history i = L pairOps fullStore.history i :=
  ⟨pairOps_roundTrip, fullStore_represents.wf pairOps_roundTrip, rfl, _, rfl, rfl, rfl,
    fun h => absurd (h 0 (by decide)) (by decide)⟩

/-- C6, amended: on a well-formed store with `historyPosition = N < limit`, under the
round-trip law, after `HistoryPush(X)`: `L(i)` is unchanged for every `i < old N`, and
the new `L(new N - 1)` is `X`. -/
theorem push_at_tail_keeps_older (ops : SnapshotOps S D) (hrt : RoundTrip ops)
    (m : GameModel S D) (X : S) (wf : WellFormed ops m)
    (htail : m.historyPosition = m.history.length)
    (hroom : m.history.length < m.undoHistoryLimit) :
    ∃ m1, HistoryPush ops m X = some m1 ∧
      (∀ i, i < m.history.length → L ops m1.history i = L ops m.history i) ∧
      L ops m1.history (m1.history.length - 1) = some X := by
  obtain ⟨m1, h1, h2, _, _, _, h3, h4⟩ := HistoryPush_noTruncation hrt wf X (by omega)
  refine ⟨m1, h1, ?_, ?_⟩
  · intro i hi
    exact h4 i (by omega)
  · rw [h2]
    exact h3

/-- Witness of C6 (amended): `Push 4` on the store left by three pushes at limit 5. -/
theorem push_at_tail_keeps_older_witness :
    RoundTrip pairOps ∧ WellFormed pairOps tailStore ∧
    tailStore.historyPosition = tailStore.history.length ∧
    tailStore.history.length < tailStore.undoHistoryLimit ∧
    ∃ m1, HistoryPush pairOps tailStore 4 = some m1 ∧
      (∀ i, i < tailStore.history.length →
        L pairOps m1.history i = L pairOps tailStore.history i) ∧
      L pairOps m1.history (m1.history.length - 1) = some 4 :=
  ⟨pairOps_roundTrip, tailStore_represents.wf pairOps_roundTrip, rfl, by decide,
    push_at_tail_keeps_older pairOps pairOps_roundTrip tailStore 4
      (tailStore_represents.wf pairOps_roundTrip) rfl (by decide)⟩

/-! ## Pushing a sequence of snapshots (C7) -/

/-- Pushing a sequence of snapshots with the cursor at the tail keeps the newest
`limit` of them. -/
theorem LogicalHistory.run_pushes :
    ∀ (Ss : List S) (a : LogicalHistory S), a.position = a.snapshots.length →
      a.snapshots.length ≤ a.limit →
      (a.run (Ss.map HistoryOp.push)).snapshots =
          (a.snapshots ++ Ss).drop (a.snapshots.length + Ss.length - a.limit) ∧
        (a.run (Ss.map HistoryOp.push)).position =
          (a.run (Ss.map HistoryOp.push)).snapshots.length ∧
        (a.run (Ss.map HistoryOp.push)).limit = a.limit
  | [], a, hp, hle => by
    refine ⟨?_, hp, rfl⟩
    simp only [List.map_nil, LogicalHistory.run, List.append_nil, List.length_nil,
      Nat.add_zero]
    rw [show a.snapshots.length - a.limit = 0 by omega, List.drop_zero]
  | X :: rest, a, hp, hle => by
    have hlen1 : (a.step (.push X)).snapshots.length = min (a.snapshots.length + 1) a.limit := by
      simp only [LogicalHistory.step, hp, List.length_drop, List.length_append,
        List.length_take, List.length_singleton]
      omega
    have h1 : (a.step (.push X)).position = (a.step (.push X)).snapshots.length := by
      rw [hlen1]; simp only [LogicalHistory.step, hp]
    have h2 : (a.step (.push X)).limit = a.limit := rfl
    obtain ⟨ih1, ih2, ih3⟩ := LogicalHistory.run_pushes rest (a.step (.push X)) h1
      (by rw [hlen1, h2]; omega)
    simp only [List.map_cons, LogicalHistory.run]
    refine ⟨?_, ih2, by rw [ih3]; rfl⟩
    rw [ih1, hlen1, h2]
    have hs : (a.step (.push X)).snapshots =
        (a.snapshots ++ [X]).drop (a.snapshots.length + 1 - a.limit) := by
      simp only [LogicalHistory.step, hp, List.take_length]
    rw [hs]
    have hk : a.snapshots.length + 1 - a.limit ≤ (a.snapshots ++ [X]).length := by
      simp only [List.length_append, List.length_singleton]; omega
    rw [← List.drop_append_of_le_length hk, List.drop_drop, List.append_assoc,
      List.singleton_append]
    congr 1
    simp only [List.length_cons]
    omega

/-- C7: for every limit `m ≥ 1` and every non-empty sequence of snapshots pushed onto
the empty store with nothing in between, under the round-trip law: `N = min(n, m)`,
`historyPosition = N`, `HistoryCurrent()` is empty, entries `0..N-2` are deltas, entry
`N-1` is the snapshot pushed last, and `L(i)` is the snapshot number `n-N+i+1` of the
sequence (index `n-N+i` counting from 0).  Scenarios, for all snapshots: limit 5,
Push A, B, C gives `N = 3`, `position = 3`, `L = [A, B, C]`; limit 3, Push A, B, C,
D gives `N = 3`, `position = 3`, `L(0) = B`. -/
theorem pushes_keep_newest (ops : SnapshotOps S D) (hrt : RoundTrip ops) (limit : Nat)
    (hpos : 1 ≤ limit) (hlimit : limit < UINT_MOD) (Ss : List S) (hne : Ss ≠ []) :
    (∃ m, runOps ops (emptyStore limit) (Ss.map HistoryOp.push) = some m ∧
      m.history.length = min Ss.length limit ∧
      m.historyPosition = m.history.length ∧ HistoryCurrent m = none ∧
      (∀ i, i + 1 < m.history.length →
        ∃ d, m.history[i]? = some { snap := none, delta := some d }) ∧
      (∃ sn, Ss.getLast? = some sn ∧
        m.history[m.history.length - 1]? = some { snap := some sn, delta := none }) ∧
      ∀ i, i < m.history.length →
        L ops m.history i = Ss[Ss.length - m.history.length + i]?) ∧
    (∀ A B C : S, ∃ m, runOps ops (emptyStore 5) [.push A, .push B, .push C] = some m ∧
      m.history.length = 3 ∧ m.historyPosition = 3 ∧ L ops m.history 0 = some A ∧
      L ops m.history 1 = some B ∧ L ops m.history 2 = some C) ∧
    (∀ A B C E : S, ∃ m,
      runOps ops (emptyStore 3) [.push A, .push B, .push C, .push E] = some m ∧
      m.history.length = 3 ∧ m.historyPosition = 3 ∧ L ops m.history 0 = some B) := by
  refine ⟨?_, ?_, ?_⟩
  · obtain ⟨m, hrun, hrep, hp, _⟩ :=
      reachable_logical ops hrt limit hlimit (Ss.map HistoryOp.push)
    obtain ⟨h1, h2, _⟩ := LogicalHistory.run_pushes Ss
      { snapshots := [], position := 0, limit := limit } rfl (Nat.zero_le _)
    simp only [List.nil_append, List.length_nil, Nat.zero_add] at h1
    rw [h1] at hrep
    rw [h2, h1] at hp
    have hlen := hrep.length_eq
    have hn : 0 < Ss.length := List.length_pos.mpr hne
    have hlenD : (Ss.drop (Ss.length - limit)).length = min Ss.length limit := by
      rw [List.length_drop]; omega
    rw [hlenD] at hlen
    rw [hlenD] at hp
    have hcur : HistoryCurrent m = none := by
      rw [HistoryCurrent, hrep.2.2.2.2]
      exact List.getElem?_eq_none (by rw [hlenD, hp])
    refine ⟨m, hrun, hlen, by rw [hp, hlen], hcur, ?_, ?_, ?_⟩
    · intro i hi
      obtain ⟨a, ha⟩ := getElem?_some_of_lt' (Ss.drop (Ss.length - limit)) i (by omega)
      obtain ⟨b, hb⟩ := getElem?_some_of_lt' (Ss.drop (Ss.length - limit)) (i + 1) (by omega)
      exact ⟨_, by rw [hrep.1]; exact encode_getElem?_delta ops _ i a b ha hb⟩
    · obtain ⟨sn, hsn⟩ := getElem?_some_of_lt' Ss (Ss.length - 1) (by omega)
      refine ⟨sn, by rw [List.getLast?_eq_getElem?, hsn], ?_⟩
      rw [hlen, hrep.1]
      refine encode_getElem?_last ops _ _ sn ?_ (by rw [hlenD]; omega)
      rw [List.getElem?_drop, ← hsn]
      congr 1
      omega
    · intro i _
      rw [hrep.L_eq hrt, List.getElem?_drop, hlen]
      congr 1
      omega
  · intro A B C
    obtain ⟨m, hrun, hrep, hp, _⟩ := reachable_logical ops hrt 5 (by decide)
      [.push A, .push B, .push C]
    have hs : (LogicalHistory.run { snapshots := [], position := 0, limit := 5 }
        [.push A, .push B, .push C]) = { snapshots := [A, B, C], position := 3, limit := 5 } :=
      rfl
    rw [hs] at hrep hp
    exact ⟨m, hrun, hrep.length_eq, hp, by rw [hrep.L_eq hrt]; rfl,
      by rw [hrep.L_eq hrt]; rfl, by rw [hrep.L_eq hrt]; rfl⟩
  · intro A B C E
    obtain ⟨m, hrun, hrep, hp, _⟩ := reachable_logical ops hrt 3 (by decide)
      [.push A, .push B, .push C, .push E]
    have hs : (LogicalHistory.run { snapshots := [], position := 0, limit := 3 }
        [.push A, .push B, .push C, .push E]) =
        { snapshots := [B, C, E], position := 3, limit := 3 } := rfl
    rw [hs] at hrep hp
    exact ⟨m, hrun, hrep.length_eq, hp, by rw [hrep.L_eq hrt]; rfl⟩

/-- Witness of C7: five pushes at limit 3. -/
theorem pushes_keep_newest_witness :
    RoundTrip pairOps ∧ 1 ≤ 3 ∧ 3 < UINT_MOD ∧ [1, 2, 3, 4, 5] ≠ [] ∧
    ∃ m, runOps pairOps (emptyStore 3) ([1, 2, 3, 4, 5].map HistoryOp.push) = some m ∧
      m.history.length = min [1, 2, 3, 4, 5].length 3 ∧
      m.historyPosition = m.history.length ∧ HistoryCurrent m = none ∧
      (∀ i, i + 1 < m.history.length →
        ∃ d, m.history[i]? = some { snap := none, delta := some d }) ∧
      (∃ sn, [1, 2, 3, 4, 5].getLast? = some sn ∧
        m.history[m.history.length - 1]? = some { snap := some sn, delta := none }) ∧
      ∀ i, i < m.history.length →
        L pairOps m.history i = [1, 2, 3, 4, 5][[1, 2, 3, 4, 5].length - m.history.length + i]? :=
  ⟨pairOps_roundTrip, by decide, by decide, by decide,
    (pushes_keep_newest pairOps pairOps_roundTrip 3 (by decide) (by decide) [1, 2, 3, 4, 5]
      (by decide)).1⟩

/-! ## Front truncation (C8) and the steps of reachable stores -/

/-- C8, amended: on a well-formed store whose cursor is below `2^32 - 1`, the largest
`unsigned int`, for every limit and every snapshot `X`: `HistoryPush(X)` first makes
the size and the cursor `position + 1`; if that size exceeds `undoHistoryLimit`, the
result is the deque with `size - limit` entries popped from the front, its size is
exactly the limit, and the cursor has been decreased by exactly the number of entries
popped, which is at most the cursor (no decrement goes below 0). -/
theorem push_truncates_front (ops : SnapshotOps S D) (m : GameModel S D) (X : S)
    (wf : WellFormed ops m) (hfit : m.historyPosition + 1 < UINT_MOD) :
    ∃ m0 m1, pushAppend ops m X = some m0 ∧ HistoryPush ops m X = some m1 ∧
      m0.history.length = m.historyPosition + 1 ∧
      m0.historyPosition = m.historyPosition + 1 ∧
      m0.undoHistoryLimit = m.undoHistoryLimit ∧ m1.undoHistoryLimit = m.undoHistoryLimit ∧
      (m.undoHistoryLimit < m0.history.length →
        m1.history = m0.history.drop (m0.history.length - m.undoHistoryLimit) ∧
        m1.history.length = m.undoHistoryLimit ∧
        m0.history.length - m1.history.length ≤ m0.historyPosition ∧
        m1.historyPosition = m0.historyPosition - (m0.history.length - m1.history.length)) := by
  have hI1 := wf.I1
  have hadd : uadd1 m.historyPosition = m.historyPosition + 1 := uadd1_lt (by omega)
  have key : ∃ m0, pushAppend ops m X = some m0 ∧
      m0.history.length = m.historyPosition + 1 ∧
      m0.historyPosition = m.historyPosition + 1 ∧
      m0.undoHistoryLimit = m.undoHistoryLimit := by
    rcases Nat.eq_zero_or_pos m.historyPosition with h0 | hpos
    · exact ⟨_, (pushAppend_zero ops m X h0).2, by simp [h0], by simp [h0], rfl⟩
    · obtain ⟨r, _, _, hres⟩ := pushAppend_wf wf X hpos
      refine ⟨_, hres, ?_, hadd, rfl⟩
      simp only [List.length_append, List.length_take, List.length_cons, List.length_nil]
      omega
  obtain ⟨m0, h0, hlen, hp, hl⟩ := key
  have htr : truncateFront m0.undoHistoryLimit m0.history m0.historyPosition =
      (m0.history.drop (m0.history.length - m0.undoHistoryLimit),
        min m0.history.length m0.undoHistoryLimit) := by
    have : m0.historyPosition = m0.history.length := by omega
    rw [this]
    exact truncateFront_tail _ _ (by omega)
  refine ⟨m0, truncate m0, h0, by simp [HistoryPush, h0], hlen, hp, hl, hl, ?_⟩
  intro hgt
  rw [hl] at htr
  have hhist : (truncate m0).history =
      m0.history.drop (m0.history.length - m.undoHistoryLimit) := by
    simp only [truncate, htr, hl]
  have hposn : (truncate m0).historyPosition = min m0.history.length m.undoHistoryLimit := by
    simp only [truncate, htr, hl]
  have hlen1 : (truncate m0).history.length = m.undoHistoryLimit := by
    rw [hhist, List.length_drop]; omega
  refine ⟨hhist, hlen1, ?_, ?_⟩
  · rw [hlen1]; omega
  · rw [hposn, hlen1]; omega

/-- Witness of C8 (amended): `Push 4` at the tail of three entries after the limit was lowered
to 1, so that three entries are popped. -/
theorem push_truncates_front_witness :
    WellFormed pairOps (SetUndoHistoryLimit tailStore 1) ∧
    (SetUndoHistoryLimit tailStore 1).historyPosition + 1 < UINT_MOD ∧
    ∃ m0 m1, pushAppend pairOps (SetUndoHistoryLimit tailStore 1) 4 = some m0 ∧
      HistoryPush pairOps (SetUndoHistoryLimit tailStore 1) 4 = some m1 ∧
      m0.history.length = (SetUndoHistoryLimit tailStore 1).historyPosition + 1 ∧
      m0.historyPosition = (SetUndoHistoryLimit tailStore 1).historyPosition + 1 ∧
      m0.undoHistoryLimit = (SetUndoHistoryLimit tailStore 1).undoHistoryLimit ∧
      m1.undoHistoryLimit = (SetUndoHistoryLimit tailStore 1).undoHistoryLimit ∧
      ((SetUndoHistoryLimit tailStore 1).undoHistoryLimit < m0.history.length →
        m1.history = m0.history.drop
          (m0.history.length - (SetUndoHistoryLimit tailStore 1).undoHistoryLimit) ∧
        m1.history.length = (SetUndoHistoryLimit tailStore 1).undoHistoryLimit ∧
        m0.history.length - m1.history.length ≤ m0.historyPosition ∧
        m1.historyPosition =
          m0.historyPosition - (m0.history.length - m1.history.length)) :=
  ⟨(tailStore_represents.setLimit 1 (by decide)).wf pairOps_roundTrip, by decide,
    push_truncates_front pairOps (SetUndoHistoryLimit tailStore 1) 4
      ((tailStore_represents.setLimit 1 (by decide)).wf pairOps_roundTrip) (by decide)⟩

theorem HistoryRestore_frame (ops : SnapshotOps S D) (m m1 : GameModel S D)
    (h : HistoryRestore ops m = some m1) :
    m1.history = m.history ∧ m1.undoHistoryLimit = m.undoHistoryLimit := by
  unfold HistoryRestore at h
  split at h
  · cases h; exact ⟨rfl, rfl⟩
  · simp only at h
    split at h
    · cases h
    · split at h
      · cases h; exact ⟨rfl, rfl⟩
      · split at h
        · cases h; exact ⟨rfl, rfl⟩
        · cases h

theorem HistoryForward_frame (ops : SnapshotOps S D) (m m1 : GameModel S D)
    (h : HistoryForward ops m = some m1) :
    m1.history = m.history ∧ m1.undoHistoryLimit = m.undoHistoryLimit := by
  unfold HistoryForward at h
  split at h
  · cases h; exact ⟨rfl, rfl⟩
  · simp only at h
    split at h
    · cases h; exact ⟨rfl, rfl⟩
    · split at h
      · cases h
      · split at h
        · cases h; exact ⟨rfl, rfl⟩
        · split at h
          · cases h
          · split at h
            · cases h; exact ⟨rfl, rfl⟩
            · cases h

/-- `HistoryRestore` on a reachable store, whatever the delta operations are. -/
theorem shape_restore (ops : SnapshotOps S D) {m : GameModel S D} {Lu : List Unit}
    (hrep : Represents unitOps (erase m) Lu) :
    ∃ m1, HistoryRestore ops m = some m1 ∧ m1.history = m.history ∧
      m1.undoHistoryLimit = m.undoHistoryLimit ∧
      m1.historyPosition = m.historyPosition - 1 ∧
      Represents unitOps (erase m1) Lu := by
  obtain ⟨mu, h1, h2, _, _, h3⟩ := hrep.restore unitOps_roundTrip
  rw [erase_restore ops m] at h1
  obtain ⟨m1, hm1, rfl⟩ := Option.map_eq_some'.mp h1
  obtain ⟨hh, hl⟩ := HistoryRestore_frame ops m m1 hm1
  exact ⟨m1, hm1, hh, hl, h3, h2⟩

/-- `HistoryForward` on a reachable store, whatever the delta operations are. -/
theorem shape_forward (ops : SnapshotOps S D) {m : GameModel S D} {Lu : List Unit}
    (hrep : Represents unitOps (erase m) Lu) :
    ∃ m1, HistoryForward ops m = some m1 ∧ m1.history = m.history ∧
      m1.undoHistoryLimit = m.undoHistoryLimit ∧
      m1.historyPosition = min (m.historyPosition + 1) m.history.length ∧
      Represents unitOps (erase m1) Lu := by
  obtain ⟨mu, h1, h2, _, _, h3⟩ := hrep.forward unitOps_roundTrip
  rw [erase_forward ops m] at h1
  obtain ⟨m1, hm1, rfl⟩ := Option.map_eq_some'.mp h1
  obtain ⟨hh, hl⟩ := HistoryForward_frame ops m m1 hm1
  rw [erase_length] at h3
  exact ⟨m1, hm1, hh, hl, h3, h2⟩

/-- `HistoryPush` on a reachable store, whatever the delta operations are. -/
theorem shape_push (ops : SnapshotOps S D) {m : GameModel S D} {Lu : List Unit}
    (hrep : Represents unitOps (erase m) Lu) (X : S) :
    ∃ m1, HistoryPush ops m X = some m1 ∧
      m1.undoHistoryLimit = m.undoHistoryLimit ∧
      m1.historyPosition = min (m.historyPosition + 1) m.undoHistoryLimit ∧
      m1.history.length = min (m.historyPosition + 1) m.undoHistoryLimit ∧
      m1.historyCurrent = none ∧
      ∃ Lu1, Represents unitOps (erase m1) Lu1 := by
  obtain ⟨mu, h1, h2, h3, h4, h5, h6⟩ := hrep.push unitOps_roundTrip ()
  rw [erase_push ops m X] at h1
  obtain ⟨m1, hm1, rfl⟩ := Option.map_eq_some'.mp h1
  rw [erase_length] at h5
  refine ⟨m1, hm1, h3, h4, h5, ?_, _, h2⟩
  have : (erase m1).historyCurrent = none := h6
  simpa [erase] using this

/-! ## The size bound and the cursor range (C9, C10) -/

/-- C9, refuted as stated: after `Push 1; Push 2; Push 3` at limit 5,
`SetUndoHistoryLimit(1)` leaves three entries in the deque, more than the limit. -/
theorem size_exceeds_lowered_limit :
    ∃ m, runOps pairOps (emptyStore 5)
        [.push 1, .push 2, .push 3, .setLimit ⟨1, by decide⟩] = some m ∧
      m.history.length = 3 ∧ m.undoHistoryLimit = 1 ∧
      ¬ m.history.length ≤ m.undoHistoryLimit :=
  ⟨_, rfl, rfl, rfl, by decide⟩

/-- C9, amended: for every state reachable from the empty store, `HistoryPush` ends
with `N ≤ undoHistoryLimit`; `HistoryRestore` and `HistoryForward` change neither the
deque nor the limit; `SetUndoHistoryLimit(u)` sets the limit to `u` and leaves the
deque as it is, so the bound holds after it exactly when `N ≤ u`. -/
theorem size_bounded_after_push (ops : SnapshotOps S D) (limit : Nat)
    (hlimit : limit < UINT_MOD) (l : List (HistoryOp S)) :
    ∃ m, runOps ops (emptyStore limit) l = some m ∧
      (∀ X, ∃ m1, HistoryPush ops m X = some m1 ∧
        m1.history.length ≤ m1.undoHistoryLimit) ∧
      (∃ m1, HistoryRestore ops m = some m1 ∧ m1.history = m.history ∧
        m1.undoHistoryLimit = m.undoHistoryLimit) ∧
      (∃ m1, HistoryForward ops m = some m1 ∧ m1.history = m.history ∧
        m1.undoHistoryLimit = m.undoHistoryLimit) ∧
      (∀ u, (SetUndoHistoryLimit m u).history = m.history ∧
        (SetUndoHistoryLimit m u).undoHistoryLimit = u ∧
        ((SetUndoHistoryLimit m u).history.length ≤ (SetUndoHistoryLimit m u).undoHistoryLimit ↔
          m.history.length ≤ u)) := by
  obtain ⟨m, Lu, hrun, hrep⟩ := reachable_shape ops limit hlimit l
  refine ⟨m, hrun, ?_, ?_, ?_, ?_⟩
  · intro X
    obtain ⟨m1, h1, h2, _, h3, _⟩ := shape_push ops hrep X
    exact ⟨m1, h1, by rw [h3, h2]; exact Nat.min_le_right _ _⟩
  · obtain ⟨m1, h1, h2, h3, _⟩ := shape_restore ops hrep
    exact ⟨m1, h1, h2, h3⟩
  · obtain ⟨m1, h1, h2, h3, _⟩ := shape_forward ops hrep
    exact ⟨m1, h1, h2, h3⟩
  · intro u
    exact ⟨rfl, rfl, Iff.rfl⟩

/-- Witness of C9 (amended): a run that lowers the limit below `N` and undoes once. -/
theorem size_bounded_after_push_witness :
    5 < UINT_MOD ∧
    ∃ m, runOps pairOps (emptyStore 5)
        [.push 1, .push 2, .push 3, .setLimit ⟨1, by decide⟩, .restore] = some m ∧
      (∀ X, ∃ m1, HistoryPush pairOps m X = some m1 ∧
        m1.history.length ≤ m1.undoHistoryLimit) ∧
      (∃ m1, HistoryRestore pairOps m = some m1 ∧ m1.history = m.history ∧
        m1.undoHistoryLimit = m.undoHistoryLimit) ∧
      (∃ m1, HistoryForward pairOps m = some m1 ∧ m1.history = m.history ∧
        m1.undoHistoryLimit = m.undoHistoryLimit) ∧
      (∀ u, (SetUndoHistoryLimit m u).history = m.history ∧
        (SetUndoHistoryLimit m u).undoHistoryLimit = u ∧
        ((SetUndoHistoryLimit m u).history.length ≤ (SetUndoHistoryLimit m u).undoHistoryLimit ↔
          m.history.length ≤ u)) :=
  ⟨by decide, size_bounded_after_push pairOps 5 (by decide)
    [.push 1, .push 2, .push 3, .setLimit ⟨1, by decide⟩, .restore]⟩

/-- C10: in every state reachable from the empty store by `HistoryPush`,
`HistoryRestore`, `HistoryForward` and `SetUndoHistoryLimit`, for every limit value,
`0 ≤ historyPosition ≤ N`; and when permitted, `HistoryRestore` decreases
`historyPosition` by exactly 1 and `HistoryForward` increases it by exactly 1. -/
theorem cursor_within_bounds (ops : SnapshotOps S D) (limit : Nat)
    (hlimit : limit < UINT_MOD) (l : List (HistoryOp S)) :
    ∃ m, runOps ops (emptyStore limit) l = some m ∧
      0 ≤ m.historyPosition ∧ m.historyPosition ≤ m.history.length ∧
      (HistoryCanRestore m = true →
        ∃ m1, HistoryRestore ops m = some m1 ∧ m1.historyPosition + 1 = m.historyPosition) ∧
      (HistoryCanForward m = true →
        ∃ m1, HistoryForward ops m = some m1 ∧ m1.historyPosition = m.historyPosition + 1) := by
  obtain ⟨m, Lu, hrun, hrep⟩ := reachable_shape ops limit hlimit l
  obtain ⟨hle, _, _⟩ := shape_bounds hrep
  refine ⟨m, hrun, Nat.zero_le _, hle, ?_, ?_⟩
  · intro hcan
    have hpos : 0 < m.historyPosition := by simpa [HistoryCanRestore] using hcan
    obtain ⟨m1, h1, _, _, h2, _⟩ := shape_restore ops hrep
    exact ⟨m1, h1, by omega⟩
  · intro hcan
    have hlt : m.historyPosition < m.history.length := by simpa [HistoryCanForward] using hcan
    obtain ⟨m1, h1, _, _, h2, _⟩ := shape_forward ops hrep
    exact ⟨m1, h1, by omega⟩

/-- Witness of C10: a run at limit 0 followed by a raised limit, pushes and an undo. -/
theorem cursor_within_bounds_witness :
    0 < UINT_MOD ∧
    ∃ m, runOps pairOps (emptyStore 0)
        [.push 1, .restore, .forward, .setLimit ⟨2, by decide⟩, .push 2, .push 3, .push 4,
          .restore] = some m ∧
      0 ≤ m.historyPosition ∧ m.historyPosition ≤ m.history.length ∧
      (HistoryCanRestore m = true →
        ∃ m1, HistoryRestore pairOps m = some m1 ∧
          m1.historyPosition + 1 = m.historyPosition) ∧
      (HistoryCanForward m = true →
        ∃ m1, HistoryForward pairOps m = some m1 ∧
          m1.historyPosition = m.historyPosition + 1) :=
  ⟨by decide, cursor_within_bounds pairOps 0 (by decide)
    [.push 1, .restore, .forward, .setLimit ⟨2, by decide⟩, .push 2, .push 3, .push 4,
      .restore]⟩

/-! ## Single undo and redo steps (C11, C12) -/

/-- C11: on a well-formed store with `HistoryCanRestore()` true, `HistoryRestore()` is
defined, decreases `historyPosition` by exactly 1, sets `historyCurrent` to the logical
snapshot `L(new position)`, which is a clone of the tail snapshot when the new position
is `N-1` and otherwise `history[new position].delta.Restore` applied to the previous
`historyCurrent`, and leaves the entries and the limit unchanged. -/
theorem restore_moves_cursor_down (ops : SnapshotOps S D) (m : GameModel S D)
    (wf : WellFormed ops m) (hcan : HistoryCanRestore m = true) :
    ∃ m1 s, HistoryRestore ops m = some m1 ∧
      m1.historyPosition + 1 = m.historyPosition ∧
      L ops m.history m1.historyPosition = some s ∧ HistoryCurrent m1 = some s ∧
      m1.history = m.history ∧ m1.undoHistoryLimit = m.undoHistoryLimit ∧
      (m1.historyPosition + 1 = m.history.length →
        ∃ e, m.history[m1.historyPosition]? = some e ∧ e.snap = some s) ∧
      (m1.historyPosition + 1 < m.history.length →
        ∃ e d c, m.history[m1.historyPosition]? = some e ∧ e.delta = some d ∧
          HistoryCurrent m = some c ∧ s = ops.Restore d c) := by
  have hpos : 0 < m.historyPosition := by simpa [HistoryCanRestore] using hcan
  have hI1 := wf.I1
  obtain ⟨r, hL, hres⟩ := HistoryRestore_wf wf hpos
  obtain ⟨e, he⟩ := getElem?_some_of_lt m.history (m.historyPosition - 1) (by omega)
  refine ⟨_, r, hres, by simp only; omega, hL, rfl, rfl, rfl, ?_, ?_⟩
  · intro hN
    simp only at hN
    have hidx : m.historyPosition - 1 = m.history.length - 1 := by omega
    rw [hidx] at he hL
    have := L_last ops m.history e he
    exact ⟨e, by simp only; rw [hidx]; exact he, by rw [← this, hL]⟩
  · intro hlt
    simp only at hlt
    obtain ⟨hd, _⟩ := wf.I4 (m.historyPosition - 1) e (by omega) he
    obtain ⟨d, hd⟩ := Option.ne_none_iff_exists'.mp hd
    obtain ⟨c, hc⟩ := wf.L_some m.historyPosition (by omega)
    have hcur : m.historyCurrent = some c := by rw [wf.I6.1 (by omega), hc]
    have hstep := L_step ops m.history (m.historyPosition - 1) e (by omega) he
    have hidx : m.historyPosition - 1 + 1 = m.historyPosition := by omega
    rw [hidx, hd, hc, hL] at hstep
    exact ⟨e, d, c, he, hd, hcur, Option.some.inj hstep⟩

/-- Witness of C11: undo on the store left by three pushes and two undos. -/
theorem restore_moves_cursor_down_witness :
    WellFormed pairOps undoneStore ∧ HistoryCanRestore undoneStore = true ∧
    ∃ m1 s, HistoryRestore pairOps undoneStore = some m1 ∧
      m1.historyPosition + 1 = undoneStore.historyPosition ∧
      L pairOps undoneStore.history m1.historyPosition = some s ∧
      HistoryCurrent m1 = some s ∧
      m1.history = undoneStore.history ∧
      m1.undoHistoryLimit = undoneStore.undoHistoryLimit ∧
      (m1.historyPosition + 1 = undoneStore.history.length →
        ∃ e, undoneStore.history[m1.historyPosition]? = some e ∧ e.snap = some s) ∧
      (m1.historyPosition + 1 < undoneStore.history.length →
        ∃ e d c, undoneStore.history[m1.historyPosition]? = some e ∧ e.delta = some d ∧
          HistoryCurrent undoneStore = some c ∧ s = pairOps.Restore d c) :=
  ⟨undoneStore_represents.wf pairOps_roundTrip, rfl,
    restore_moves_cursor_down pairOps undoneStore
      (undoneStore_represents.wf pairOps_roundTrip) rfl⟩

/-- One redo step on a well-formed store needs one relationship of the deque only: when
the new position is below `N-1`, that the delta of `history[position]` maps
`L(position)` forward to `L(position + 1)`. -/
theorem HistoryForward_step_wf (ops : SnapshotOps S D) (m : GameModel S D)
    (wf : WellFormed ops m) (hcan : HistoryCanForward m = true)
    (hlink : m.historyPosition + 2 < m.history.length →
      ∀ e d a b, m.history[m.historyPosition]? = some e → e.delta = some d →
        L ops m.history m.historyPosition = some a →
        L ops m.history (m.historyPosition + 1) = some b → ops.Forward d a = b) :
    ∃ m1, HistoryForward ops m = some m1 ∧
      m1.historyPosition = m.historyPosition + 1 ∧
      m1.history = m.history ∧ m1.undoHistoryLimit = m.undoHistoryLimit ∧
      (m1.historyPosition = m.history.length → HistoryCurrent m1 = none) ∧
      (m1.historyPosition < m.history.length →
        ∃ s, L ops m.history m1.historyPosition = some s ∧ HistoryCurrent m1 = some s) ∧
      (m1.historyPosition + 1 = m.history.length →
        ∃ e s, m.history[m1.historyPosition]? = some e ∧ e.snap = some s ∧
          HistoryCurrent m1 = some s) ∧
      (m1.historyPosition + 1 < m.history.length →
        ∃ e d c, m.history[m.historyPosition]? = some e ∧ e.delta = some d ∧
          HistoryCurrent m = some c ∧ HistoryCurrent m1 = some (ops.Forward d c)) := by
  have hlt : m.historyPosition < m.history.length := by simpa [HistoryCanForward] using hcan
  rcases Nat.lt_or_ge (m.historyPosition + 1) m.history.length with hlt1 | hge1
  · rcases Nat.lt_or_ge (m.historyPosition + 2) m.history.length with hlt2 | hge2
    · obtain ⟨prev, d, c, hprev, hd, hc, hLc, hfw⟩ := HistoryForward_wf_delta wf hlt2
      obtain ⟨b, hb⟩ := wf.L_some (m.historyPosition + 1) hlt1
      have hfb := hlink hlt2 prev d c b hprev hd hLc hb
      refine ⟨_, hfw, rfl, rfl, rfl, ?_, ?_, ?_, ?_⟩
      · intro h; simp only at h; omega
      · intro _; exact ⟨b, hb, by simp only [HistoryCurrent, hfb]⟩
      · intro h; simp only at h; omega
      · intro _; exact ⟨prev, d, c, hprev, hd, hc, rfl⟩
    · obtain ⟨r, hL, hfw⟩ := HistoryForward_wf_tail wf (by omega)
      obtain ⟨e, he⟩ := getElem?_some_of_lt m.history (m.history.length - 1) (by omega)
      have hidx : m.historyPosition + 1 = m.history.length - 1 := by omega
      have hsnap := L_last ops m.history e he
      rw [← hidx] at he hsnap
      refine ⟨_, hfw, rfl, rfl, rfl, ?_, ?_, ?_, ?_⟩
      · intro h; simp only at h; omega
      · intro _; exact ⟨r, hL, rfl⟩
      · intro _; exact ⟨e, r, he, by rw [← hsnap, hL], rfl⟩
      · intro h; simp only at h; omega
  · have hfw := HistoryForward_wf_last wf (by omega)
    refine ⟨_, hfw, rfl, rfl, rfl, ?_, ?_, ?_, ?_⟩
    · intro _; rfl
    · intro h; simp only at h; omega
    · intro h; simp only at h; omega
    · intro h; simp only at h; omega

/-- C12: for every well-formed store state (I1, I3-I6, with the deltas linking the
logical snapshots as the design comment of the history records) with
`HistoryCanForward()` true, `HistoryForward()` is defined, increases `historyPosition`
by exactly 1, leaves the history entries and the limit unchanged, and sets
`historyCurrent` to empty when the new position is `N` and otherwise to
`L(new position)`: a clone of the tail snapshot at `N-1`, otherwise
`history[new position - 1].delta.Forward` applied to the previous `historyCurrent`; and
under the round-trip law every store reached from the empty store by the public
operations is such a state and has the property. -/
theorem forward_moves_cursor_up (ops : SnapshotOps S D) :
    (∀ m : GameModel S D, WellFormed ops m → Linked ops m → HistoryCanForward m = true →
      ∃ m1, HistoryForward ops m = some m1 ∧
        m1.historyPosition = m.historyPosition + 1 ∧
        m1.history = m.history ∧ m1.undoHistoryLimit = m.undoHistoryLimit ∧
        (m1.historyPosition = m.history.length → HistoryCurrent m1 = none) ∧
        (m1.historyPosition < m.history.length →
          ∃ s, L ops m.history m1.historyPosition = some s ∧ HistoryCurrent m1 = some s) ∧
        (m1.historyPosition + 1 = m.history.length →
          ∃ e s, m.history[m1.historyPosition]? = some e ∧ e.snap = some s ∧
            HistoryCurrent m1 = some s) ∧
        (m1.historyPosition + 1 < m.history.length →
          ∃ e d c, m.history[m1.historyPosition - 1]? = some e ∧ e.delta = some d ∧
            HistoryCurrent m = some c ∧ HistoryCurrent m1 = some (ops.Forward d c))) ∧
    (RoundTrip ops → ∀ (limit : Nat) (l : List (HistoryOp S)), limit < UINT_MOD →
      ∃ m, runOps ops (emptyStore limit) l = some m ∧ WellFormed ops m ∧ Linked ops m ∧
        (HistoryCanForward m = true →
          ∃ m1, HistoryForward ops m = some m1 ∧
            m1.historyPosition = m.historyPosition + 1 ∧
            m1.history = m.history ∧ m1.undoHistoryLimit = m.undoHistoryLimit ∧
            (m1.historyPosition = m.history.length → HistoryCurrent m1 = none) ∧
            (m1.historyPosition < m.history.length →
              ∃ s, L ops m.history m1.historyPosition = some s ∧
                HistoryCurrent m1 = some s) ∧
            (m1.historyPosition + 1 = m.history.length →
              ∃ e s, m.history[m1.historyPosition]? = some e ∧ e.snap = some s ∧
                HistoryCurrent m1 = some s) ∧
            (m1.historyPosition + 1 < m.history.length →
              ∃ e d c, m.history[m1.historyPosition - 1]? = some e ∧ e.delta = some d ∧
                HistoryCurrent m = some c ∧
                HistoryCurrent m1 = some (ops.Forward d c)))) := by
  have key : ∀ m : GameModel S D, WellFormed ops m → Linked ops m →
      HistoryCanForward m = true →
      ∃ m1, HistoryForward ops m = some m1 ∧
        m1.historyPosition = m.historyPosition + 1 ∧
        m1.history = m.history ∧ m1.undoHistoryLimit = m.undoHistoryLimit ∧
        (m1.historyPosition = m.history.length → HistoryCurrent m1 = none) ∧
        (m1.historyPosition < m.history.length →
          ∃ s, L ops m.history m1.historyPosition = some s ∧ HistoryCurrent m1 = some s) ∧
        (m1.historyPosition + 1 = m.history.length →
          ∃ e s, m.history[m1.historyPosition]? = some e ∧ e.snap = some s ∧
            HistoryCurrent m1 = some s) ∧
        (m1.historyPosition + 1 < m.history.length →
          ∃ e d c, m.history[m1.historyPosition - 1]? = some e ∧ e.delta = some d ∧
            HistoryCurrent m = some c ∧ HistoryCurrent m1 = some (ops.Forward d c)) := by
    intro m wf hlinked hcan
    obtain ⟨m1, h1, h2, h3, h4, h5, h6, h7, h8⟩ :=
      HistoryForward_step_wf ops m wf hcan (fun hlt e d a b he hd ha hb =>
        hlinked m.historyPosition e d a b (by omega) he hd ha hb)
    refine ⟨m1, h1, h2, h3, h4, h5, h6, h7, ?_⟩
    rw [h2, Nat.add_sub_cancel]
    rw [h2] at h8
    exact h8
  refine ⟨key, fun hrt limit l hlimit => ?_⟩
  obtain ⟨m, hrun, wf, hlinked⟩ := reachable_wf_linked ops hrt limit hlimit l
  exact ⟨m, hrun, wf, hlinked, key m wf hlinked⟩

theorem headStore_represents : Represents pairOps headStore [1, 2, 3] :=
  ⟨rfl, by decide, by decide, by decide, rfl⟩

/-- Witness of C12: redo from the head of the store left by three pushes and three
undos. -/
theorem forward_moves_cursor_up_witness :
    WellFormed pairOps headStore ∧ Linked pairOps headStore ∧
    HistoryCanForward headStore = true ∧
    ∃ m1, HistoryForward pairOps headStore = some m1 ∧
      m1.historyPosition = headStore.historyPosition + 1 ∧
      m1.history = headStore.history ∧
      m1.undoHistoryLimit = headStore.undoHistoryLimit ∧
      (m1.historyPosition = headStore.history.length → HistoryCurrent m1 = none) ∧
      (m1.historyPosition < headStore.history.length →
        ∃ s, L pairOps headStore.history m1.historyPosition = some s ∧
          HistoryCurrent m1 = some s) ∧
      (m1.historyPosition + 1 = headStore.history.length →
        ∃ e s, headStore.history[m1.historyPosition]? = some e ∧ e.snap = some s ∧
          HistoryCurrent m1 = some s) ∧
      (m1.historyPosition + 1 < headStore.history.length →
        ∃ e d c, headStore.history[m1.historyPosition - 1]? = some e ∧
          e.delta = some d ∧ HistoryCurrent headStore = some c ∧
          HistoryCurrent m1 = some (pairOps.Forward d c)) :=
  ⟨headStore_represents.wf pairOps_roundTrip, headStore_represents.linked pairOps_roundTrip,
    rfl,
    (forward_moves_cursor_up pairOps).1 headStore (headStore_represents.wf pairOps_roundTrip)
      (headStore_represents.linked pairOps_roundTrip) rfl⟩

/-! ## The undo scenarios (C13, C14) -/

/-- C13, refuted as stated: at limit 5 with the distinct snapshots 1, 2, 3, after
`Push 1; Push 2; Push 3` one `HistoryRestore` gives `position = 2` and
`Current() = 3`, not 2; a second one gives `position = 1` and `Current() = 2`, not 1. -/
theorem first_undo_materialises_newest :
    (∃ m1, runOps pairOps (emptyStore 5) [.push 1, .push 2, .push 3, .restore] = some m1 ∧
      m1.historyPosition = 2 ∧ HistoryCurrent m1 = some 3 ∧ HistoryCurrent m1 ≠ some 2) ∧
    (∃ m2, runOps pairOps (emptyStore 5)
        [.push 1, .push 2, .push 3, .restore, .restore] = some m2 ∧
      m2.historyPosition = 1 ∧ HistoryCurrent m2 = some 2 ∧ HistoryCurrent m2 ≠ some 1) :=
  ⟨⟨_, rfl, rfl, rfl, by decide⟩, ⟨_, rfl, rfl, rfl, by decide⟩⟩

/-- C13, amended: at limit 5, for all snapshots `A`, `B`, `C`, under the round-trip
law: after `Push A; Push B; Push C` one `HistoryRestore` gives `position = 2` and
`Current() = C`; a second one gives `position = 1` and `Current() = B`; a following
`HistoryForward` gives `position = 2` and `Current() = C`. -/
theorem undo_redo_scenario (ops : SnapshotOps S D) (hrt : RoundTrip ops) (A B C : S) :
    (∃ m1, runOps ops (emptyStore 5) [.push A, .push B, .push C, .restore] = some m1 ∧
      m1.historyPosition = 2 ∧ HistoryCurrent m1 = some C) ∧
    (∃ m2, runOps ops (emptyStore 5) [.push A, .push B, .push C, .restore, .restore] =
        some m2 ∧
      m2.historyPosition = 1 ∧ HistoryCurrent m2 = some B) ∧
    (∃ m3, runOps ops (emptyStore 5)
        [.push A, .push B, .push C, .restore, .restore, .forward] = some m3 ∧
      m3.historyPosition = 2 ∧ HistoryCurrent m3 = some C) := by
  refine ⟨?_, ?_, ?_⟩
  · obtain ⟨m, hrun, hrep, hp, _⟩ := reachable_logical ops hrt 5 (by decide)
      [.push A, .push B, .push C, .restore]
    have hs : (LogicalHistory.run { snapshots := [], position := 0, limit := 5 }
        [.push A, .push B, .push C, .restore]) =
        { snapshots := [A, B, C], position := 2, limit := 5 } := rfl
    rw [hs] at hrep hp
    exact ⟨m, hrun, hp, by rw [HistoryCurrent, hrep.2.2.2.2, hp]; rfl⟩
  · obtain ⟨m, hrun, hrep, hp, _⟩ := reachable_logical ops hrt 5 (by decide)
      [.push A, .push B, .push C, .restore, .restore]
    have hs : (LogicalHistory.run { snapshots := [], position := 0, limit := 5 }
        [.push A, .push B, .push C, .restore, .restore]) =
        { snapshots := [A, B, C], position := 1, limit := 5 } := rfl
    rw [hs] at hrep hp
    exact ⟨m, hrun, hp, by rw [HistoryCurrent, hrep.2.2.2.2, hp]; rfl⟩
  · obtain ⟨m, hrun, hrep, hp, _⟩ := reachable_logical ops hrt 5 (by decide)
      [.push A, .push B, .push C, .restore, .restore, .forward]
    have hs : (LogicalHistory.run { snapshots := [], position := 0, limit := 5 }
        [.push A, .push B, .push C, .restore, .restore, .forward]) =
        { snapshots := [A, B, C], position := 2, limit := 5 } := rfl
    rw [hs] at hrep hp
    exact ⟨m, hrun, hp, by rw [HistoryCurrent, hrep.2.2.2.2, hp]; rfl⟩

/-- Witness of C13 (amended): the scenario with old/new-pair deltas and snapshots
1, 2, 3. -/
theorem undo_redo_scenario_witness :
    RoundTrip pairOps ∧
    (∃ m1, runOps pairOps (emptyStore 5) [.push 1, .push 2, .push 3, .restore] = some m1 ∧
      m1.historyPosition = 2 ∧ HistoryCurrent m1 = some 3) ∧
    (∃ m2, runOps pairOps (emptyStore 5) [.push 1, .push 2, .push 3, .restore, .restore] =
        some m2 ∧
      m2.historyPosition = 1 ∧ HistoryCurrent m2 = some 2) ∧
    (∃ m3, runOps pairOps (emptyStore 5)
        [.push 1, .push 2, .push 3, .restore, .restore, .forward] = some m3 ∧
      m3.historyPosition = 2 ∧ HistoryCurrent m3 = some 3) :=
  ⟨fun _ _ => ⟨rfl, rfl⟩, undo_redo_scenario pairOps (fun _ _ => ⟨rfl, rfl⟩) 1 2 3⟩

/-- C14, refuted as stated: at limit 3 with the distinct snapshots 1, 2, 3, 4, after
`Push 1; Push 2; Push 3; Push 4` and two `HistoryRestore` calls `Current()` is 3,
not 2. -/
theorem second_undo_after_truncation_materialises_third :
    ∃ m, runOps pairOps (emptyStore 3)
        [.push 1, .push 2, .push 3, .push 4, .restore, .restore] = some m ∧
      m.historyPosition = 1 ∧ HistoryCurrent m = some 3 ∧ HistoryCurrent m ≠ some 2 :=
  ⟨_, rfl, rfl, rfl, by decide⟩

/-- C14, amended: at limit 3, for all snapshots `A`, `B`, `C`, `E`, under the
round-trip law: after `Push A; Push B; Push C; Push E` and two `HistoryRestore` calls,
`position = 1` and `Current() = C` (the logical snapshots are `[B, C, E]`). -/
theorem truncation_undo_scenario (ops : SnapshotOps S D) (hrt : RoundTrip ops)
    (A B C E : S) :
    ∃ m, runOps ops (emptyStore 3)
        [.push A, .push B, .push C, .push E, .restore, .restore] = some m ∧
      m.history.length = 3 ∧ m.historyPosition = 1 ∧ HistoryCurrent m = some C ∧
      L ops m.history 0 = some B ∧ L ops m.history 1 = some C ∧
      L ops m.history 2 = some E := by
  obtain ⟨m, hrun, hrep, hp, _⟩ := reachable_logical ops hrt 3 (by decide)
    [.push A, .push B, .push C, .push E, .restore, .restore]
  have hs : (LogicalHistory.run { snapshots := [], position := 0, limit := 3 }
      [.push A, .push B, .push C, .push E, .restore, .restore]) =
      { snapshots := [B, C, E], position := 1, limit := 3 } := rfl
  rw [hs] at hrep hp
  exact ⟨m, hrun, hrep.length_eq, hp, by rw [HistoryCurrent, hrep.2.2.2.2, hp]; rfl,
    by rw [hrep.L_eq hrt]; rfl, by rw [hrep.L_eq hrt]; rfl, by rw [hrep.L_eq hrt]; rfl⟩

/-- Witness of C14 (amended): the scenario with old/new-pair deltas and snapshots
1, 2, 3, 4. -/
theorem truncation_undo_scenario_witness :
    RoundTrip pairOps ∧
    ∃ m, runOps pairOps (emptyStore 3)
        [.push 1, .push 2, .push 3, .push 4, .restore, .restore] = some m ∧
      m.history.length = 3 ∧ m.historyPosition = 1 ∧ HistoryCurrent m = some 3 ∧
      L pairOps m.history 0 = some 2 ∧ L pairOps m.history 1 = some 3 ∧
      L pairOps m.history 2 = some 4 :=
  ⟨fun _ _ => ⟨rfl, rfl⟩, truncation_undo_scenario pairOps (fun _ _ => ⟨rfl, rfl⟩) 1 2 3 4⟩

/-! ## The rebase in HistoryPush (C15, C16) -/

theorem L_drop (ops : SnapshotOps S D) (h : List (HistoryEntry S D)) (k i : Nat) :
    L ops (h.drop k) i = L ops h (k + i) := by
  simp only [L, List.drop_drop]

/-- `HistoryPush` on a well-formed store with the cursor in the interior: the state
before truncation, the entry written below the cursor, and the truncated result. -/
theorem HistoryPush_interior {ops : SnapshotOps S D} {m : GameModel S D}
    (wf : WellFormed ops m) (X : S) (h0 : 0 < m.historyPosition)
    (hlt : m.historyPosition < m.history.length) :
    ∃ r m0, L ops m.history (m.historyPosition - 1) = some r ∧
      pushRebase ops m = some (some r) ∧ pushAppend ops m X = some m0 ∧
      m0.history.length = m.historyPosition + 1 ∧
      m0.history[m.historyPosition - 1]? =
        some { snap := none, delta := some (ops.FromSnapshots r X) } ∧
      HistoryPush ops m X = some (truncate m0) ∧
      (truncate m0).history =
        m0.history.drop (m.historyPosition + 1 - m.undoHistoryLimit) := by
  have hfit := wf.fits
  obtain ⟨r, hL, hr, hres⟩ := pushAppend_wf wf X h0
  have hlenT : (m.history.take (m.historyPosition - 1)).length = m.historyPosition - 1 := by
    rw [List.length_take]; omega
  have hadd : uadd1 m.historyPosition = m.historyPosition + 1 := uadd1_lt (by omega)
  refine ⟨r, _, hL, hr, hres, ?_, ?_, by simp [HistoryPush, hres], ?_⟩
  · simp only [List.length_append, hlenT, List.length_cons, List.length_nil]
    omega
  · simp only
    rw [List.getElem?_append_right (by rw [hlenT]), hlenT, Nat.sub_self]
    rfl
  · have hlen0 : (m.history.take (m.historyPosition - 1) ++
        [({ snap := none, delta := some (ops.FromSnapshots r X) } : HistoryEntry S D),
         { snap := some X, delta := none }]).length = m.historyPosition + 1 := by
      simp only [List.length_append, hlenT, List.length_cons, List.length_nil]
      omega
    simp only [truncate, hadd]
    rw [← hlen0, truncateFront_tail _ _ (by rw [hlen0]; omega)]

/-- C15, refuted as stated: on `undoneStore` (cursor 1 of 3, `HistoryCurrent() = L(1) =
2`) `HistoryPush(9)` rebases onto `L(0) = 1`: the entry at index 0 becomes
`FromSnapshots(1, 9)`, not `FromSnapshots(2, 9)`. -/
theorem push_does_not_rebase_onto_current :
    WellFormed pairOps undoneStore ∧
    0 < undoneStore.historyPosition ∧
    undoneStore.historyPosition < undoneStore.history.length ∧
    HistoryCurrent undoneStore = some 2 ∧
    L pairOps undoneStore.history undoneStore.historyPosition = some 2 ∧
    pushRebase pairOps undoneStore = some (some 1) ∧
    ∃ m1, HistoryPush pairOps undoneStore 9 = some m1 ∧
      m1.history[undoneStore.historyPosition - 1]? =
        some { snap := none, delta := some (pairOps.FromSnapshots 1 9) } ∧
      m1.history[undoneStore.historyPosition - 1]? ≠
        some { snap := none, delta := some (pairOps.FromSnapshots 2 9) } :=
  ⟨undoneStore_represents.wf pairOps_roundTrip, by decide, by decide, rfl, rfl, rfl,
    _, rfl, rfl, by decide⟩

/-- C15, amended: on a well-formed store with `0 < historyPosition < N`, `HistoryPush(X)`
is defined and the delta it writes into the entry at index `position-1` is
`FromSnapshots(rebaseOnto, X)` with `rebaseOnto` equal to
`history[position-1].delta.Restore` applied to the value `HistoryCurrent()` had before
the call, which is `L(position-1)`. -/
theorem push_rebases_onto_restored_current (ops : SnapshotOps S D) (m : GameModel S D)
    (X : S) (wf : WellFormed ops m) (h0 : 0 < m.historyPosition)
    (hlt : m.historyPosition < m.history.length) :
    ∃ e d c m0, m.history[m.historyPosition - 1]? = some e ∧ e.delta = some d ∧
      HistoryCurrent m = some c ∧ L ops m.history m.historyPosition = some c ∧
      L ops m.history (m.historyPosition - 1) = some (ops.Restore d c) ∧
      pushRebase ops m = some (some (ops.Restore d c)) ∧
      pushAppend ops m X = some m0 ∧ HistoryPush ops m X = some (truncate m0) ∧
      m0.history[m.historyPosition - 1]? =
        some { snap := none, delta := some (ops.FromSnapshots (ops.Restore d c) X) } := by
  obtain ⟨r, m0, hL, hr, hres, _, hent, hpush, _⟩ := HistoryPush_interior wf X h0 hlt
  obtain ⟨e, he⟩ := getElem?_some_of_lt m.history (m.historyPosition - 1) (by omega)
  obtain ⟨hd, _⟩ := wf.I4 (m.historyPosition - 1) e (by omega) he
  obtain ⟨d, hd⟩ := Option.ne_none_iff_exists'.mp hd
  obtain ⟨c, hc⟩ := wf.L_some m.historyPosition hlt
  have hcur : m.historyCurrent = some c := by rw [wf.I6.1 hlt, hc]
  have hstep := L_step ops m.history (m.historyPosition - 1) e (by omega) he
  have hidx : m.historyPosition - 1 + 1 = m.historyPosition := by omega
  rw [hidx, hd, hc, hL] at hstep
  have hrr : r = ops.Restore d c := Option.some.inj hstep
  subst hrr
  exact ⟨e, d, c, m0, he, hd, hcur, hc, hL, hr, hres, hpush, hent⟩

/-- Witness of C15 (amended): `Push 9` on the store left by three pushes and two
undos. -/
theorem push_rebases_onto_restored_current_witness :
    WellFormed pairOps undoneStore ∧ 0 < undoneStore.historyPosition ∧
    undoneStore.historyPosition < undoneStore.history.length ∧
    ∃ e d c m0, undoneStore.history[undoneStore.historyPosition - 1]? = some e ∧
      e.delta = some d ∧ HistoryCurrent undoneStore = some c ∧
      L pairOps undoneStore.history undoneStore.historyPosition = some c ∧
      L pairOps undoneStore.history (undoneStore.historyPosition - 1) =
        some (pairOps.Restore d c) ∧
      pushRebase pairOps undoneStore = some (some (pairOps.Restore d c)) ∧
      pushAppend pairOps undoneStore 9 = some m0 ∧
      HistoryPush pairOps undoneStore 9 = some (truncate m0) ∧
      m0.history[undoneStore.historyPosition - 1]? =
        some { snap := none,
               delta := some (pairOps.FromSnapshots (pairOps.Restore d c) 9) } :=
  ⟨undoneStore_represents.wf pairOps_roundTrip, by decide, by decide,
    push_rebases_onto_restored_current pairOps undoneStore 9
      (undoneStore_represents.wf pairOps_roundTrip) (by decide) (by decide)⟩

/-- C16: on a well-formed store with `0 < historyPosition < N`, under the round-trip
law, the delta that `HistoryPush(X)` writes into the entry at index `position-1` is
`FromSnapshots(L(position-1), X)`, and the logical snapshot of that entry is
`L(position-1)` after the push as it was before: in the deque before the front
truncation at index `position-1`, and in the result, where `k` entries have been
popped from the front, at index `position-1-k` whenever the entry has not been popped
itself. -/
theorem push_keeps_rebased_logical_snapshot (ops : SnapshotOps S D) (hrt : RoundTrip ops)
    (m : GameModel S D) (X : S) (wf : WellFormed ops m) (h0 : 0 < m.historyPosition)
    (hlt : m.historyPosition < m.history.length) :
    ∃ r m0 m1, L ops m.history (m.historyPosition - 1) = some r ∧
      pushAppend ops m X = some m0 ∧
      m0.history[m.historyPosition - 1]? =
        some { snap := none, delta := some (ops.FromSnapshots r X) } ∧
      L ops m0.history (m.historyPosition - 1) = some r ∧
      HistoryPush ops m X = some m1 ∧
      m1.history = m0.history.drop (m.historyPosition + 1 - m.undoHistoryLimit) ∧
      (m.historyPosition + 1 - m.undoHistoryLimit ≤ m.historyPosition - 1 →
        m1.history[m.historyPosition - 1 - (m.historyPosition + 1 - m.undoHistoryLimit)]? =
          some { snap := none, delta := some (ops.FromSnapshots r X) } ∧
        L ops m1.history
          (m.historyPosition - 1 - (m.historyPosition + 1 - m.undoHistoryLimit)) =
          some r) := by
  obtain ⟨r, m0, hL, _, hres, _, hent, hpush, htr⟩ := HistoryPush_interior wf X h0 hlt
  obtain ⟨m0', hres', _, _, _, _, _, hkeep⟩ := pushAppend_logical hrt wf X
  rw [hres] at hres'
  cases hres'
  have hL0 : L ops m0.history (m.historyPosition - 1) = some r := by
    rw [hkeep _ (by omega), hL]
  refine ⟨r, m0, truncate m0, hL, hres, hent, hL0, hpush, htr, ?_⟩
  intro hk
  have hidx : m.historyPosition + 1 - m.undoHistoryLimit +
      (m.historyPosition - 1 - (m.historyPosition + 1 - m.undoHistoryLimit)) =
      m.historyPosition - 1 := by omega
  constructor
  · rw [htr, List.getElem?_drop, hidx, hent]
  · rw [htr, L_drop, hidx, hL0]

/-- Witness of C16: `Push 9` on the store left by three pushes and two undos. -/
theorem push_keeps_rebased_logical_snapshot_witness :
    RoundTrip pairOps ∧ WellFormed pairOps undoneStore ∧
    0 < undoneStore.historyPosition ∧
    undoneStore.historyPosition < undoneStore.history.length ∧
    ∃ r m0 m1, L pairOps undoneStore.history (undoneStore.historyPosition - 1) = some r ∧
      pushAppend pairOps undoneStore 9 = some m0 ∧
      m0.history[undoneStore.historyPosition - 1]? =
        some { snap := none, delta := some (pairOps.FromSnapshots r 9) } ∧
      L pairOps m0.history (undoneStore.historyPosition - 1) = some r ∧
      HistoryPush pairOps undoneStore 9 = some m1 ∧
      m1.history =
        m0.history.drop (undoneStore.historyPosition + 1 - undoneStore.undoHistoryLimit) ∧
      (undoneStore.historyPosition + 1 - undoneStore.undoHistoryLimit ≤
          undoneStore.historyPosition - 1 →
        m1.history[undoneStore.historyPosition - 1 -
            (undoneStore.historyPosition + 1 - undoneStore.undoHistoryLimit)]? =
          some { snap := none, delta := some (pairOps.FromSnapshots r 9) } ∧
        L pairOps m1.history
          (undoneStore.historyPosition - 1 -
            (undoneStore.historyPosition + 1 - undoneStore.undoHistoryLimit)) =
          some r) :=
  ⟨pairOps_roundTrip, undoneStore_represents.wf pairOps_roundTrip, by decide, by decide,
    push_keeps_rebased_logical_snapshot pairOps pairOps_roundTrip undoneStore 9
      (undoneStore_represents.wf pairOps_roundTrip) (by decide) (by decide)⟩

/-! ## External operations that may throw -/

/-- When no external call throws, `HistoryRestoreF` is `HistoryRestore`. -/
theorem HistoryRestoreF_noFailures (ops : SnapshotOps S D) (m : GameModel S D) :
    HistoryRestoreF ops noFailures m = Outcome.ofOption (HistoryRestore ops m) := by
  by_cases hc : m.historyPosition > 0
  · rcases h1 : m.history[usub1 m.historyPosition]? with _ | ⟨_ | s, _ | d⟩ <;>
      rcases hcur : m.historyCurrent with _ | c <;>
      simp [HistoryRestoreF, HistoryRestore, HistoryCanRestore, noFailures, Outcome.ofOption,
        hc, h1, hcur]
  · simp [HistoryRestoreF, HistoryRestore, HistoryCanRestore, Outcome.ofOption, hc]

/-- When no external call throws, `HistoryForwardF` is `HistoryForward`. -/
theorem HistoryForwardF_noFailures (ops : SnapshotOps S D) (m : GameModel S D) :
    HistoryForwardF ops noFailures m = Outcome.ofOption (HistoryForward ops m) := by
  by_cases hc : m.historyPosition < m.history.length
  · by_cases hN : uadd1 m.historyPosition = m.history.length
    · simp [HistoryForwardF, HistoryForward, HistoryCanForward, Outcome.ofOption, hc, hN]
    · rcases h1 : m.history[uadd1 m.historyPosition]? with _ | ⟨_ | s, _ | d⟩ <;>
        rcases h2 : m.history[usub1 (uadd1 m.historyPosition)]? with _ | ⟨_ | s2, _ | d2⟩ <;>
        rcases hcur : m.historyCurrent with _ | c <;>
        simp [HistoryForwardF, HistoryForward, HistoryCanForward, noFailures,
          Outcome.ofOption, hc, hN, h1, h2, hcur]
  · simp [HistoryForwardF, HistoryForward, HistoryCanForward, Outcome.ofOption, hc]

/-- When no external call throws, `HistoryPushF` is `HistoryPush`. -/
theorem HistoryPushF_noFailures (ops : SnapshotOps S D) (m : GameModel S D) (X : S) :
    HistoryPushF ops noFailures m X = Outcome.ofOption (HistoryPush ops m X) := by
  by_cases hc : m.historyPosition = 0
  · simp [HistoryPushF, pushFromF, HistoryPush, pushAppend, pushRebase, Outcome.ofOption, hc]
  · rcases hb : m.history.getLast? with _ | b
    · simp [HistoryPushF, HistoryPush, pushAppend, pushRebase, Outcome.ofOption, hc, hb]
    · by_cases hlt : m.historyPosition < m.history.length
      · rcases h1 : m.history[usub1 m.historyPosition]? with _ | ⟨s, _ | d⟩ <;>
          rcases hcur : m.historyCurrent with _ | c <;>
          simp [HistoryPushF, HistoryPush, pushAppend, pushRebase, Outcome.ofOption,
            hc, hb, hlt, h1, hcur]
        rcases hp : (popBackLoop m.historyPosition m.history.length m.history).getLast?
          with _ | prev <;>
          simp [pushFromF, setPrevDelta, noFailures, hp]
      · rcases hs : b.snap with _ | A
        · simp [HistoryPushF, pushFromF, HistoryPush, pushAppend, pushRebase,
            Outcome.ofOption, hc, hb, hlt, hs]
        · rcases hp : (popBackLoop m.historyPosition m.history.length m.history).getLast?
            with _ | prev <;>
            simp [HistoryPushF, pushFromF, HistoryPush, pushAppend, pushRebase, setPrevDelta,
              noFailures, Outcome.ofOption, hc, hb, hlt, hs, hp]

/-- An exception leaves `HistoryRestoreF` only after the cursor has been decremented
and before anything else has been written. -/
theorem HistoryRestoreF_threw (ops : SnapshotOps S D) (fail : Failures S D)
    (m m1 : GameModel S D) (h : HistoryRestoreF ops fail m = .threw m1) :
    HistoryCanRestore m = true ∧
      m1 = { m with historyPosition := usub1 m.historyPosition } := by
  obtain ⟨hist, cur, pos, lim⟩ := m
  by_cases hc : pos > 0
  · refine ⟨by simp [HistoryCanRestore, hc], ?_⟩
    rcases h1 : hist[usub1 pos]? with _ | ⟨_ | s, _ | d⟩ <;>
      rcases cur with _ | c <;>
      simp [HistoryRestoreF, HistoryCanRestore, hc, h1] at h <;>
      (split at h <;> first | (cases h; rfl) | cases h)
  · simp [HistoryRestoreF, HistoryCanRestore, hc] at h

/-- An exception leaves `HistoryForwardF` only after the cursor has been incremented
and before anything else has been written. -/
theorem HistoryForwardF_threw (ops : SnapshotOps S D) (fail : Failures S D)
    (m m1 : GameModel S D) (h : HistoryForwardF ops fail m = .threw m1) :
    HistoryCanForward m = true ∧
      m1 = { m with historyPosition := uadd1 m.historyPosition } := by
  obtain ⟨hist, cur, pos, lim⟩ := m
  by_cases hc : pos < hist.length
  · refine ⟨by simp [HistoryCanForward, hc], ?_⟩
    by_cases hN : uadd1 pos = hist.length
    · simp [HistoryForwardF, HistoryCanForward, hc, hN] at h
    · rcases h1 : hist[uadd1 pos]? with _ | ⟨_ | s, _ | d⟩ <;>
        rcases h2 : hist[usub1 (uadd1 pos)]? with _ | ⟨_ | s2, _ | d2⟩ <;>
        rcases cur with _ | c <;>
        simp [HistoryForwardF, HistoryCanForward, hc, hN, h1, h2] at h <;>
        (split at h <;> first | (cases h; rfl) | cases h)
  · simp [HistoryForwardF, HistoryCanForward, hc] at h

/-- An exception leaves the second part of `HistoryPushF` only from `FromSnapshots`,
after the pop-back loop and before the entry below the cursor is rewritten. -/
theorem pushFromF_threw (ops : SnapshotOps S D) (fail : Failures S D)
    (m m1 : GameModel S D) (rebaseOnto : Option S) (X : S)
    (h : pushFromF ops fail m rebaseOnto X = .threw m1) :
    ∃ r, rebaseOnto = some r ∧ fail.FromSnapshots r X = true ∧
      m1 = { m with history := popBackLoop m.historyPosition m.history.length m.history } := by
  unfold pushFromF at h
  rcases rebaseOnto with _ | r
  · simp at h
  · rcases hp : (popBackLoop m.historyPosition m.history.length m.history).getLast?
      with _ | prev
    · simp [hp] at h
    · simp only [hp] at h
      by_cases hf : fail.FromSnapshots r X = true
      · simp only [hf, if_true] at h
        cases h
        exact ⟨r, rfl, hf, rfl⟩
      · simp [hf] at h

/-! ## Failure of an external operation (C17, C18) -/

/-- C17, refuted as stated: on the well-formed store `undoneStore` (cursor 1 of 3), when
`FromSnapshots` throws during `HistoryPush(9)` the entries from the cursor on have
already been popped and `historyCurrent` has already been overwritten. -/
theorem failed_rebase_leaves_history_popped :
    WellFormed pairOps undoneStore ∧
    ∃ m1, HistoryPushF pairOps fromSnapshotsFails undoneStore 9 = .threw m1 ∧
      m1.history = [{ snap := none, delta := some (1, 2) }] ∧
      m1.historyCurrent = some 1 ∧
      m1.history ≠ undoneStore.history ∧ m1.historyCurrent ≠ undoneStore.historyCurrent :=
  ⟨undoneStore_represents.wf pairOps_roundTrip, _, rfl, rfl, rfl, by decide, by decide⟩

/-- C17, amended: modelling `FromSnapshots` and the delta `Restore` as fallible
(`HistoryPush` copies no snapshot), on a well-formed store: with the cursor at the
head no external operation is called and `HistoryPush` returns; when an exception
leaves `HistoryPush(X)`, `historyPosition` and the limit are what they were, and
the whole store is unchanged if the cursor is at the tail or if it is in the
interior and `Restore` failed; if the cursor is in the interior and `FromSnapshots`
failed, the entries from the cursor on have been popped and `historyCurrent` holds
`L(position-1)`. -/
theorem push_failure_state (ops : SnapshotOps S D) (fail : Failures S D)
    (m : GameModel S D) (X : S) (wf : WellFormed ops m) :
    (m.historyPosition = 0 → ∃ m1, HistoryPushF ops fail m X = .returned m1) ∧
    ∀ m1, HistoryPushF ops fail m X = .threw m1 →
      m1.historyPosition = m.historyPosition ∧ m1.undoHistoryLimit = m.undoHistoryLimit ∧
      (m.historyPosition = m.history.length → m1 = m) ∧
      (m.historyPosition < m.history.length →
        (∃ e d c, m.history[m.historyPosition - 1]? = some e ∧ e.delta = some d ∧
          HistoryCurrent m = some c ∧ fail.Restore d c = true ∧ m1 = m) ∨
        (∃ r, L ops m.history (m.historyPosition - 1) = some r ∧
          fail.FromSnapshots r X = true ∧
          m1 = { m with history := m.history.take m.historyPosition,
                        historyCurrent := some r })) := by
  have hI1 := wf.I1
  have hfit := wf.fits
  rcases Nat.eq_zero_or_pos m.historyPosition with hz | hpos
  · refine ⟨fun _ => ?_, ?_⟩
    · simp only [HistoryPushF, hz, ne_eq, not_true_eq_false, if_false, pushFromF]
      exact ⟨_, rfl⟩
    intro m1 h
    simp only [HistoryPushF, hz, ne_eq, not_true_eq_false, if_false] at h
    obtain ⟨r, hr, _⟩ := pushFromF_threw ops fail m m1 none X h
    cases hr
  · refine ⟨fun h => by omega, ?_⟩
    intro m1 h
    have hsub : usub1 m.historyPosition = m.historyPosition - 1 := usub1_pos hpos (by omega)
    obtain ⟨e, he⟩ := getElem?_some_of_lt m.history (m.historyPosition - 1) (by omega)
    obtain ⟨b, hb⟩ := getElem?_some_of_lt m.history (m.history.length - 1) (by omega)
    have hlast : m.history.getLast? = some b := by rw [List.getLast?_eq_getElem?, hb]
    have hne : m.historyPosition ≠ 0 := by omega
    rcases Nat.lt_or_ge m.historyPosition m.history.length with hlt | hge
    · obtain ⟨hd, _⟩ := wf.I4 (m.historyPosition - 1) e (by omega) he
      obtain ⟨d, hd⟩ := Option.ne_none_iff_exists'.mp hd
      obtain ⟨c, hc⟩ := wf.L_some m.historyPosition hlt
      have hcur : m.historyCurrent = some c := by rw [wf.I6.1 hlt, hc]
      have hL := L_step ops m.history (m.historyPosition - 1) e (by omega) he
      have hidx : m.historyPosition - 1 + 1 = m.historyPosition := by omega
      rw [hidx, hd, hc] at hL
      simp only [HistoryPushF, hne, ne_eq, not_false_eq_true, if_true, hlast, hlt, hsub, he,
        hd, hcur] at h
      by_cases hf : fail.Restore d c = true
      · simp only [hf, if_true] at h
        cases h
        exact ⟨rfl, rfl, fun _ => rfl, fun _ => Or.inl ⟨e, d, c, he, hd, hcur, hf, rfl⟩⟩
      · have hf2 : fail.Restore d c = false := by simpa using hf
        simp only [hf2, Bool.false_eq_true, if_false] at h
        obtain ⟨r, hr, hfr, hm1⟩ := pushFromF_threw ops fail _ m1 _ X h
        cases hr
        simp only at hm1
        rw [popBackLoop_eq_take _ _ _ (by omega)] at hm1
        subst hm1
        exact ⟨rfl, rfl, fun hN => by omega, fun _ => Or.inr ⟨_, hL, hfr, rfl⟩⟩
    · have hnlt : ¬ m.historyPosition < m.history.length := by omega
      simp only [HistoryPushF, hne, ne_eq, not_false_eq_true, if_true, hlast, hnlt,
        if_false] at h
      obtain ⟨r, _, _, hm1⟩ := pushFromF_threw ops fail m m1 _ X h
      rw [popBackLoop_eq_take _ _ _ (by omega), List.take_of_length_le (by omega)] at hm1
      subst hm1
      exact ⟨rfl, rfl, fun _ => rfl, fun hlt => by omega⟩

/-- Witness of C17 (amended): `FromSnapshots` fails during `Push 9` on `undoneStore`. -/
theorem push_failure_state_witness :
    WellFormed pairOps undoneStore ∧
    HistoryPushF pairOps fromSnapshotsFails undoneStore 9 =
      .threw { undoneStore with history := undoneStore.history.take 1,
                                historyCurrent := some 1 } ∧
    ({ undoneStore with history := undoneStore.history.take 1,
                        historyCurrent := some 1 } : GameModel Nat (Nat × Nat)).historyPosition =
      undoneStore.historyPosition ∧
    ({ undoneStore with history := undoneStore.history.take 1,
                        historyCurrent := some 1 } : GameModel Nat (Nat × Nat)).undoHistoryLimit =
      undoneStore.undoHistoryLimit :=
  ⟨undoneStore_represents.wf pairOps_roundTrip, rfl,
    ((push_failure_state pairOps fromSnapshotsFails undoneStore 9
      (undoneStore_represents.wf pairOps_roundTrip)).2 _ rfl).1,
    ((push_failure_state pairOps fromSnapshotsFails undoneStore 9
      (undoneStore_represents.wf pairOps_roundTrip)).2 _ rfl).2.1⟩

/-- C18, refuted as stated: when the copy of the tail snapshot throws, `HistoryRestore`
on `tailStore` leaves `historyPosition` at 2 instead of 3, and `HistoryForward` on
`undoneStore` leaves it at 2 instead of 1. -/
theorem failed_clone_leaves_cursor_moved :
    WellFormed pairOps tailStore ∧ WellFormed pairOps undoneStore ∧
    (∃ m1, HistoryRestoreF pairOps cloneFails tailStore = .threw m1 ∧
      tailStore.historyPosition = 3 ∧ m1.historyPosition = 2 ∧
      m1.historyPosition ≠ tailStore.historyPosition) ∧
    (∃ m1, HistoryForwardF pairOps cloneFails undoneStore = .threw m1 ∧
      undoneStore.historyPosition = 1 ∧ m1.historyPosition = 2 ∧
      m1.historyPosition ≠ undoneStore.historyPosition) :=
  ⟨tailStore_represents.wf pairOps_roundTrip, undoneStore_represents.wf pairOps_roundTrip,
    ⟨_, rfl, rfl, rfl, by decide⟩, ⟨_, rfl, rfl, rfl, by decide⟩⟩

/-- C18, amended: modelling the snapshot copy and the delta `Restore` / `Forward` as
fallible, on a well-formed store: when an exception leaves `HistoryRestore()` or
`HistoryForward()`, the entries, `historyCurrent` and the limit are unchanged, and
`historyPosition` keeps the value written before the external call: one less than
before in `HistoryRestore`, one more in `HistoryForward` (no rollback). -/
theorem failed_step_keeps_entries_and_current (ops : SnapshotOps S D) (fail : Failures S D)
    (m : GameModel S D) (wf : WellFormed ops m) :
    (∀ m1, HistoryRestoreF ops fail m = .threw m1 →
      m1.history = m.history ∧ HistoryCurrent m1 = HistoryCurrent m ∧
      m1.undoHistoryLimit = m.undoHistoryLimit ∧
      m1.historyPosition + 1 = m.historyPosition) ∧
    (∀ m1, HistoryForwardF ops fail m = .threw m1 →
      m1.history = m.history ∧ HistoryCurrent m1 = HistoryCurrent m ∧
      m1.undoHistoryLimit = m.undoHistoryLimit ∧
      m1.historyPosition = m.historyPosition + 1) := by
  have hI1 := wf.I1
  have hfit := wf.fits
  constructor
  · intro m1 h
    obtain ⟨hcan, hm1⟩ := HistoryRestoreF_threw ops fail m m1 h
    have hpos : 0 < m.historyPosition := by simpa [HistoryCanRestore] using hcan
    have hsub : usub1 m.historyPosition = m.historyPosition - 1 :=
      usub1_pos hpos (by omega)
    rw [hsub] at hm1
    subst hm1
    exact ⟨rfl, rfl, rfl, by simp only; omega⟩
  · intro m1 h
    obtain ⟨hcan, hm1⟩ := HistoryForwardF_threw ops fail m m1 h
    have hlt : m.historyPosition < m.history.length := by
      simpa [HistoryCanForward] using hcan
    rw [uadd1_lt (by omega)] at hm1
    subst hm1
    exact ⟨rfl, rfl, rfl, rfl⟩

/-- Witness of C18 (amended): the copy of the tail snapshot fails in `HistoryRestore` on
`tailStore`, and the delta `Forward` fails in `HistoryForward` on `headStore`. -/
theorem failed_step_keeps_entries_and_current_witness :
    WellFormed pairOps tailStore ∧ WellFormed pairOps headStore ∧
    (∃ m1, HistoryRestoreF pairOps cloneFails tailStore = .threw m1 ∧
      m1.history = tailStore.history ∧ HistoryCurrent m1 = HistoryCurrent tailStore ∧
      m1.undoHistoryLimit = tailStore.undoHistoryLimit ∧
      m1.historyPosition + 1 = tailStore.historyPosition) ∧
    (∃ m1, HistoryForwardF pairOps forwardFails headStore = .threw m1 ∧
      m1.history = headStore.history ∧ HistoryCurrent m1 = HistoryCurrent headStore ∧
      m1.undoHistoryLimit = headStore.undoHistoryLimit ∧
      m1.historyPosition = headStore.historyPosition + 1) :=
  ⟨tailStore_represents.wf pairOps_roundTrip, headStore_represents.wf pairOps_roundTrip,
    ⟨{ tailStore with historyPosition := 2 }, rfl,
      (failed_step_keeps_entries_and_current pairOps cloneFails tailStore
        (tailStore_represents.wf pairOps_roundTrip)).1 { tailStore with historyPosition := 2 }
        rfl⟩,
    ⟨{ headStore with historyPosition := 1 }, rfl,
      (failed_step_keeps_entries_and_current pairOps forwardFails headStore
        (headStore_represents.wf pairOps_roundTrip)).2 { headStore with historyPosition := 1 }
        rfl⟩⟩

/-! ## Calls that are not permitted and the limit setter (C19, C20) -/

/-- C19: for every store state, `HistoryRestore()` called when `HistoryCanRestore()` is
false and `HistoryForward()` called when `HistoryCanForward()` is false return with
`history`, `historyPosition`, `historyCurrent` and the limit unchanged (also when
external operations may throw: none is called). -/
theorem not_permitted_is_no_op (ops : SnapshotOps S D) (fail : Failures S D)
    (m1 m2 : GameModel S D) (h1 : HistoryCanRestore m1 = false)
    (h2 : HistoryCanForward m2 = false) :
    HistoryRestore ops m1 = some m1 ∧ HistoryForward ops m2 = some m2 ∧
    HistoryRestoreF ops fail m1 = .returned m1 ∧
    HistoryForwardF ops fail m2 = .returned m2 := by
  refine ⟨?_, ?_, ?_, ?_⟩
  · simp only [HistoryRestore, h1, if_true]
  · simp only [HistoryForward, h2, if_true]
  · simp only [HistoryRestoreF, h1, if_true]
  · simp only [HistoryForwardF, h2, if_true]

/-- Witness of C19: undo at the head (`headStore`) and redo at the tail (`tailStore`). -/
theorem not_permitted_is_no_op_witness :
    HistoryCanRestore headStore = false ∧ HistoryCanForward tailStore = false ∧
    HistoryRestore pairOps headStore = some headStore ∧
    HistoryForward pairOps tailStore = some tailStore ∧
    HistoryRestoreF pairOps cloneFails headStore = .returned headStore ∧
    HistoryForwardF pairOps cloneFails tailStore = .returned tailStore :=
  ⟨rfl, rfl, not_permitted_is_no_op pairOps cloneFails headStore tailStore rfl rfl⟩

/-- C20, refuted as stated: `SetUndoHistoryLimit(0)` makes the limit 0, not 1, and
`SetUndoHistoryLimit(1000)` makes it 1000, not 200. -/
theorem set_limit_does_not_clamp :
    GetUndoHistoryLimit (SetUndoHistoryLimit (emptyStore 5 : GameModel Nat (Nat × Nat)) 0) = 0 ∧
    GetUndoHistoryLimit (SetUndoHistoryLimit (emptyStore 5 : GameModel Nat (Nat × Nat)) 0) ≠
      min (max 0 1) 200 ∧
    GetUndoHistoryLimit (SetUndoHistoryLimit (emptyStore 5 : GameModel Nat (Nat × Nat)) 1000) =
      1000 ∧
    GetUndoHistoryLimit (SetUndoHistoryLimit (emptyStore 5 : GameModel Nat (Nat × Nat)) 1000) ≠
      min (max 1000 1) 200 :=
  ⟨rfl, by decide, rfl, by decide⟩

/-- C20, amended: for every unsigned integer `u`, after `SetUndoHistoryLimit(u)` the
limit returned by `GetUndoHistoryLimit()` is `u` itself; it equals `u` clamped to
`[1, 200]` exactly when `1 ≤ u ≤ 200`. -/
theorem set_limit_stores_argument (m : GameModel S D) (u : Nat) :
    GetUndoHistoryLimit (SetUndoHistoryLimit m u) = u ∧
    (GetUndoHistoryLimit (SetUndoHistoryLimit m u) = min (max u 1) 200 ↔
      1 ≤ u ∧ u ≤ 200) := by
  refine ⟨rfl, ?_⟩
  show u = min (max u 1) 200 ↔ _
  omega

/-! ## Setting the limit (C21) -/

/-- `HistoryPush` before truncation on a well-formed store, whatever the deltas are. -/
theorem pushAppend_wf_size {ops : SnapshotOps S D} {m : GameModel S D} (wf : WellFormed ops m)
    (X : S) :
    ∃ m0, pushAppend ops m X = some m0 ∧
      m0.history.length = m.historyPosition + 1 ∧
      m0.historyPosition = uadd1 m.historyPosition ∧
      m0.historyCurrent = none ∧ m0.undoHistoryLimit = m.undoHistoryLimit := by
  have hI1 := wf.I1
  rcases Nat.eq_zero_or_pos m.historyPosition with h0 | hpos
  · exact ⟨_, (pushAppend_zero ops m X h0).2, by simp [h0], by simp [h0, uadd1, UINT_MOD],
      rfl, rfl⟩
  · obtain ⟨r, _, _, hres⟩ := pushAppend_wf wf X hpos
    refine ⟨_, hres, ?_, rfl, rfl, rfl⟩
    simp only [List.length_append, List.length_take, List.length_cons, List.length_nil]
    omega

/-- The truncation that ends `HistoryPush`, applied to the store `pushAppend` leaves
when the limit fits an `unsigned int`: the cursor ends at the size of the deque. -/
theorem truncate_after_append (m0 : GameModel S D) (pos : Nat) (hpos : pos < UINT_MOD)
    (hlen : m0.history.length = pos + 1) (hp : m0.historyPosition = uadd1 pos)
    (hlim : m0.undoHistoryLimit < UINT_MOD) :
    (truncate m0).history = m0.history.drop (pos + 1 - m0.undoHistoryLimit) ∧
      (truncate m0).history.length = min (pos + 1) m0.undoHistoryLimit ∧
      (truncate m0).historyPosition = min (pos + 1) m0.undoHistoryLimit ∧
      (truncate m0).historyCurrent = m0.historyCurrent ∧
      (truncate m0).undoHistoryLimit = m0.undoHistoryLimit := by
  have hmod : m0.historyPosition = m0.history.length % UINT_MOD := by
    rw [hp, hlen]; rfl
  have htr := truncateFront_mod m0.undoHistoryLimit m0.history hlim (by omega)
  rw [← hmod] at htr
  refine ⟨?_, ?_, ?_, rfl, rfl⟩
  · simp only [truncate, htr, hlen]
  · simp only [truncate, htr, List.length_drop, hlen]
    omega
  · simp only [truncate, htr, hlen]

/-- `HistoryPush` on a well-formed store whose limit fits an `unsigned int`. -/
theorem HistoryPush_wf {ops : SnapshotOps S D} {m : GameModel S D} (wf : WellFormed ops m)
    (X : S) (hlim : m.undoHistoryLimit < UINT_MOD) :
    ∃ m0 m1, pushAppend ops m X = some m0 ∧ HistoryPush ops m X = some m1 ∧
      m0.history.length = m.historyPosition + 1 ∧
      m1.history = m0.history.drop (m.historyPosition + 1 - m.undoHistoryLimit) ∧
      m1.history.length = min (m.historyPosition + 1) m.undoHistoryLimit ∧
      m1.historyPosition = min (m.historyPosition + 1) m.undoHistoryLimit ∧
      m1.historyCurrent = none ∧ m1.undoHistoryLimit = m.undoHistoryLimit := by
  obtain ⟨m0, h0, hlen, hp, hc, hl⟩ := pushAppend_wf_size wf X
  have hfit := wf.fits
  have hI1 := wf.I1
  obtain ⟨t1, t2, t3, t4, t5⟩ :=
    truncate_after_append m0 m.historyPosition (by omega) hlen hp (by rw [hl]; exact hlim)
  rw [hl] at t1 t2 t3
  exact ⟨m0, truncate m0, h0, by simp [HistoryPush, h0], hlen, t1, t2, t3, by rw [t4, hc],
    by rw [t5, hl]⟩

theorem WellFormed.withLimit {ops : SnapshotOps S D} {m : GameModel S D} (wf : WellFormed ops m)
    (u : Nat) : WellFormed ops (SetUndoHistoryLimit m u) :=
  ⟨wf.fits, wf.I1, wf.I3, wf.I4, wf.I6⟩

theorem HistoryRestore_setLimit (ops : SnapshotOps S D) (m : GameModel S D) (u : Nat) :
    HistoryRestore ops (SetUndoHistoryLimit m u) =
      (HistoryRestore ops m).map (fun m1 => SetUndoHistoryLimit m1 u) := by
  by_cases hc : m.historyPosition > 0
  · rcases h1 : m.history[usub1 m.historyPosition]? with _ | ⟨_ | s, _ | d⟩ <;>
      rcases hcur : m.historyCurrent with _ | c <;>
      simp [HistoryRestore, HistoryCanRestore, SetUndoHistoryLimit, hc, h1, hcur]
  · simp [HistoryRestore, HistoryCanRestore, SetUndoHistoryLimit, hc]

theorem HistoryForward_setLimit (ops : SnapshotOps S D) (m : GameModel S D) (u : Nat) :
    HistoryForward ops (SetUndoHistoryLimit m u) =
      (HistoryForward ops m).map (fun m1 => SetUndoHistoryLimit m1 u) := by
  by_cases hc : m.historyPosition < m.history.length
  · by_cases hN : uadd1 m.historyPosition = m.history.length
    · simp [HistoryForward, HistoryCanForward, SetUndoHistoryLimit, hc, hN]
    · rcases h1 : m.history[uadd1 m.historyPosition]? with _ | ⟨_ | s, _ | d⟩ <;>
        rcases h2 : m.history[usub1 (uadd1 m.historyPosition)]? with _ | ⟨_ | s2, _ | d2⟩ <;>
        rcases hcur : m.historyCurrent with _ | c <;>
        simp [HistoryForward, HistoryCanForward, SetUndoHistoryLimit, hc, hN, h1, h2, hcur]
  · simp [HistoryForward, HistoryCanForward, SetUndoHistoryLimit, hc]

theorem pushAppend_setLimit (ops : SnapshotOps S D) (m : GameModel S D) (u : Nat) (X : S) :
    pushAppend ops (SetUndoHistoryLimit m u) X =
      (pushAppend ops m X).map (fun m0 => SetUndoHistoryLimit m0 u) := by
  have hr : pushRebase ops (SetUndoHistoryLimit m u) = pushRebase ops m := rfl
  unfold pushAppend
  rw [hr]
  rcases pushRebase ops m with _ | _ | r
  · rfl
  · rfl
  · simp only [SetUndoHistoryLimit]
    rcases setPrevDelta (ops.FromSnapshots r X)
      (popBackLoop m.historyPosition m.history.length m.history) with _ | h
    · rfl
    · rfl

/-- C21: for every store state and every unsigned `u`, `SetUndoHistoryLimit(u)` changes
only the limit: entries (hence `N`), `historyPosition` and `historyCurrent` are
unchanged, also when `u` is smaller than `N`; `HistoryRestore` and `HistoryForward`
behave exactly as without the call, and the next `HistoryPush` is the one that applies
the new bound: it truncates with `u`, leaving `min(position + 1, u)` entries on a
well-formed store. -/
theorem set_limit_changes_only_limit (ops : SnapshotOps S D) (m : GameModel S D) (u : Nat)
    (X : S) :
    (SetUndoHistoryLimit m u).history = m.history ∧
    (SetUndoHistoryLimit m u).history.length = m.history.length ∧
    (SetUndoHistoryLimit m u).historyPosition = m.historyPosition ∧
    HistoryCurrent (SetUndoHistoryLimit m u) = HistoryCurrent m ∧
    GetUndoHistoryLimit (SetUndoHistoryLimit m u) = u ∧
    HistoryRestore ops (SetUndoHistoryLimit m u) =
      (HistoryRestore ops m).map (fun m1 => SetUndoHistoryLimit m1 u) ∧
    HistoryForward ops (SetUndoHistoryLimit m u) =
      (HistoryForward ops m).map (fun m1 => SetUndoHistoryLimit m1 u) ∧
    HistoryPush ops (SetUndoHistoryLimit m u) X =
      (pushAppend ops m X).map (fun m0 => truncate (SetUndoHistoryLimit m0 u)) ∧
    (WellFormed ops m → u < UINT_MOD →
      ∃ m1, HistoryPush ops (SetUndoHistoryLimit m u) X = some m1 ∧
        m1.history.length = min (m.historyPosition + 1) u) := by
  refine ⟨rfl, rfl, rfl, rfl, rfl, HistoryRestore_setLimit ops m u,
    HistoryForward_setLimit ops m u, ?_, ?_⟩
  · rw [HistoryPush, pushAppend_setLimit]
    rcases pushAppend ops m X with _ | m0 <;> rfl
  · intro wf hu
    obtain ⟨_, m1, _, h1, _, _, h2, _⟩ := HistoryPush_wf (wf.withLimit u) X hu
    exact ⟨m1, h1, h2⟩

/-- Witness of C21: lowering the limit of `tailStore` (three entries) to 1. -/
theorem set_limit_changes_only_limit_witness :
    WellFormed pairOps tailStore ∧ 1 < UINT_MOD ∧
    (SetUndoHistoryLimit tailStore 1).history = tailStore.history ∧
    (SetUndoHistoryLimit tailStore 1).history.length = 3 ∧
    GetUndoHistoryLimit (SetUndoHistoryLimit tailStore 1) = 1 ∧
    ∃ m1, HistoryPush pairOps (SetUndoHistoryLimit tailStore 1) 4 = some m1 ∧
      m1.history.length = min (tailStore.historyPosition + 1) 1 :=
  ⟨tailStore_represents.wf pairOps_roundTrip, by decide,
    (set_limit_changes_only_limit pairOps tailStore 1 4).1, rfl,
    (set_limit_changes_only_limit pairOps tailStore 1 4).2.2.2.2.1,
    (set_limit_changes_only_limit pairOps tailStore 1 4).2.2.2.2.2.2.2.2
      (tailStore_represents.wf pairOps_roundTrip) (by decide)⟩

/-! ## Construction, the two predicates and the cursor after a push (C22, C23, C24) -/

/-- C22, refuted as stated: with the stored preference value 0 the constructed model
has limit 0, not 1. -/
theorem constructed_limit_can_be_zero :
    GetUndoHistoryLimit (GameModel_ctor (some 0) : GameModel Nat (Nat × Nat)) = 0 ∧
    GetUndoHistoryLimit (GameModel_ctor (some 0) : GameModel Nat (Nat × Nat)) ≠
      min (max 0 1) 200 :=
  ⟨rfl, by decide⟩

/-- C22, amended: the constructed model has an empty history with the cursor at 0; its
limit is 5 when no preference value is stored, and for every stored value `v` it is
`min(v, 200)` (only the upper cap is applied), which equals `min(max(v, 1), 200)`
exactly when `v ≥ 1`. -/
theorem constructed_limit_is_capped (v : Nat) :
    (GameModel_ctor none : GameModel S D) = emptyStore 5 ∧
    (GameModel_ctor (some v) : GameModel S D) = emptyStore (min v 200) ∧
    GetUndoHistoryLimit (GameModel_ctor (some v) : GameModel S D) = min v 200 ∧
    (GetUndoHistoryLimit (GameModel_ctor (some v) : GameModel S D) = min (max v 1) 200 ↔
      1 ≤ v) := by
  have h2 : (GameModel_ctor (some v) : GameModel S D) = emptyStore (min v 200) := by
    unfold GameModel_ctor prefsGet
    simp only [Option.getD_some, emptyStore, SetUndoHistoryLimit]
    split
    · next h => rw [Nat.min_eq_right (by omega)]
    · next h => rw [Nat.min_eq_left (by omega)]
  refine ⟨rfl, h2, by rw [h2]; rfl, ?_⟩
  rw [h2]
  show min v 200 = min (max v 1) 200 ↔ _
  omega

/-- C23: for every store state satisfying I1, `HistoryCanRestore()` is true iff
`historyPosition > 0` and `HistoryCanForward()` is true iff `historyPosition < N`;
hence at the head (`N ≥ 1`, position 0) only redo is permitted, in the interior both
are, at the tail (`N ≥ 1`, position `N`) only undo is, and on the empty store neither
is. -/
theorem can_restore_can_forward (m : GameModel S D)
    (hI1 : m.historyPosition ≤ m.history.length) :
    (HistoryCanRestore m = true ↔ 0 < m.historyPosition) ∧
    (HistoryCanForward m = true ↔ m.historyPosition < m.history.length) ∧
    (1 ≤ m.history.length → m.historyPosition = 0 →
      HistoryCanRestore m = false ∧ HistoryCanForward m = true) ∧
    (0 < m.historyPosition → m.historyPosition < m.history.length →
      HistoryCanRestore m = true ∧ HistoryCanForward m = true) ∧
    (1 ≤ m.history.length → m.historyPosition = m.history.length →
      HistoryCanRestore m = true ∧ HistoryCanForward m = false) ∧
    (m.history.length = 0 →
      HistoryCanRestore m = false ∧ HistoryCanForward m = false) := by
  refine ⟨by simp [HistoryCanRestore], by simp [HistoryCanForward], ?_, ?_, ?_, ?_⟩
  · intro hN h0
    simp [HistoryCanRestore, HistoryCanForward, h0]
    omega
  · intro h0 hlt
    simp [HistoryCanRestore, HistoryCanForward, h0, hlt]
  · intro hN hp
    simp [HistoryCanRestore, HistoryCanForward, hp]
    omega
  · intro hN
    have : m.historyPosition = 0 := by omega
    simp [HistoryCanRestore, HistoryCanForward, this, hN]

/-- Witness of C23: the store left by three pushes and two undos (cursor 1 of 3). -/
theorem can_restore_can_forward_witness :
    undoneStore.historyPosition ≤ undoneStore.history.length ∧
    (HistoryCanRestore undoneStore = true ↔ 0 < undoneStore.historyPosition) ∧
    (HistoryCanForward undoneStore = true ↔
      undoneStore.historyPosition < undoneStore.history.length) ∧
    HistoryCanRestore undoneStore = true ∧ HistoryCanForward undoneStore = true :=
  ⟨by decide, (can_restore_can_forward undoneStore (by decide)).1,
    (can_restore_can_forward undoneStore (by decide)).2.1,
    (can_restore_can_forward undoneStore (by decide)).2.2.2.1 (by decide) (by decide)⟩

/-- C24: on every well-formed store (empty, at the tail, in the interior or at the
head), for every limit an `unsigned int` can hold and every snapshot `X`,
`HistoryPush(X)` is defined and leaves the cursor at the tail: `historyPosition = N`,
`HistoryCurrent()` is empty and `HistoryCanForward()` is false; the new `N` is
`min(old position + 1, limit)`, so no entry above the old cursor is left. -/
theorem push_leaves_cursor_at_tail (ops : SnapshotOps S D) (m : GameModel S D) (X : S)
    (wf : WellFormed ops m) (hlim : m.undoHistoryLimit < UINT_MOD) :
    ∃ m1, HistoryPush ops m X = some m1 ∧
      m1.historyPosition = m1.history.length ∧ HistoryCurrent m1 = none ∧
      HistoryCanForward m1 = false ∧
      m1.history.length = min (m.historyPosition + 1) m.undoHistoryLimit := by
  obtain ⟨_, m1, _, h1, _, _, h2, h3, h4, _⟩ := HistoryPush_wf wf X hlim
  refine ⟨m1, h1, by rw [h3, h2], h4, ?_, h2⟩
  simp [HistoryCanForward, h3, h2]

/-- Witness of C24: `Push 9` in the interior (`undoneStore`). -/
theorem push_leaves_cursor_at_tail_witness :
    WellFormed pairOps undoneStore ∧ undoneStore.undoHistoryLimit < UINT_MOD ∧
    ∃ m1, HistoryPush pairOps undoneStore 9 = some m1 ∧
      m1.historyPosition = m1.history.length ∧ HistoryCurrent m1 = none ∧
      HistoryCanForward m1 = false ∧
      m1.history.length = min (undoneStore.historyPosition + 1) undoneStore.undoHistoryLimit :=
  ⟨undoneStore_represents.wf pairOps_roundTrip, by decide,
    push_leaves_cursor_at_tail pairOps undoneStore 9
      (undoneStore_represents.wf pairOps_roundTrip) (by decide)⟩

/-! ## The empty state and the payloads of the entries (C25, C26) -/

/-- C25, refuted as stated: with limit 0 (accepted by `SetUndoHistoryLimit` and by the
constructor) `HistoryPush(7)` on the empty store yields the empty store again, and
after `Push 1; SetUndoHistoryLimit(0)` a further `HistoryPush(2)` brings the store with
one entry back to `N = 0`. -/
theorem push_at_limit_zero_empties_store :
    HistoryPush pairOps (emptyStore 0) 7 = some (emptyStore 0) ∧
    (GameModel_ctor (some 0) : GameModel Nat (Nat × Nat)) = emptyStore 0 ∧
    ∃ m m1, runOps pairOps (emptyStore 5) [.push 1, .setLimit ⟨0, by decide⟩] = some m ∧
      m.history.length = 1 ∧ HistoryPush pairOps m 2 = some m1 ∧
      m1.history.length = 0 ∧ m1.historyPosition = 0 :=
  ⟨rfl, rfl, _, _, rfl, rfl, rfl, rfl, rfl⟩

/-- C25, amended: for every snapshot `X` and every limit `≥ 1`, `HistoryPush(X)` on the
empty store yields `N = 1`, `position = 1` with the single entry holding `X`; and in
every state reachable from the empty store, `HistoryRestore`, `HistoryForward` and
`SetUndoHistoryLimit` leave the entries as they are, and `HistoryPush` leaves
`min(position + 1, limit)` entries: at least one when the limit is `≥ 1`, none when
the limit is 0. -/
theorem store_stays_non_empty (ops : SnapshotOps S D) (limit : Nat)
    (hlimit : limit < UINT_MOD) (l : List (HistoryOp S)) (X : S) :
    (1 ≤ limit →
      HistoryPush ops (emptyStore limit) X =
        some { history := [{ snap := some X, delta := none }], historyCurrent := none,
               historyPosition := 1, undoHistoryLimit := limit }) ∧
    ∃ m, runOps ops (emptyStore limit) l = some m ∧
      (∃ m1, HistoryPush ops m X = some m1 ∧
        m1.history.length = min (m.historyPosition + 1) m.undoHistoryLimit ∧
        (1 ≤ m.undoHistoryLimit → 1 ≤ m1.history.length) ∧
        (m.undoHistoryLimit = 0 → m1.history.length = 0)) ∧
      (∃ m1, HistoryRestore ops m = some m1 ∧ m1.history = m.history) ∧
      (∃ m1, HistoryForward ops m = some m1 ∧ m1.history = m.history) ∧
      (∀ u, (SetUndoHistoryLimit m u).history = m.history) := by
  constructor
  · intro h1
    have hz := (pushAppend_zero ops (emptyStore limit : GameModel S D) X rfl).2
    simp only [HistoryPush, hz, Option.map_some', truncate]
    rw [truncateFront_of_le _ _ _ (by simpa using h1)]
    rfl
  · obtain ⟨m, Lu, hrun, hrep⟩ := reachable_shape ops limit hlimit l
    refine ⟨m, hrun, ?_, ?_, ?_, fun _ => rfl⟩
    · obtain ⟨m1, h1, _, _, h2, _⟩ := shape_push ops hrep X
      exact ⟨m1, h1, h2, fun h => by rw [h2]; omega, fun h => by rw [h2, h]; omega⟩
    · obtain ⟨m1, h1, h2, _⟩ := shape_restore ops hrep
      exact ⟨m1, h1, h2⟩
    · obtain ⟨m1, h1, h2, _⟩ := shape_forward ops hrep
      exact ⟨m1, h1, h2⟩

/-- Witness of C25 (amended): limit 2, a run of pushes and undos, then `Push 9`. -/
theorem store_stays_non_empty_witness :
    2 < UINT_MOD ∧ 1 ≤ 2 ∧
    HistoryPush pairOps (emptyStore 2) 9 =
      some { history := [{ snap := some 9, delta := none }], historyCurrent := none,
             historyPosition := 1, undoHistoryLimit := 2 } ∧
    ∃ m, runOps pairOps (emptyStore 2) [.push 1, .push 2, .push 3, .restore, .restore] =
        some m ∧
      (∃ m1, HistoryPush pairOps m 9 = some m1 ∧
        m1.history.length = min (m.historyPosition + 1) m.undoHistoryLimit ∧
        (1 ≤ m.undoHistoryLimit → 1 ≤ m1.history.length) ∧
        (m.undoHistoryLimit = 0 → m1.history.length = 0)) ∧
      (∃ m1, HistoryRestore pairOps m = some m1 ∧ m1.history = m.history) ∧
      (∃ m1, HistoryForward pairOps m = some m1 ∧ m1.history = m.history) ∧
      (∀ u, (SetUndoHistoryLimit m u).history = m.history) :=
  ⟨by decide, by decide,
    (store_stays_non_empty pairOps 2 (by decide)
      [.push 1, .push 2, .push 3, .restore, .restore] 9).1 (by decide),
    (store_stays_non_empty pairOps 2 (by decide)
      [.push 1, .push 2, .push 3, .restore, .restore] 9).2⟩

/-- C26: in every state reachable from the empty store by `HistoryPush`,
`HistoryRestore`, `HistoryForward` and `SetUndoHistoryLimit`, every history entry owns
exactly one payload: the tail entry a snapshot and no delta, every older entry a delta
and no snapshot. -/
theorem entries_own_one_payload (ops : SnapshotOps S D) (limit : Nat)
    (hlimit : limit < UINT_MOD) (l : List (HistoryOp S)) :
    ∃ m, runOps ops (emptyStore limit) l = some m ∧
      ∀ i e, m.history[i]? = some e →
        ((e.snap ≠ none ∧ e.delta = none) ∨ (e.snap = none ∧ e.delta ≠ none)) ∧
        (i + 1 = m.history.length → ∃ s, e = { snap := some s, delta := none }) ∧
        (i + 1 < m.history.length → ∃ d, e = { snap := none, delta := some d }) := by
  obtain ⟨m, Lu, hrun, hrep⟩ := reachable_shape ops limit hlimit l
  refine ⟨m, hrun, ?_⟩
  intro i e he
  have hi : i < m.history.length := by
    rcases Nat.lt_or_ge i m.history.length with h | h
    · exact h
    · rw [List.getElem?_eq_none h] at he; cases he
  have htail : i + 1 = m.history.length → ∃ s, e = { snap := some s, delta := none } := by
    intro hN
    obtain ⟨s, hs⟩ := shape_tail hrep (by omega)
    have hidx : m.history.length - 1 = i := by omega
    rw [hidx, he] at hs
    exact ⟨s, Option.some.inj hs⟩
  have hold : i + 1 < m.history.length → ∃ d, e = { snap := none, delta := some d } := by
    intro hlt
    obtain ⟨d, hd⟩ := shape_older hrep i hlt
    rw [he] at hd
    exact ⟨d, Option.some.inj hd⟩
  refine ⟨?_, htail, hold⟩
  rcases Nat.lt_or_ge (i + 1) m.history.length with h | h
  · obtain ⟨d, hd⟩ := hold h
    subst hd
    exact Or.inr ⟨rfl, by simp⟩
  · obtain ⟨s, hs⟩ := htail (by omega)
    subst hs
    exact Or.inl ⟨by simp, rfl⟩

/-- Witness of C26: a run at limit 2 with truncation, undo, an interior push and a
lowered limit. -/
theorem entries_own_one_payload_witness :
    2 < UINT_MOD ∧
    ∃ m, runOps pairOps (emptyStore 2)
        [.push 1, .push 2, .push 3, .restore, .push 4, .setLimit ⟨1, by decide⟩, .restore] =
        some m ∧
      ∀ i e, m.history[i]? = some e →
        ((e.snap ≠ none ∧ e.delta = none) ∨ (e.snap = none ∧ e.delta ≠ none)) ∧
        (i + 1 = m.history.length → ∃ s, e = { snap := some s, delta := none }) ∧
        (i + 1 < m.history.length → ∃ d, e = { snap := none, delta := some d }) :=
  ⟨by decide, entries_own_one_payload pairOps 2 (by decide)
    [.push 1, .push 2, .push 3, .restore, .push 4, .setLimit ⟨1, by decide⟩, .restore]⟩

/-! ## Redo followed by undo (C27) -/

/-- Redo followed by undo on a well-formed store needs one fact only: when the new
cursor is below `N-1`, that `history[position].delta.Restore` undoes the `Forward` of
the same delta on the current snapshot. -/
theorem HistoryForward_HistoryRestore_wf (ops : SnapshotOps S D) (m : GameModel S D)
    (wf : WellFormed ops m) (hcan : HistoryCanForward m = true)
    (hlink : m.historyPosition + 2 < m.history.length →
      ∀ e d c, m.history[m.historyPosition]? = some e → e.delta = some d →
        HistoryCurrent m = some c → ops.Restore d (ops.Forward d c) = c) :
    ∃ m1 m2, HistoryForward ops m = some m1 ∧ HistoryRestore ops m1 = some m2 ∧
      m2.historyPosition = m.historyPosition ∧ HistoryCurrent m2 = HistoryCurrent m ∧
      m2.history = m.history ∧ m2.undoHistoryLimit = m.undoHistoryLimit := by
  have hlt : m.historyPosition < m.history.length := by simpa [HistoryCanForward] using hcan
  have hfit := wf.fits
  obtain ⟨c0, hc0⟩ := wf.L_some m.historyPosition hlt
  have hcur0 : m.historyCurrent = some c0 := by rw [wf.I6.1 hlt, hc0]
  rcases Nat.lt_or_ge (m.historyPosition + 1) m.history.length with hlt1 | hge1
  · rcases Nat.lt_or_ge (m.historyPosition + 2) m.history.length with hlt2 | hge2
    · obtain ⟨prev, d, c, hprev, hd, hc, _, hfw⟩ := HistoryForward_wf_delta wf hlt2
      obtain ⟨_, hsnap⟩ := wf.I4 m.historyPosition prev (by omega) hprev
      have hback := hlink hlt2 prev d c hprev hd hc
      have hsub : usub1 (m.historyPosition + 1) = m.historyPosition := by
        rw [← uadd1_lt (show m.historyPosition + 1 < UINT_MOD by omega)]
        exact usub1_uadd1 (by omega)
      refine ⟨_, { m with historyPosition := m.historyPosition,
                          historyCurrent := some (ops.Restore d (ops.Forward d c)) },
        hfw, ?_, rfl, ?_, rfl, rfl⟩
      · simp [HistoryRestore, HistoryCanRestore, hsub, hprev, hsnap, hd]
      · simp only [HistoryCurrent, hback, hc]
    · obtain ⟨r, hL, hfw⟩ := HistoryForward_wf_tail wf (by omega)
      have wf1 : WellFormed ops
          { m with historyPosition := m.historyPosition + 1, historyCurrent := some r } :=
        ⟨wf.fits, by simp only; omega, wf.I3, wf.I4, fun _ => hL.symm,
          fun h => by simp only at h; omega⟩
      obtain ⟨r2, hL2, hres⟩ := HistoryRestore_wf wf1 (by simp only; omega)
      simp only [Nat.add_sub_cancel] at hL2 hres
      refine ⟨_, _, hfw, hres, rfl, ?_, rfl, rfl⟩
      simp only [HistoryCurrent, hcur0]
      rw [← hc0, hL2]
  · have hfw := HistoryForward_wf_last wf (by omega)
    have wf1 : WellFormed ops
        { m with historyPosition := m.historyPosition + 1, historyCurrent := none } :=
      ⟨wf.fits, by simp only; omega, wf.I3, wf.I4, fun h => by simp only at h; omega,
        fun _ => rfl⟩
    obtain ⟨r2, hL2, hres⟩ := HistoryRestore_wf wf1 (by simp only; omega)
    simp only [Nat.add_sub_cancel] at hL2 hres
    refine ⟨_, _, hfw, hres, rfl, ?_, rfl, rfl⟩
    simp only [HistoryCurrent, hcur0]
    rw [← hc0, hL2]

/-- C27: for every well-formed store state (I1, I3-I6, with the deltas linking the
logical snapshots as the design comment of the history records) with
`HistoryCanForward()` true, `HistoryForward()` followed by `HistoryRestore()` is
defined and leaves `historyPosition`, `HistoryCurrent()` (by value), the history
entries and the limit equal to what they were before, for every cursor position
`0 ≤ position < N`; and under the round-trip law every store reached from the empty
store by the public operations is such a state and has the property. -/
theorem forward_then_restore (ops : SnapshotOps S D) :
    (∀ m : GameModel S D, WellFormed ops m → Linked ops m → HistoryCanForward m = true →
      ∃ m1 m2, HistoryForward ops m = some m1 ∧ HistoryRestore ops m1 = some m2 ∧
        m2.historyPosition = m.historyPosition ∧ HistoryCurrent m2 = HistoryCurrent m ∧
        m2.history = m.history ∧ m2.undoHistoryLimit = m.undoHistoryLimit) ∧
    (RoundTrip ops → ∀ (limit : Nat) (l : List (HistoryOp S)), limit < UINT_MOD →
      ∃ m, runOps ops (emptyStore limit) l = some m ∧ WellFormed ops m ∧ Linked ops m ∧
        (HistoryCanForward m = true →
          ∃ m1 m2, HistoryForward ops m = some m1 ∧ HistoryRestore ops m1 = some m2 ∧
            m2.historyPosition = m.historyPosition ∧
            HistoryCurrent m2 = HistoryCurrent m ∧
            m2.history = m.history ∧ m2.undoHistoryLimit = m.undoHistoryLimit)) := by
  have key : ∀ m : GameModel S D, WellFormed ops m → Linked ops m →
      HistoryCanForward m = true →
      ∃ m1 m2, HistoryForward ops m = some m1 ∧ HistoryRestore ops m1 = some m2 ∧
        m2.historyPosition = m.historyPosition ∧ HistoryCurrent m2 = HistoryCurrent m ∧
        m2.history = m.history ∧ m2.undoHistoryLimit = m.undoHistoryLimit := by
    intro m wf hlinked hcan
    have hlt : m.historyPosition < m.history.length := by
      simpa [HistoryCanForward] using hcan
    refine HistoryForward_HistoryRestore_wf ops m wf hcan (fun hlt2 e d c he hd hc => ?_)
    obtain ⟨b, hb⟩ := wf.L_some (m.historyPosition + 1) (by omega)
    have hLc : L ops m.history m.historyPosition = some c := by
      rw [← wf.I6.1 hlt]; exact hc
    have hfw := hlinked m.historyPosition e d c b (by omega) he hd hLc hb
    have hstep := L_step ops m.history m.historyPosition e (by omega) he
    rw [hd, hb, hLc] at hstep
    rw [hfw]
    exact (Option.some.inj hstep).symm
  refine ⟨key, fun hrt limit l hlimit => ?_⟩
  obtain ⟨m, hrun, wf, hlinked⟩ := reachable_wf_linked ops hrt limit hlimit l
  exact ⟨m, hrun, wf, hlinked, key m wf hlinked⟩

/-- Witness of C27: redo and undo from the head of the store left by three pushes and
three undos, and after a run with pushes, undos, a push in the middle and a redo. -/
theorem forward_then_restore_witness :
    (WellFormed pairOps headStore ∧ Linked pairOps headStore ∧
      HistoryCanForward headStore = true ∧
      ∃ m1 m2, HistoryForward pairOps headStore = some m1 ∧
        HistoryRestore pairOps m1 = some m2 ∧
        m2.historyPosition = headStore.historyPosition ∧
        HistoryCurrent m2 = HistoryCurrent headStore ∧
        m2.history = headStore.history ∧
        m2.undoHistoryLimit = headStore.undoHistoryLimit) ∧
    (RoundTrip pairOps ∧ 5 < UINT_MOD ∧
      ∃ m, runOps pairOps (emptyStore 5)
          [.push 1, .push 2, .push 3, .restore, .restore, .push 7, .push 8, .restore,
            .restore, .restore, .forward] = some m ∧
        WellFormed pairOps m ∧ Linked pairOps m ∧
        (HistoryCanForward m = true →
          ∃ m1 m2, HistoryForward pairOps m = some m1 ∧ HistoryRestore pairOps m1 = some m2 ∧
            m2.historyPosition = m.historyPosition ∧
            HistoryCurrent m2 = HistoryCurrent m ∧
            m2.history = m.history ∧ m2.undoHistoryLimit = m.undoHistoryLimit)) :=
  ⟨⟨headStore_represents.wf pairOps_roundTrip, headStore_represents.linked pairOps_roundTrip,
      rfl,
      (forward_then_restore pairOps).1 headStore (headStore_represents.wf pairOps_roundTrip)
        (headStore_represents.linked pairOps_roundTrip) rfl⟩,
    pairOps_roundTrip, by decide,
    (forward_then_restore pairOps).2 pairOps_roundTrip 5
      [.push 1, .push 2, .push 3, .restore, .restore, .push 7, .push 8, .restore,
        .restore, .restore, .forward] (by decide)⟩

/-! ## Repeated undo after a sequence of pushes (C28) -/

theorem LogicalHistory.run_append :
    ∀ (l1 l2 : List (HistoryOp S)) (a : LogicalHistory S),
      a.run (l1 ++ l2) = (a.run l1).run l2
  | [], _, _ => rfl
  | op :: rest, l2, a => by
    simp only [List.cons_append, LogicalHistory.run]
    exact LogicalHistory.run_append rest l2 (a.step op)

theorem LogicalHistory.run_restores :
    ∀ (k : Nat) (a : LogicalHistory S),
      a.run (List.replicate k HistoryOp.restore) = { a with position := a.position - k }
  | 0, _ => rfl
  | k + 1, a => by
    simp only [List.replicate_succ, LogicalHistory.run]
    rw [LogicalHistory.run_restores k (a.step .restore)]
    simp only [LogicalHistory.step]
    congr 1
    omega

/-- C28: for every limit `m ≥ 1` and every sequence `S1..Sn` with `1 ≤ n ≤ m` pushed
onto the empty store, under the round-trip law, `k` calls of `HistoryRestore()`
(`1 ≤ k ≤ n`) give `historyPosition = n-k` and `HistoryCurrent() = S(n-k+1)`, the
element of index `n-k` counting from 0: the first undo materialises `Sn`, the `n`-th
undo `S1`. -/
theorem undo_materialises_pushed_snapshots (ops : SnapshotOps S D) (hrt : RoundTrip ops)
    (limit : Nat) (hlimit : limit < UINT_MOD) (Ss : List S) (hn : Ss.length ≤ limit)
    (k : Nat) (hk1 : 1 ≤ k) (hk : k ≤ Ss.length) :
    ∃ m s, runOps ops (emptyStore limit)
        (Ss.map HistoryOp.push ++ List.replicate k HistoryOp.restore) = some m ∧
      m.historyPosition = Ss.length - k ∧
      Ss[Ss.length - k]? = some s ∧ HistoryCurrent m = some s ∧
      (k = 1 → Ss.getLast? = some s) ∧ (k = Ss.length → Ss.head? = some s) := by
  obtain ⟨m, hrun, hrep, hp, _⟩ := reachable_logical ops hrt limit hlimit
    (Ss.map HistoryOp.push ++ List.replicate k HistoryOp.restore)
  obtain ⟨h1, h2, _⟩ := LogicalHistory.run_pushes Ss
    { snapshots := [], position := 0, limit := limit } rfl (Nat.zero_le _)
  simp only [List.nil_append, List.length_nil, Nat.zero_add] at h1
  rw [show Ss.length - limit = 0 by omega, List.drop_zero] at h1
  rw [h1] at h2
  rw [LogicalHistory.run_append, LogicalHistory.run_restores] at hrep hp
  simp only [h1, h2] at hrep hp
  obtain ⟨s, hs⟩ := getElem?_some_of_lt' Ss (Ss.length - k) (by omega)
  refine ⟨m, s, hrun, hp, hs, by rw [HistoryCurrent, hrep.2.2.2.2, hp, hs], ?_, ?_⟩
  · intro h
    rw [List.getLast?_eq_getElem?, ← hs, h]
  · intro h
    rw [List.head?_eq_getElem?, ← hs, h, Nat.sub_self]

/-- Witness of C28: four pushes at limit 5 and three undos. -/
theorem undo_materialises_pushed_snapshots_witness :
    RoundTrip pairOps ∧ 5 < UINT_MOD ∧ [1, 2, 3, 4].length ≤ 5 ∧ 1 ≤ 3 ∧
    3 ≤ [1, 2, 3, 4].length ∧
    ∃ m s, runOps pairOps (emptyStore 5)
        ([1, 2, 3, 4].map HistoryOp.push ++ List.replicate 3 HistoryOp.restore) = some m ∧
      m.historyPosition = [1, 2, 3, 4].length - 3 ∧
      [1, 2, 3, 4][[1, 2, 3, 4].length - 3]? = some s ∧ HistoryCurrent m = some s ∧
      (3 = 1 → [1, 2, 3, 4].getLast? = some s) ∧
      (3 = [1, 2, 3, 4].length → [1, 2, 3, 4].head? = some s) :=
  ⟨pairOps_roundTrip, by decide, by decide, by decide, by decide,
    undo_materialises_pushed_snapshots pairOps pairOps_roundTrip 5 (by decide) [1, 2, 3, 4]
      (by decide) 3 (by decide) (by decide)⟩

/-! ## Push at a full tail and the absence of error branches (C29, C30) -/

/-- C29: on a well-formed store with `historyPosition = N = limit ≥ 1`, under the
round-trip law, `HistoryPush(X)` drops exactly the oldest logical snapshot and shifts
the others down by one index: the new `N` is the limit, the new `L(i)` is the old
`L(i+1)` for every `i < N-1`, and the new `L(N-1)` is `X`. -/
theorem push_at_full_tail_shifts_by_one (ops : SnapshotOps S D) (hrt : RoundTrip ops)
    (m : GameModel S D) (X : S) (wf : WellFormed ops m)
    (htail : m.historyPosition = m.history.length)
    (hfull : m.history.length = m.undoHistoryLimit) (hpos : 1 ≤ m.undoHistoryLimit) :
    ∃ m1, HistoryPush ops m X = some m1 ∧
      m1.history.length = m.undoHistoryLimit ∧
      m1.historyPosition = m1.history.length ∧
      (∀ i, i + 1 < m.history.length → L ops m1.history i = L ops m.history (i + 1)) ∧
      L ops m1.history (m.history.length - 1) = some X := by
  have hfit := wf.fits
  obtain ⟨m0, m1, h0, h1, _, hhist, hlen, hp, _, _⟩ := HistoryPush_wf wf X (by omega)
  obtain ⟨m0', h0', _, _, _, _, hX, hkeep⟩ := pushAppend_logical hrt wf X
  rw [h0] at h0'
  cases h0'
  have hdrop : m.historyPosition + 1 - m.undoHistoryLimit = 1 := by omega
  rw [hdrop] at hhist
  refine ⟨m1, h1, by rw [hlen]; omega, by rw [hp, hlen], ?_, ?_⟩
  · intro i hi
    rw [hhist, L_drop, hkeep (1 + i) (by omega), Nat.add_comm]
  · rw [hhist, L_drop, show 1 + (m.history.length - 1) = m.historyPosition by omega, hX]

/-- Witness of C29: `Push 4` on the full store (three entries, limit 3). -/
theorem push_at_full_tail_shifts_by_one_witness :
    RoundTrip pairOps ∧ WellFormed pairOps fullStore ∧
    fullStore.historyPosition = fullStore.history.length ∧
    fullStore.history.length = fullStore.undoHistoryLimit ∧
    1 ≤ fullStore.undoHistoryLimit ∧
    ∃ m1, HistoryPush pairOps fullStore 4 = some m1 ∧
      m1.history.length = fullStore.undoHistoryLimit ∧
      m1.historyPosition = m1.history.length ∧
      (∀ i, i + 1 < fullStore.history.length →
        L pairOps m1.history i = L pairOps fullStore.history (i + 1)) ∧
      L pairOps m1.history (fullStore.history.length - 1) = some 4 :=
  ⟨pairOps_roundTrip, fullStore_represents.wf pairOps_roundTrip, rfl, rfl, by decide,
    push_at_full_tail_shifts_by_one pairOps pairOps_roundTrip fullStore 4
      (fullStore_represents.wf pairOps_roundTrip) rfl rfl (by decide)⟩

/-- When the cursor equals the size of the deque and fits an `unsigned int`, the
truncation loop never decrements a cursor that is 0. -/
theorem truncateFrontChecked_tail (limit : Nat) :
    ∀ h : List (HistoryEntry S D), h.length < UINT_MOD →
      truncateFrontChecked limit h h.length = some (truncateFront limit h h.length)
  | [], _ => rfl
  | e :: rest, hfit => by
    have hlen : (e :: rest).length = rest.length + 1 := rfl
    have hsub : usub1 (rest.length + 1) = rest.length := by
      rw [usub1_pos (by omega) (by rw [← hlen]; exact hfit)]
      rfl
    simp only [truncateFrontChecked, truncateFront, hlen]
    split
    · rw [if_neg (by omega), hsub]
      exact truncateFrontChecked_tail limit rest (by rw [hlen] at hfit; omega)
    · rfl

/-- `HistoryPush` before truncation on a reachable store, whatever the deltas are. -/
theorem shape_pushAppend (ops : SnapshotOps S D) {m : GameModel S D} {Lu : List Unit}
    (hrep : Represents unitOps (erase m) Lu) (X : S) :
    ∃ m0, pushAppend ops m X = some m0 ∧ HistoryPush ops m X = some (truncate m0) ∧
      m0.history.length = m.historyPosition + 1 ∧
      m0.historyPosition = uadd1 m.historyPosition := by
  obtain ⟨mu, h1, h2, h3, _⟩ := pushAppend_wf_size (hrep.wf unitOps_roundTrip) ()
  rw [erase_pushAppend ops m X] at h1
  obtain ⟨m0, hm0, rfl⟩ := Option.map_eq_some'.mp h1
  rw [erase_length] at h2
  exact ⟨m0, hm0, by simp [HistoryPush, hm0], h2, h3⟩

/-- C30, amended: in every state reachable from the empty store by `HistoryPush`,
`HistoryRestore`, `HistoryForward` and `SetUndoHistoryLimit`, for every limit value
including 0: the run and each further `HistoryRestore`, `HistoryForward` and
`HistoryPush` are defined (every index used is below `N`, every payload dereferenced
is present, `back()` is taken on a non-empty deque); `HistoryRestore` decrements a
cursor that is above 0, and as long as the cursor is below `2^32 - 1`, the largest
`unsigned int`, the truncation loop of `HistoryPush` never decrements a cursor that
is 0. -/
theorem no_error_branch_taken (ops : SnapshotOps S D) (limit : Nat)
    (hlimit : limit < UINT_MOD) (l : List (HistoryOp S)) :
    ∃ m, runOps ops (emptyStore limit) l = some m ∧
      (∃ m1, HistoryRestore ops m = some m1) ∧
      (∃ m1, HistoryForward ops m = some m1) ∧
      (HistoryCanRestore m = true → 0 < m.historyPosition ∧
        usub1 m.historyPosition + 1 = m.historyPosition) ∧
      ∀ X, ∃ m0 m1, pushAppend ops m X = some m0 ∧ HistoryPush ops m X = some m1 ∧
        (m.historyPosition + 1 < UINT_MOD →
          truncateFrontChecked m0.undoHistoryLimit m0.history m0.historyPosition =
            some (m1.history, m1.historyPosition)) := by
  obtain ⟨m, Lu, hrun, hrep⟩ := reachable_shape ops limit hlimit l
  obtain ⟨hle, hfit, _⟩ := shape_bounds hrep
  refine ⟨m, hrun, ?_, ?_, ?_, ?_⟩
  · obtain ⟨m1, h1, _⟩ := shape_restore ops hrep
    exact ⟨m1, h1⟩
  · obtain ⟨m1, h1, _⟩ := shape_forward ops hrep
    exact ⟨m1, h1⟩
  · intro hcan
    have hpos : 0 < m.historyPosition := by simpa [HistoryCanRestore] using hcan
    refine ⟨hpos, ?_⟩
    rw [usub1_pos hpos (by omega)]
    omega
  · intro X
    obtain ⟨m0, h0, h1, hlen, hp⟩ := shape_pushAppend ops hrep X
    refine ⟨m0, truncate m0, h0, h1, ?_⟩
    intro hroom
    have hp2 : m0.historyPosition = m0.history.length := by
      rw [hp, hlen, uadd1_lt (by omega)]
    rw [hp2, truncateFrontChecked_tail _ _ (by omega)]
    simp only [truncate, hp2]

/-- Witness of C30 (amended): a run at limit 0 followed by a raised limit, pushes and undos. -/
theorem no_error_branch_taken_witness :
    0 < UINT_MOD ∧
    ∃ m, runOps pairOps (emptyStore 0)
        [.push 1, .restore, .forward, .setLimit ⟨2, by decide⟩, .push 2, .push 3, .push 4,
          .restore, .restore, .restore, .forward] = some m ∧
      (∃ m1, HistoryRestore pairOps m = some m1) ∧
      (∃ m1, HistoryForward pairOps m = some m1) ∧
      (HistoryCanRestore m = true → 0 < m.historyPosition ∧
        usub1 m.historyPosition + 1 = m.historyPosition) ∧
      ∀ X, ∃ m0 m1, pushAppend pairOps m X = some m0 ∧ HistoryPush pairOps m X = some m1 ∧
        (m.historyPosition + 1 < UINT_MOD →
          truncateFrontChecked m0.undoHistoryLimit m0.history m0.historyPosition =
            some (m1.history, m1.historyPosition)) :=
  ⟨by decide, no_error_branch_taken pairOps 0 (by decide)
    [.push 1, .restore, .forward, .setLimit ⟨2, by decide⟩, .push 2, .push 3, .push 4,
      .restore, .restore, .restore, .forward]⟩

/-! ## The cursor at the end of the unsigned range (C8, C30) -/

/-- The store after `2^32 - 1` pushes of `X` at limit `2^32 - 1`: the run is defined, the
store is well-formed, the deque holds `2^32 - 1` entries and the cursor is at its end. -/
theorem pushes_fill_unsigned_range (ops : SnapshotOps S D) (hrt : RoundTrip ops) (X : S) :
    ∃ m, runOps ops (emptyStore 4294967295)
        (List.replicate 4294967295 (HistoryOp.push X)) = some m ∧
      WellFormed ops m ∧ m.history.length = 4294967295 ∧
      m.historyPosition = 4294967295 ∧ m.undoHistoryLimit = 4294967295 := by
  obtain ⟨m, hrun, hrep, hpos, hlim⟩ :=
    reachable_logical ops hrt 4294967295 (by decide)
      ((List.replicate 4294967295 X).map HistoryOp.push)
  obtain ⟨h1, h2, h3⟩ :=
    LogicalHistory.run_pushes (List.replicate 4294967295 X)
      { snapshots := [], position := 0, limit := 4294967295 } rfl (Nat.zero_le _)
  rw [List.map_replicate] at hrun
  have hlen : m.history.length = 4294967295 := by
    rw [hrep.length_eq, h1]
    simp only [List.nil_append, List.length_nil, List.length_replicate, Nat.zero_add,
      Nat.sub_self, List.drop_zero]
  refine ⟨m, hrun, hrep.wf hrt, hlen, ?_, ?_⟩
  · rw [hpos, h2, ← hrep.length_eq, hlen]
  · rw [hlim, h3]

/-- `HistoryPush` on a well-formed store with the cursor and the limit at `2^32 - 1`:
`historyPosition += 1U` wraps the cursor to 0 while the deque grows to `2^32` entries,
so the truncation loop pops one entry and decrements the cursor at 0, which wraps it
back to `2^32 - 1`. -/
theorem HistoryPush_wraps (ops : SnapshotOps S D) (m : GameModel S D) (X : S)
    (wf : WellFormed ops m) (hpos : m.historyPosition = 4294967295)
    (hlim : m.undoHistoryLimit = 4294967295) :
    ∃ m0 m1, pushAppend ops m X = some m0 ∧ HistoryPush ops m X = some m1 ∧
      m0.history.length = 4294967296 ∧ m0.historyPosition = 0 ∧
      m0.undoHistoryLimit = 4294967295 ∧
      m1.history.length = 4294967295 ∧ m1.historyPosition = 4294967295 ∧
      truncateFrontChecked m0.undoHistoryLimit m0.history m0.historyPosition = none := by
  obtain ⟨m0, m1, h0, h1, hlen, _, hlen1, hpos1, _, _⟩ :=
    HistoryPush_wf wf X (by rw [hlim]; decide)
  obtain ⟨m0', h0', _, hp0, _, hl0⟩ := pushAppend_wf_size wf X
  rw [h0] at h0'
  cases h0'
  rw [hpos] at hlen hp0 hlen1 hpos1
  rw [hlim] at hl0 hlen1 hpos1
  have hp0' : m0.historyPosition = 0 := by rw [hp0]; decide
  refine ⟨m0, m1, h0, h1, hlen, hp0', hl0, hlen1, hpos1, ?_⟩
  rw [hl0, hp0']
  rcases hh : m0.history with _ | ⟨e, rest⟩
  · rw [hh] at hlen; simp at hlen
  · rw [hh] at hlen
    simp only [truncateFrontChecked, hlen]
    rw [if_pos (by decide), if_pos trivial]

/-- C8, refuted as stated: after `2^32 - 1` pushes at limit `2^32 - 1` the store is
well-formed with `N = historyPosition = 2^32 - 1` and a limit of at least 1; in the
next `HistoryPush` the append makes `N = 2^32` exceed the limit while
`historyPosition += 1U` has wrapped the cursor to 0, so the one entry popped is more
than the cursor: the decrement is taken at 0, goes below 0 and wraps, and the cursor
ends at `2^32 - 1` instead of one below its value before the loop. -/
theorem push_at_unsigned_max_wraps_cursor :
    ∃ m m0 m1, runOps pairOps (emptyStore 4294967295)
        (List.replicate 4294967295 (HistoryOp.push 0)) = some m ∧
      WellFormed pairOps m ∧ 1 ≤ m.undoHistoryLimit ∧
      pushAppend pairOps m 0 = some m0 ∧ HistoryPush pairOps m 0 = some m1 ∧
      m.undoHistoryLimit < m0.history.length ∧
      m1.history.length = m.undoHistoryLimit ∧
      m0.history.length - m1.history.length = 1 ∧
      m0.historyPosition = 0 ∧ m1.historyPosition = 4294967295 ∧
      ¬ (m0.history.length - m1.history.length ≤ m0.historyPosition) ∧
      m1.historyPosition ≠ m0.historyPosition - (m0.history.length - m1.history.length) ∧
      truncateFrontChecked m0.undoHistoryLimit m0.history m0.historyPosition = none := by
  obtain ⟨m, hrun, wf, _, hpos, hlim⟩ := pushes_fill_unsigned_range pairOps pairOps_roundTrip 0
  obtain ⟨m0, m1, h0, h1, hlen0, hp0, _, hlen1, hp1, hchk⟩ :=
    HistoryPush_wraps pairOps m 0 wf hpos hlim
  refine ⟨m, m0, m1, hrun, wf, ?_, h0, h1, ?_, ?_, ?_, hp0, hp1, ?_, ?_, hchk⟩
  · rw [hlim]; decide
  · rw [hlim, hlen0]; decide
  · rw [hlim, hlen1]
  · rw [hlen0, hlen1]
  · rw [hlen0, hlen1, hp0]; decide
  · rw [hlen0, hlen1, hp0, hp1]; decide

/-- C30, refuted as stated: the store after `2^32 - 1` pushes at limit `2^32 - 1` is
reachable from the empty store, and on it `HistoryPush` takes an error branch of the
checked truncation loop: `historyPosition += 1U` wraps the cursor to 0, the deque
exceeds the limit, and the unsigned `historyPosition` is decremented when it is 0. -/
theorem reachable_push_decrements_cursor_at_zero :
    ∃ m m0, runOps unitOps (emptyStore 4294967295)
        (List.replicate 4294967295 (HistoryOp.push ())) = some m ∧
      m.history.length = 4294967295 ∧ m.historyPosition = 4294967295 ∧
      pushAppend unitOps m () = some m0 ∧
      m0.undoHistoryLimit < m0.history.length ∧ m0.historyPosition = 0 ∧
      truncateFrontChecked m0.undoHistoryLimit m0.history m0.historyPosition = none := by
  obtain ⟨m, hrun, wf, hlen, hpos, hlim⟩ :=
    pushes_fill_unsigned_range unitOps unitOps_roundTrip ()
  obtain ⟨m0, _, h0, _, hlen0, hp0, hl0, _, _, hchk⟩ :=
    HistoryPush_wraps unitOps m () wf hpos hlim
  refine ⟨m, m0, hrun, hlen, hpos, h0, ?_, hp0, hchk⟩
  rw [hl0, hlen0]; decide

end ChemistryMode
